import Mathlib

/-! pyCMVision: colour segmentation and blob extraction

A shallow embedding of the segmentation core of `pyCMVision.c`
(`SegEncodeRuns`, `SegConnectComponents`, `SegExtractRegions`,
`SegSeparateRegions`, `SegSortRegions`, the segmentation loop of
`CameraAnalyse` and `CameraGetBlobs`) together with theorems about it.

Conventions of the embedding.

* C arrays (`segmented`, `rle`, `regions`, `colors`, the lookup tables) are
  total memories `Nat → α`; a store is `upd`.  The only capacity checks are the
  ones the source performs itself (`MAX_RUNS`, `MAX_REG`).
* `region *` pointers are `Option Nat`: `none` is `NULL`, `some i` is
  `&regions[i]`, and pointer arithmetic `list[i]` is `regions[head + i]`.
* A `while` loop whose termination depends on the data takes a `fuel`
  argument and returns `none` when the fuel runs out; `for` loops with a
  fixed trip count recurse on the number of remaining iterations.
* `short`/`int` values that are loop counters or sums of them are `Nat`;
  `min_area` is an `Int` (it is set by the caller to any `int`); the `float`
  centroid accumulators are exact rationals.
-/

namespace CMVision

/-! ## Constants -/

def MAX_WIDTH : Nat := 1280
def MAX_HEIGHT : Nat := 1024
def MAX_INT : Int := 2147483647
def COLOR_COUNT : Nat := 10
def CMV_RBITS : Nat := 6
def CMV_RADIX : Nat := 1 <<< CMV_RBITS
def CMV_RMASK : Nat := CMV_RADIX - 1
def MAX_RUNS : Nat := MAX_WIDTH * MAX_HEIGHT / 4
def MAX_REG : Nat := MAX_WIDTH * MAX_HEIGHT / 16

/-! ## Data model -/

/-- The C struct `run`. -/
structure run where
  x : Nat
  y : Nat
  width : Nat
  color : Nat
  parent : Nat
  next : Nat
deriving DecidableEq

/-- The C struct `region`; `next` is a pointer into the region table. -/
structure region where
  color : Nat
  x1 : Nat
  y1 : Nat
  x2 : Nat
  y2 : Nat
  cen_x : ℚ
  cen_y : ℚ
  area : Nat
  run_start : Nat
  iterator_id : Nat
  next : Option Nat
deriving DecidableEq

/-- The C struct `color_class_state` (without the unused `name`). -/
structure color_class_state where
  list : Option Nat
  num : Nat
  min_area : Int
  color : Nat
deriving DecidableEq

/-- Store `v` at index `i` of a memory. -/
def upd {α : Type} (f : Nat → α) (i : Nat) (v : α) : Nat → α :=
  fun k => if k = i then v else f k

/-- The store `map[i].parent = p`. -/
def setParent (map : Nat → run) (i p : Nat) : Nat → run :=
  upd map i { map i with parent := p }

/-- The store `map[i].next = p`. -/
def setNext (map : Nat → run) (i p : Nat) : Nat → run :=
  upd map i { map i with next := p }

/-- The test `self->colors[c].min_area < MAX_INT`. -/
def enabled (colors : Nat → color_class_state) (c : Nat) : Prop :=
  (colors c).min_area < MAX_INT

instance (colors : Nat → color_class_state) (c : Nat) : Decidable (enabled colors c) := by
  unfold enabled; infer_instance

/-! ## SegEncodeRuns -/

/-- The inner scan `while(row[x] == m) x++;`. -/
def scanRun (row : Nat → Nat) (m : Nat) : Nat → Nat → Option Nat
  | 0, _ => none
  | fuel + 1, x => if row x = m then scanRun row m fuel (x + 1) else some x

/-- The loop `while(x < w) { ... }` over one row.  The result is the run
array, the run counter and whether the `MAX_RUNS` exit was taken. -/
def encodeRow (colors : Nat → color_class_state) (w y : Nat) (row : Nat → Nat) (fuel0 : Nat) :
    Nat → Nat → (Nat → run) → Nat → Option ((Nat → run) × Nat × Bool)
  | 0, _, _, _ => none
  | fuel + 1, x, rle, j =>
    if x < w then
      match scanRun row (row x) fuel0 x with
      | none => none
      | some x' =>
        if enabled colors (row x) ∨ x' ≥ w then
          let rle' := upd rle j ⟨x, y, x' - x, row x, j, 0⟩
          if j + 1 ≥ MAX_RUNS then some (rle', j + 1, true)
          else encodeRow colors w y row fuel0 fuel x' rle' (j + 1)
        else encodeRow colors w y row fuel0 fuel x' rle j
    else some (rle, j, false)

/-- The loop `for(y = 0; y < h; y++)` of `SegEncodeRuns`, `n` rows remaining. -/
def encodeRows (colors : Nat → color_class_state) (w : Nat) (fuel0 : Nat) :
    Nat → Nat → (Nat → Nat) → Nat → (Nat → run) → Nat → Option ((Nat → Nat) × (Nat → run) × Nat)
  | 0, _, map, _, rle, j => some (map, rle, j)
  | n + 1, y, map, save, rle, j =>
    let map1 := upd map (y * w) save
    let save1 := map1 (y * w + w)
    let map2 := upd map1 (y * w + w) 255
    match encodeRow colors w y (fun x => map2 (y * w + x)) fuel0 fuel0 0 rle j with
    | none => none
    | some (rle', j', true) => some (upd map2 (y * w + w) save1, rle', j')
    | some (rle', j', false) => encodeRows colors w fuel0 n (y + 1) map2 save1 rle' j'

/-- `SegEncodeRuns`: from the segmented image `map` (width `w`, height `h`)
and the previous contents of `rle`, the image buffer afterwards, the run
array and `run_c`. -/
def SegEncodeRuns (colors : Nat → color_class_state) (w h : Nat) (fuel : Nat)
    (map : Nat → Nat) (rle : Nat → run) : Option ((Nat → Nat) × (Nat → run) × Nat) :=
  encodeRows colors w fuel h 0 map (map 0) rle 0

/-! ## SegConnectComponents -/

/-- The search `while(map[l1].y == 0) l1++;`. -/
def skipFirstLine (map : Nat → run) : Nat → Nat → Option Nat
  | 0, _ => none
  | fuel + 1, l1 => if (map l1).y = 0 then skipFirstLine map fuel (l1 + 1) else some l1

/-- The walk `while(i != map[i].parent) i = map[i].parent;`. -/
def findRoot (map : Nat → run) : Nat → Nat → Option Nat
  | 0, _ => none
  | fuel + 1, i => if i ≠ (map i).parent then findRoot map fuel (map i).parent else some i

/-- The local variables of the sweep of `SegConnectComponents`. -/
structure SweepState where
  map : Nat → run
  l1 : Nat
  l2 : Nat
  r1 : run
  r2 : run
  s : Nat

/-- The overlap test of two runs on adjacent rows. -/
def overlap (r1 r2 : run) : Prop :=
  (r2.x ≤ r1.x ∧ r1.x < r2.x + r2.width) ∨ (r1.x ≤ r2.x ∧ r2.x < r1.x + r1.width)

instance (r1 r2 : run) : Decidable (overlap r1 r2) := by
  unfold overlap; infer_instance

/-- The first half of the sweep body: inherit or union. -/
def sweepMerge (colors : Nat → color_class_state) (fuel : Nat) (st : SweepState) :
    Option SweepState :=
  if st.r1.color = st.r2.color ∧ enabled colors st.r1.color then
    if overlap st.r1 st.r2 then
      if st.s ≠ st.l1 then
        some { st with
          map := setParent st.map st.l1 st.r2.parent
          r1 := { st.r1 with parent := st.r2.parent }
          s := st.l1 }
      else if st.r1.parent ≠ st.r2.parent then
        match findRoot st.map fuel st.r1.parent with
        | none => none
        | some i =>
          match findRoot st.map fuel st.r2.parent with
          | none => none
          | some j =>
            if i < j then
              some { st with
                map := setParent (setParent (setParent st.map j i) st.l2 i) st.l1 i
                r1 := { st.r1 with parent := i }
                r2 := { st.r2 with parent := i } }
            else
              some { st with
                map := setParent (setParent (setParent st.map i j) st.l2 j) st.l1 j
                r1 := { st.r1 with parent := j }
                r2 := { st.r2 with parent := j } }
      else some st
    else some st
  else some st

/-- The second half of the sweep body: move to the next point where values
may change. -/
def sweepAdvance (st : SweepState) : SweepState :=
  let i : Int := ((st.r2.x + st.r2.width : Nat) : Int) - ((st.r1.x + st.r1.width : Nat) : Int)
  let st1 : SweepState :=
    if i ≥ 0 then { st with l1 := st.l1 + 1, r1 := st.map (st.l1 + 1) } else st
  if i ≤ 0 then { st1 with l2 := st1.l2 + 1, r2 := st1.map (st1.l2 + 1) } else st1

/-- The loop `while(l1 < num)`. -/
def sweep (colors : Nat → color_class_state) (num : Nat) (fuel0 : Nat) :
    Nat → SweepState → Option (Nat → run)
  | 0, _ => none
  | fuel + 1, st =>
    if st.l1 < num then
      match sweepMerge colors fuel0 st with
      | none => none
      | some st' => sweep colors num fuel0 fuel (sweepAdvance st')
    else some st.map

/-- The final loop `for(i=0; i<num; i++)` that compresses all parent paths,
`n` iterations remaining. -/
def compressPaths : Nat → Nat → (Nat → run) → (Nat → run)
  | 0, _, map => map
  | n + 1, i, map => compressPaths n (i + 1) (setParent map i (map (map i).parent).parent)

/-- `SegConnectComponents` on the run array `map` with `num = run_c`. -/
def SegConnectComponents (colors : Nat → color_class_state) (fuel : Nat)
    (map : Nat → run) (num : Nat) : Option (Nat → run) :=
  match skipFirstLine map fuel 1 with
  | none => none
  | some l1 =>
    match sweep colors num fuel fuel ⟨map, l1, 0, map l1, map 0, l1⟩ with
    | none => none
    | some map' => some (compressPaths num 0 map')

/-! ## SegExtractRegions -/

/-- The C function `range_sum`. -/
def range_sum (x w : Nat) : Nat := w * (2 * x + w - 1) / 2

/-- The first loop of `SegExtractRegions`, `k` iterations remaining.  The
result is the run array, the region table, `n` and whether the `MAX_REG`
exit was taken. -/
def extractLoop (colors : Nat → color_class_state) :
    Nat → Nat → (Nat → run) → (Nat → region) → Nat → (Nat → run) × (Nat → region) × Nat × Bool
  | 0, _, rmap, reg, n => (rmap, reg, n, false)
  | k + 1, i, rmap, reg, n =>
    if enabled colors (rmap i).color then
      let r := rmap i
      if r.parent = i then
        let rmap' := setParent rmap i n
        let reg' := upd reg n { reg n with
          color := r.color
          area := r.width
          x1 := r.x
          y1 := r.y
          x2 := r.x + r.width
          y2 := r.y
          cen_x := (range_sum r.x r.width : ℚ)
          cen_y := ((r.y * r.width : Nat) : ℚ)
          run_start := i
          iterator_id := i }
        if n + 1 ≥ MAX_REG then (rmap', reg', MAX_REG, true)
        else extractLoop colors k (i + 1) rmap' reg' (n + 1)
      else
        let b := (rmap r.parent).parent
        let rmap1 := setParent rmap i b
        let reg' := upd reg b { reg b with
          area := (reg b).area + r.width
          x2 := max (r.x + r.width) (reg b).x2
          x1 := min r.x (reg b).x1
          y2 := r.y
          cen_x := (reg b).cen_x + (range_sum r.x r.width : ℚ)
          cen_y := (reg b).cen_y + ((r.y * r.width : Nat) : ℚ) }
        let rmap' := setNext rmap1 (reg b).iterator_id i
        extractLoop colors k (i + 1) rmap' (upd reg' b { reg' b with iterator_id := i }) n
    else extractLoop colors k (i + 1) rmap reg n

/-- The second loop of `SegExtractRegions` (centroids from stored sums),
`k` iterations remaining. -/
def finalizeLoop : Nat → Nat → (Nat → run) → (Nat → region) → (Nat → run) × (Nat → region)
  | 0, _, rmap, reg => (rmap, reg)
  | k + 1, i, rmap, reg =>
    let a := (reg i).area
    let rmap' := setNext rmap (reg i).iterator_id 0
    let reg' := upd reg i { reg i with
      cen_x := (reg i).cen_x / (a : ℚ)
      cen_y := (reg i).cen_y / (a : ℚ)
      iterator_id := 0
      x2 := (reg i).x2 - 1 }
    finalizeLoop k (i + 1) rmap' reg'

/-- `SegExtractRegions`: the run array, the region table and `region_c`. -/
def SegExtractRegions (colors : Nat → color_class_state) (rmap : Nat → run)
    (reg : Nat → region) (num : Nat) : (Nat → run) × (Nat → region) × Nat :=
  match extractLoop colors num 0 rmap reg 0 with
  | (rmap', reg', n, true) => (rmap', reg', n)
  | (rmap', reg', n, false) =>
    let fin := finalizeLoop n 0 rmap' reg'
    (fin.1, fin.2, n)

/-! ## SegSeparateRegions -/

/-- The loop that clears the region list head table, `k` iterations remaining. -/
def clearLoop : Nat → Nat → (Nat → color_class_state) → (Nat → color_class_state)
  | 0, _, color => color
  | k + 1, i, color => clearLoop k (i + 1) (upd color i { color i with list := none, num := 0 })

/-- The loop over the region table, `k` iterations remaining; the state is
the region table, the colour table and `max_area`. -/
def separateLoop : Nat → Nat → (Nat → region) → (Nat → color_class_state) → Nat →
    (Nat → region) × (Nat → color_class_state) × Nat
  | 0, _, reg, color, max_area => (reg, color, max_area)
  | k + 1, i, reg, color, max_area =>
    let c := (reg i).color
    let area := (reg i).area
    if (area : Int) ≥ (color c).min_area then
      let max_area' := if area > max_area then area else max_area
      let color1 := upd color c { color c with num := (color c).num + 1 }
      let reg' := upd reg i { reg i with next := (color1 c).list }
      let color2 := upd color1 c { color1 c with list := some i }
      separateLoop k (i + 1) reg' color2 max_area'
    else separateLoop k (i + 1) reg color max_area

/-- `SegSeparateRegions`: the region table, the colour table and `max_area`. -/
def SegSeparateRegions (reg : Nat → region) (color : Nat → color_class_state) (num : Nat) :
    (Nat → region) × (Nat → color_class_state) × Nat :=
  separateLoop num 0 reg (clearLoop COLOR_COUNT 0 color) 0

/-! ## SegSortRegions -/

/-- The bucket loop `while(p) { ... }` that splits the list into buckets. -/
def splitLoop (shift : Nat) :
    Nat → Option Nat → (Nat → region) → (Nat → Option Nat) →
      Option ((Nat → region) × (Nat → Option Nat))
  | _, none, reg, tbl => some (reg, tbl)
  | 0, some _, _, _ => none
  | fuel + 1, some p, reg, tbl =>
    let pn := (reg p).next
    let slot := ((reg p).area >>> shift) &&& CMV_RMASK
    let reg' := upd reg p { reg p with next := tbl slot }
    splitLoop shift fuel pn reg' (upd tbl slot (some p))

/-- The loop `while(p) { ... }` that pushes one bucket onto the list. -/
def drainLoop :
    Nat → Option Nat → (Nat → region) → Option Nat → Option ((Nat → region) × Option Nat)
  | _, none, reg, list => some (reg, list)
  | 0, some _, _, _ => none
  | fuel + 1, some p, reg, list =>
    let pn := (reg p).next
    drainLoop fuel pn (upd reg p { reg p with next := list }) (some p)

/-- The loop `for(j=0; j<CMV_RADIX; j++)` that integrates the buckets back,
`k` iterations remaining. -/
def integrateLoop (fuel : Nat) :
    Nat → Nat → (Nat → region) → (Nat → Option Nat) → Option Nat →
      Option ((Nat → region) × (Nat → Option Nat) × Option Nat)
  | 0, _, reg, tbl, list => some (reg, tbl, list)
  | k + 1, j, reg, tbl, list =>
    match drainLoop fuel (tbl j) reg list with
    | none => none
    | some (reg', list') => integrateLoop fuel k (j + 1) reg' (upd tbl j none) list'

/-- The loop `for(i=0; i<passes; i++)`, `k` iterations remaining. -/
def passLoop (fuel : Nat) :
    Nat → Nat → (Nat → region) → (Nat → Option Nat) → Option Nat →
      Option ((Nat → region) × Option Nat)
  | 0, _, reg, _, list => some (reg, list)
  | k + 1, i, reg, tbl, list =>
    match splitLoop (CMV_RBITS * i) fuel list reg tbl with
    | none => none
    | some (reg1, tbl1) =>
      match integrateLoop fuel CMV_RADIX 0 reg1 tbl1 none with
      | none => none
      | some (reg2, tbl2, list2) => passLoop fuel k (i + 1) reg2 tbl2 list2

/-- `SegSortRegions(list, passes)` on the region table `reg`: the table
with its rewritten `next` links and the returned list head. -/
def SegSortRegions (fuel : Nat) (reg : Nat → region) (list : Option Nat) (passes : Nat) :
    Option ((Nat → region) × Option Nat) :=
  match list with
  | none => some (reg, list)
  | some p =>
    if (reg p).next = none then some (reg, list)
    else passLoop fuel passes 0 reg (fun _ => none) list

/-! ## CameraAnalyse and CameraGetBlobs -/

/-- The segmentation loop `for (xy = 0; xy < w*h; xy+=2)` of `CameraAnalyse`,
`k` iterations remaining. -/
def segmentLoop (pixel_active f colors_lookup : Nat → Nat) :
    Nat → Nat → (Nat → Nat) → (Nat → Nat)
  | 0, _, segmented => segmented
  | k + 1, xy, segmented =>
    if pixel_active xy ≠ 0 then
      let y1 := f (2 * xy)
      let u := f (2 * xy + 1)
      let y2 := f (2 * xy + 2)
      let v := f (2 * xy + 3)
      let seg1 := upd segmented xy (colors_lookup (y1 + (u <<< 8) + (v <<< 16)))
      segmentLoop pixel_active f colors_lookup k (xy + 2)
        (upd seg1 (xy + 1) (colors_lookup (y2 + (u <<< 8) + (v <<< 16))))
    else segmentLoop pixel_active f colors_lookup k (xy + 2) segmented

/-- The segmentation loop of `CameraAnalyse` on a `w`×`h` frame `f`. -/
def segment (pixel_active f colors_lookup : Nat → Nat) (w h : Nat) (segmented : Nat → Nat) :
    Nat → Nat :=
  segmentLoop pixel_active f colors_lookup ((w * h + 1) / 2) 0 segmented

/-- The loop `while( self->max_area != 0 )` of `CameraAnalyse`. -/
def passesLoop : Nat → Nat → Nat → Option (Nat × Nat)
  | 0, max_area, y => if max_area ≠ 0 then none else some (max_area, y)
  | fuel + 1, max_area, y =>
    if max_area ≠ 0 then passesLoop fuel (max_area >>> CMV_RBITS) (y + 1) else some (max_area, y)

/-- The part of the `Camera` object the segmentation core uses. -/
structure Camera where
  colors_lookup : Nat → Nat
  loc_r : Nat → Nat
  loc_phi : Nat → Nat
  pixel_active : Nat → Nat
  segmented : Nat → Nat
  width : Nat
  height : Nat
  rle : Nat → run
  regions : Nat → region
  colors : Nat → color_class_state
  run_c : Nat
  region_c : Nat
  max_area : Nat
  passes : Nat

/-- `CameraAnalyse` on the dequeued frame buffer `f`. -/
def CameraAnalyse (fuel : Nat) (self : Camera) (f : Nat → Nat) : Option Camera :=
  let seg := segment self.pixel_active f self.colors_lookup self.width self.height self.segmented
  match SegEncodeRuns self.colors self.width self.height fuel seg self.rle with
  | none => none
  | some (seg1, rle1, run_c) =>
    match SegConnectComponents self.colors fuel rle1 run_c with
    | none => none
    | some rle2 =>
      match SegExtractRegions self.colors rle2 self.regions run_c with
      | (rle3, reg3, region_c) =>
        match SegSeparateRegions reg3 self.colors region_c with
        | (reg4, colors4, max_area) =>
          match passesLoop fuel max_area 0 with
          | none => none
          | some (max_area', y) =>
            some { self with
              segmented := seg1, rle := rle3, regions := reg4, colors := colors4
              run_c := run_c, region_c := region_c, max_area := max_area', passes := y }

/-- The C library function `round` (half away from zero) on a rational. -/
def cround (q : ℚ) : Int :=
  if 0 ≤ q then ⌊q + 1 / 2⌋ else -⌊-q + 1 / 2⌋

/-- The conversion to `unsigned short`. -/
def toUShort (i : Int) : Nat := (i % 65536).toNat

/-- One row of the table of `CameraGetBlobs`, from the region `list[i]`. -/
def blobRow (self : Camera) (r : region) : List Nat :=
  let cen_x := toUShort (cround r.cen_x)
  let cen_y := toUShort (cround r.cen_y)
  let xy := cen_y * self.width + cen_x
  [self.loc_r xy, self.loc_phi xy, toUShort (min 65535 r.area), cen_x, cen_y,
    toUShort r.x1, toUShort r.x2, toUShort r.y1, toUShort r.y2]

/-- The loop `for (i=0; i<rows; i++)` of `CameraGetBlobs`, `k` iterations
remaining; `list[i]` is the region table entry `i` places after the head. -/
def blobRows (self : Camera) (regions : Nat → region) (head : Nat) : Nat → Nat → List (List Nat)
  | 0, _ => []
  | k + 1, i => blobRow self (regions (head + i)) :: blobRows self regions head k (i + 1)

/-- `CameraGetBlobs(color)`: the camera afterwards (the sort rewrites `next`
links) and the rows of the returned table. -/
def CameraGetBlobs (fuel : Nat) (self : Camera) (color : Nat) :
    Option (Camera × List (List Nat)) :=
  match SegSortRegions fuel self.regions (self.colors color).list self.passes with
  | none => none
  | some (reg', list) =>
    let rows := (self.colors color).num
    match list with
    | none => if rows = 0 then some ({ self with regions := reg' }, []) else none
    | some head => some ({ self with regions := reg' }, blobRows self reg' head rows 0)

/-! ## Specification vocabulary -/

/-- `IsChain next head l`: following the links `next` from the pointer `head`
visits exactly the nodes of `l`, in order, and then reaches `NULL`. -/
def IsChain (next : Nat → Option Nat) : Option Nat → List Nat → Prop
  | h, [] => h = none
  | h, p :: l => h = some p ∧ IsChain next (next p) l

instance (next : Nat → Option Nat) (h : Option Nat) (l : List Nat) :
    Decidable (IsChain next h l) := by
  induction l generalizing h with
  | nil => unfold IsChain; infer_instance
  | cons p l ih => unfold IsChain; infer_instance

/-! ## Example data -/

/-- Memory holding the entries of `l`, and `d` everywhere else. -/
def ofList {α : Type} (l : List α) (d : α) : Nat → α := fun i => l.getD i d

/-- A colour table in which class `c` has the `min_area` given by `l`
(`MAX_INT`, i.e. disabled, beyond the end of `l`). -/
def colorsOf (l : List Int) : Nat → color_class_state :=
  fun c => ⟨none, 0, l.getD c MAX_INT, c⟩

/-- A region of the given colour and area with all other fields zero. -/
def plainRegion (color area : Nat) : region :=
  ⟨color, 0, 0, 0, 0, 0, 0, area, 0, 0, none⟩

/-- A run array entry that no frame has written yet. -/
def blankRun : run := ⟨0, 0, 0, 0, 0, 0⟩

/-! ## Vocabulary for SegSortRegions -/

/-- A region with its `next` link erased: all the fields a sort must not touch. -/
def dropNext (r : region) : region := { r with next := none }

/-- The radix digit `(area >> shift) & CMV_RMASK` of one pass. -/
def radixDigit (shift a : Nat) : Nat := (a >>> shift) &&& CMV_RMASK

/-- The nodes of `l` with key in `[j, j + k)`, highest key first, nodes of
equal key in their order in `l`. -/
def gatherBuckets (key : Nat → Nat) (l : List Nat) : Nat → Nat → List Nat
  | _, 0 => []
  | j, k + 1 => gatherBuckets key l (j + 1) k ++ l.filter (fun q => decide (key q = j))

/-- The areas met when following at most `fuel` `next` links from `head`. -/
def regionAreas (reg : Nat → region) : Nat → Option Nat → List Nat
  | 0, _ => []
  | _ + 1, none => []
  | fuel + 1, some p => (reg p).area :: regionAreas reg fuel (reg p).next

/-- The list after passes `i, i + 1, ..., i + k - 1` of the radix sort, each
pass gathering the buckets of its digit. -/
def radixPasses (area : Nat → Nat) : Nat → Nat → List Nat → List Nat
  | _, 0, l => l
  | i, k + 1, l =>
    radixPasses area (i + 1) k
      (gatherBuckets (fun q => radixDigit (CMV_RBITS * i) (area q)) l 0 CMV_RADIX)

/-- A region table holding a linked list `0 → 1 → ... → n-1` of regions of
colour 1 with the given areas. -/
def chainTable (areas : List Nat) : Nat → region :=
  fun i => { plainRegion 1 (areas.getD i 0) with
    next := if i + 1 < areas.length then some (i + 1) else none }

/-! ## Vocabulary for SegEncodeRuns -/

/-- The sum of the widths of the runs `0 .. n-1` that lie on row `y`. -/
def rowWidthSum (rle : Nat → run) (y : Nat) : Nat → Nat
  | 0 => 0
  | n + 1 => rowWidthSum rle y n + if (rle n).y = y then (rle n).width else 0

/-- Pixel `t` of row `y` is retained by the encoder: its class is enabled, or
it lies in the last run of the row (every pixel from `t` to the end of the row
has its class), which is written whatever its class. -/
def retained (colors : Nat → color_class_state) (img : Nat → Nat) (w y t : Nat) : Prop :=
  enabled colors (img (y * w + t)) ∨
    ∀ s, s < w → t ≤ s → img (y * w + s) = img (y * w + t)

instance (colors : Nat → color_class_state) (img : Nat → Nat) (w y t : Nat) :
    Decidable (retained colors img w y t) := by
  unfold retained; infer_instance

/-- The number of retained pixels among the first `x` pixels of row `y`. -/
def retainedCount (colors : Nat → color_class_state) (img : Nat → Nat) (w y : Nat) : Nat → Nat
  | 0 => 0
  | x + 1 => retainedCount colors img w y x + if retained colors img w y x then 1 else 0

/-- State of the run encoder when it has written runs `0 .. j-1` and stands at
column `x` of row `y` of the image `img` of width `w`. -/
structure EncInv (colors : Nat → color_class_state) (img : Nat → Nat) (w : Nat)
    (rle : Nat → run) (j y x : Nat) : Prop where
  runs : ∀ i, i < j → (rle i).y ≤ y ∧ 1 ≤ (rle i).width ∧ (rle i).x + (rle i).width ≤ w ∧
    (rle i).parent = i ∧ (rle i).next = 0 ∧ ((rle i).y = y → (rle i).x + (rle i).width ≤ x)
  mono : ∀ i, i < j → ∀ t, t < (rle i).width →
    img ((rle i).y * w + (rle i).x + t) = (rle i).color
  step : ∀ i, i + 1 < j →
    ((rle (i + 1)).y = (rle i).y ∧ (rle i).x + (rle i).width ≤ (rle (i + 1)).x) ∨
    ((rle (i + 1)).y = (rle i).y + 1 ∧ (rle i).x + (rle i).width = w)
  first : 0 < j → (rle 0).y = 0
  last : (j = 0 ∧ (y = 0 ∨ w = 0)) ∨
    (0 < j ∧ (((rle (j - 1)).y = y ∧ (rle (j - 1)).x + (rle (j - 1)).width ≤ x) ∨
      ((rle (j - 1)).y + 1 = y ∧ (rle (j - 1)).x + (rle (j - 1)).width = w)))
  rowEnd : x = w → 0 < w →
    0 < j ∧ (rle (j - 1)).y = y ∧ (rle (j - 1)).x + (rle (j - 1)).width = w
  emitted : ∀ i, i < j → enabled colors (rle i).color ∨ (rle i).x + (rle i).width = w
  sumPrev : ∀ y', y' < y → rowWidthSum rle y' j = retainedCount colors img w y' w
  sumCur : rowWidthSum rle y j = retainedCount colors img w y x

/-- The 3×3 cross of class 1 on a background of class 0. -/
def crossImage : Nat → Nat := ofList [0, 1, 0, 1, 1, 1, 0, 1, 0] 0

/-- The colour table used with `crossImage`: class 1 enabled with
`min_area = 1`, every other class disabled. -/
def crossColors : Nat → color_class_state := colorsOf [MAX_INT, 1]

/-- The result of `SegEncodeRuns` on `crossImage`. -/
def crossRuns : (Nat → Nat) × (Nat → run) × Nat :=
  (SegEncodeRuns crossColors 3 3 10 crossImage (fun _ => blankRun)).getD
    (crossImage, fun _ => blankRun, 0)

/-! ## Vocabulary for SegConnectComponents -/

/-- The parent link of run `i`. -/
def parentOf (m : Nat → run) (i : Nat) : Nat := (m i).parent

/-- The end of the parent path of `i` in a forest on the indices below `num`
whose links never point upwards: `num` steps always suffice. -/
def rootOf (p : Nat → Nat) (num i : Nat) : Nat := p^[num] i

/-- Parent links of the first `num` runs never point to a larger index. -/
def Forest (p : Nat → Nat) (num : Nat) : Prop := ∀ i, i < num → p i ≤ i

/-- The horizontal spans `[x, x + width)` of two runs intersect. -/
def spansMeet (a b : run) : Prop := a.x < b.x + b.width ∧ b.x < a.x + a.width

instance (a b : run) : Decidable (spansMeet a b) := by
  unfold spansMeet; infer_instance

/-- Runs `a` and `b` of the run list are 4-neighbours: same class, vertically
adjacent rows, overlapping horizontal spans. -/
def Adjacent (rle : Nat → run) (num a b : Nat) : Prop :=
  a < num ∧ b < num ∧ (rle a).color = (rle b).color ∧
    ((rle a).y + 1 = (rle b).y ∨ (rle b).y + 1 = (rle a).y) ∧ spansMeet (rle a) (rle b)

/-- Runs `a` and `b` are linked by a chain of 4-neighbours. -/
def Connected (rle : Nat → run) (num : Nat) : Nat → Nat → Prop :=
  Relation.ReflTransGen (Adjacent rle num)

/-- The shape of a run list written by `SegEncodeRuns` for an image of width
`w`: runs are non-empty, lie inside the row, are their own parents, follow
each other left to right within a row, and a row is left only after the run
that ends at column `w`. -/
structure RowStruct (rle : Nat → run) (num w : Nat) : Prop where
  runs : ∀ i, i < num → 1 ≤ (rle i).width ∧ (rle i).x + (rle i).width ≤ w ∧
    (rle i).parent = i ∧ (rle i).next = 0
  step : ∀ i, i + 1 < num →
    ((rle (i + 1)).y = (rle i).y ∧ (rle i).x + (rle i).width ≤ (rle (i + 1)).x) ∨
    ((rle (i + 1)).y = (rle i).y + 1 ∧ (rle i).x + (rle i).width = w)
  first : 0 < num → (rle 0).y = 0

/-- A run with its `parent` link erased: the fields `SegConnectComponents`
must not touch. -/
def dropParent (r : run) : run := { r with parent := 0 }

/-- Invariant of the sweep of `SegConnectComponents` over the run list `rle0`
of `num` runs.  Pairs `(a, b)` of a run `a` and a run `b` on the row below it
count as handled when `b < l1`, or `b = l1` and `a < k`. -/
structure SweepInv (colors : Nat → color_class_state) (rle0 : Nat → run) (num : Nat)
    (st : SweepState) (k : Nat) : Prop where
  geom : ∀ i, dropParent (st.map i) = dropParent (rle0 i)
  r1eq : st.r1 = st.map st.l1
  r2eq : st.r2 = st.map st.l2
  lt : st.l2 < st.l1
  le : st.l1 ≤ num
  sle : st.s ≤ st.l1
  rows : st.l1 < num → (rle0 st.l1).y = (rle0 st.l2).y + 1
  forest : Forest (parentOf st.map) num
  fresh : ∀ i, st.l1 < i → i < num → parentOf st.map i = i
  fresh1 : st.s ≠ st.l1 → st.l1 < num → parentOf st.map st.l1 = st.l1
  sound : ∀ i, i < num → Connected rle0 num i (parentOf st.map i)
  passed : st.l1 < num → ∀ a, a < st.l2 → (rle0 a).y = (rle0 st.l2).y →
    (rle0 a).x + (rle0 a).width ≤ (rle0 st.l1).x + (rle0 st.l1).width
  done : ∀ a b, a < num → b < num → enabled colors (rle0 a).color →
    (rle0 a).color = (rle0 b).color → (rle0 a).y + 1 = (rle0 b).y →
    spansMeet (rle0 a) (rle0 b) → (b < st.l1 ∨ (b = st.l1 ∧ a < k)) →
    rootOf (parentOf st.map) num a = rootOf (parentOf st.map) num b

/-- What `SegConnectComponents` establishes on the run list `rle0`: the
labelled list `rle2` differs from it in the `parent` fields only; every run
points directly at a self-parented run at a smaller or equal index that it is
connected to; and 4-neighbours of an enabled class have the same parent. -/
structure Labelled (colors : Nat → color_class_state) (rle0 rle2 : Nat → run) (num : Nat) :
    Prop where
  geom : ∀ i, dropParent (rle2 i) = dropParent (rle0 i)
  le : ∀ i, i < num → (rle2 i).parent ≤ i
  idem : ∀ i, i < num → (rle2 (rle2 i).parent).parent = (rle2 i).parent
  conn : ∀ i, i < num → Connected rle0 num i (rle2 i).parent
  complete : ∀ a b, a < num → b < num → enabled colors (rle0 a).color →
    (rle0 a).color = (rle0 b).color → (rle0 a).y + 1 = (rle0 b).y →
    spansMeet (rle0 a) (rle0 b) → (rle2 a).parent = (rle2 b).parent

/-! ## Vocabulary for SegExtractRegions -/

/-- What `SegExtractRegions` relies on in its input: every run points at a
self-parented run of its own class at a smaller or equal index, rows do not
decrease along the list, runs are non-empty and their `next` links are 0. -/
structure ExtractPre (rmap0 : Nat → run) (num : Nat) : Prop where
  le : ∀ i, i < num → (rmap0 i).parent ≤ i
  idem : ∀ i, i < num → (rmap0 (rmap0 i).parent).parent = (rmap0 i).parent
  color : ∀ i, i < num → (rmap0 (rmap0 i).parent).color = (rmap0 i).color
  ymono : ∀ i k, i ≤ k → k < num → (rmap0 i).y ≤ (rmap0 k).y
  width : ∀ i, i < num → 1 ≤ (rmap0 i).width
  nextz : ∀ i, i < num → (rmap0 i).next = 0

/-- The runs below index `i` of an enabled class whose root is the run `s`,
in increasing order. -/
def members (colors : Nat → color_class_state) (rmap0 : Nat → run) (s i : Nat) : List Nat :=
  (List.range i).filter
    (fun u => decide (enabled colors (rmap0 u).color ∧ (rmap0 u).parent = s))

/-- Consecutive elements of the list are linked by `next`. -/
def Linked (next : Nat → Nat) : List Nat → Prop
  | [] => True
  | [_] => True
  | a :: b :: l => next a = b ∧ Linked next (b :: l)

/-- The runs visited by starting at run `i` and following the `next` links
until a `next` of 0 (at most `fuel` runs). -/
def threadedRuns (rmap : Nat → run) : Nat → Nat → List Nat
  | 0, _ => []
  | fuel + 1, i =>
    i :: (if (rmap i).next = 0 then [] else threadedRuns rmap fuel (rmap i).next)

/-- A run with its `parent` and `next` links erased. -/
def dropLinks (r : run) : run := { r with parent := 0, next := 0 }

/-- State of a region under construction when the runs below `i` have been
processed: its statistics are those of its member runs so far. -/
structure RegionOK (colors : Nat → color_class_state) (rmap0 rmap : Nat → run) (i : Nat)
    (r : region) : Prop where
  start_lt : r.run_start < i
  start_en : enabled colors (rmap0 r.run_start).color
  start_root : (rmap0 r.run_start).parent = r.run_start
  color : r.color = (rmap0 r.run_start).color
  area : r.area = ((members colors rmap0 r.run_start i).map (fun u => (rmap0 u).width)).sum
  x1_le : ∀ u, u ∈ members colors rmap0 r.run_start i → r.x1 ≤ (rmap0 u).x
  x1_mem : ∃ u, u ∈ members colors rmap0 r.run_start i ∧ (rmap0 u).x = r.x1
  x2_ge : ∀ u, u ∈ members colors rmap0 r.run_start i → (rmap0 u).x + (rmap0 u).width ≤ r.x2
  x2_mem : ∃ u, u ∈ members colors rmap0 r.run_start i ∧ (rmap0 u).x + (rmap0 u).width = r.x2
  y1 : r.y1 = (rmap0 r.run_start).y
  y2 : r.y2 = (rmap0 r.iterator_id).y
  cen_x : r.cen_x = ((members colors rmap0 r.run_start i).map
    (fun u => (range_sum (rmap0 u).x (rmap0 u).width : ℚ))).sum
  cen_y : r.cen_y = ((members colors rmap0 r.run_start i).map
    (fun u => (((rmap0 u).y * (rmap0 u).width : Nat) : ℚ))).sum
  last : (members colors rmap0 r.run_start i).getLast? = some r.iterator_id
  linked : Linked (fun u => (rmap u).next) (members colors rmap0 r.run_start i)
  last_next : (rmap r.iterator_id).next = 0

/-- Invariant of the first loop of `SegExtractRegions` when the runs below `i`
have been processed and `n` regions allocated. -/
structure ExtInv (colors : Nat → color_class_state) (rmap0 : Nat → run) (i : Nat)
    (rmap : Nat → run) (reg : Nat → region) (n : Nat) : Prop where
  unproc : ∀ u, i ≤ u → rmap u = rmap0 u
  geom : ∀ u, dropLinks (rmap u) = dropLinks (rmap0 u)
  assigned : ∀ u, u < i → enabled colors (rmap0 u).color →
    (rmap u).parent < n ∧ (reg (rmap u).parent).run_start = (rmap0 u).parent
  regions : ∀ b, b < n → RegionOK colors rmap0 rmap i (reg b) ∧
    (rmap (reg b).run_start).parent = b
  bound : n < MAX_REG

/-- The runs of region `b` in the run list left by `SegExtractRegions`: the
runs of an enabled class whose `parent` field holds the region index `b`, in
list order. -/
def regionRuns (colors : Nat → color_class_state) (rmap : Nat → run) (num b : Nat) : List Nat :=
  (List.range num).filter
    (fun u => decide (enabled colors (rmap u).color ∧ (rmap u).parent = b))

/-- The pixels `(x, y)` covered by the runs of a list. -/
def runPixels (rmap : Nat → run) (L : List Nat) : List (Nat × Nat) :=
  L.flatMap (fun u => (List.range (rmap u).width).map (fun t => ((rmap u).x + t, (rmap u).y)))

/-- What `SegExtractRegions` establishes for the finished region `r` of index
`b` over the run list `rmap` it leaves behind. -/
structure Extracted (colors : Nat → color_class_state) (rmap : Nat → run) (num b : Nat)
    (r : region) : Prop where
  start_mem : r.run_start ∈ regionRuns colors rmap num b
  threaded : ∀ fuel, num ≤ fuel →
    threadedRuns rmap fuel r.run_start = regionRuns colors rmap num b
  width : ∀ u, u ∈ regionRuns colors rmap num b → 1 ≤ (rmap u).width
  color : ∀ u, u ∈ regionRuns colors rmap num b → (rmap u).color = r.color
  area : r.area = ((regionRuns colors rmap num b).map (fun u => (rmap u).width)).sum
  x1_le : ∀ u, u ∈ regionRuns colors rmap num b → r.x1 ≤ (rmap u).x
  x1_mem : ∃ u, u ∈ regionRuns colors rmap num b ∧ (rmap u).x = r.x1
  x2_ge : ∀ u, u ∈ regionRuns colors rmap num b → (rmap u).x + (rmap u).width ≤ r.x2 + 1
  x2_mem : ∃ u, u ∈ regionRuns colors rmap num b ∧ (rmap u).x + (rmap u).width = r.x2 + 1
  y1_le : ∀ u, u ∈ regionRuns colors rmap num b → r.y1 ≤ (rmap u).y
  y1_mem : ∃ u, u ∈ regionRuns colors rmap num b ∧ (rmap u).y = r.y1
  y2_ge : ∀ u, u ∈ regionRuns colors rmap num b → (rmap u).y ≤ r.y2
  y2_mem : ∃ u, u ∈ regionRuns colors rmap num b ∧ (rmap u).y = r.y2
  cen_x : r.cen_x = ((regionRuns colors rmap num b).map
    (fun u => (range_sum (rmap u).x (rmap u).width : ℚ))).sum / (r.area : ℚ)
  cen_y : r.cen_y = ((regionRuns colors rmap num b).map
    (fun u => (((rmap u).y * (rmap u).width : Nat) : ℚ))).sum / (r.area : ℚ)
  iter : r.iterator_id = 0

/-- The run list of `crossImage` after `SegConnectComponents`. -/
def crossLabelled : Nat → run :=
  (SegConnectComponents crossColors 10 crossRuns.2.1 crossRuns.2.2).getD crossRuns.2.1

/-- A region table that no frame has written yet. -/
def blankRegions : Nat → region := fun _ => plainRegion 0 0

/-- The result of `SegExtractRegions` on the labelled runs of `crossImage`. -/
def crossRegions : (Nat → run) × (Nat → region) × Nat :=
  SegExtractRegions crossColors crossLabelled blankRegions crossRuns.2.2

/-- The colour table used with `blockRuns`: classes 1 and 2 enabled with
`min_area = 1`, every other class disabled. -/
def blockColors : Nat → color_class_state := colorsOf [MAX_INT, 1, 1]

/-- The labelled run list of a 640×480 image tiled with 2×1 blocks of the
classes 1 and 2 in a checkerboard (pixel `(x, y)` has class
`1 + (x / 2 + y) % 2`): 320 runs of width 2 per row, no two of one class
adjacent, so every run is its own parent. -/
def blockRuns : Nat → run := fun u =>
  ⟨2 * (u % 320), u / 320, 2, 1 + (u % 320 + u / 320) % 2, u, 0⟩

/-- A 4×2 segmented image: a class-1 blob of 3 pixels on the left, one
class-2 pixel, a class-1 blob of 2 pixels top right, class 0 elsewhere. -/
def mixedImage : Nat → Nat := ofList [1, 2, 1, 1, 1, 1, 0, 0] 0

/-- The YUYV frame whose luma bytes are the classes of `mixedImage` and whose
chroma bytes are 0. -/
def mixedFrame : Nat → Nat := fun k => if k % 2 = 0 then mixedImage (k / 2) else 0

/-- A camera of resolution 4×2 with every pixel active, a lookup table that
maps the index `y + (u << 8) + (v << 16)` to the class `y` for `y < 3`, and
`min_area` 2 for class 1, 1 for class 2, class 0 disabled. -/
def mixedCamera : Camera :=
  { colors_lookup := fun k => if k < 3 then k else 0
    loc_r := fun _ => 0
    loc_phi := fun _ => 0
    pixel_active := fun _ => 1
    segmented := fun _ => 0
    width := 4
    height := 2
    rle := fun _ => blankRun
    regions := blankRegions
    colors := colorsOf [MAX_INT, 2, 1]
    run_c := 0
    region_c := 0
    max_area := 0
    passes := 0 }

/-- The segmented image of `mixedCamera` after the segmentation loop on
`mixedFrame`. -/
def mixedSeg : Nat → Nat :=
  segment mixedCamera.pixel_active mixedFrame mixedCamera.colors_lookup 4 2
    mixedCamera.segmented

/-- The result of `SegEncodeRuns` on `mixedSeg`. -/
def mixedEnc : (Nat → Nat) × (Nat → run) × Nat :=
  (SegEncodeRuns mixedCamera.colors 4 2 20 mixedSeg mixedCamera.rle).getD
    (mixedSeg, mixedCamera.rle, 0)

/-- The run list of `mixedEnc` after `SegConnectComponents`. -/
def mixedCC : Nat → run :=
  (SegConnectComponents mixedCamera.colors 20 mixedEnc.2.1 mixedEnc.2.2).getD mixedEnc.2.1

/-- The result of `SegExtractRegions` on `mixedCC`. -/
def mixedEx : (Nat → run) × (Nat → region) × Nat :=
  SegExtractRegions mixedCamera.colors mixedCC mixedCamera.regions mixedEnc.2.2

/-- The result of `SegSeparateRegions` on the regions of `mixedEx`. -/
def mixedSep : (Nat → region) × (Nat → color_class_state) × Nat :=
  SegSeparateRegions mixedEx.2.1 mixedCamera.colors mixedEx.2.2

/-- The camera after `CameraAnalyse` on `mixedFrame`. -/
def mixedAnalysed : Camera :=
  { mixedCamera with
    segmented := mixedEnc.1, rle := mixedEx.1, regions := mixedSep.1, colors := mixedSep.2.1
    run_c := mixedEnc.2.2, region_c := mixedEx.2.2, max_area := 0, passes := 1 }

/-- The result of `SegSortRegions` on the class-1 list of `mixedAnalysed`. -/
def mixedSorted : (Nat → region) × Option Nat :=
  (SegSortRegions 20 mixedAnalysed.regions (mixedAnalysed.colors 1).list
    mixedAnalysed.passes).getD (mixedAnalysed.regions, none)

/-- The camera after `CameraGetBlobs(1)` on `mixedAnalysed`. -/
def mixedAfter : Camera := { mixedAnalysed with regions := mixedSorted.1 }

/-- The single-row segmented image `[1,1,2,2,1,1]` of the specification. -/
def rowImage : Nat → Nat := ofList [1, 1, 2, 2, 1, 1] 0

/-- The colour table used with `rowImage`: classes 1 and 2 enabled with
`min_area = 1`, every other class disabled. -/
def rowColors : Nat → color_class_state := colorsOf [MAX_INT, 1, 1]

/-- The result of `SegEncodeRuns` on `rowImage` (6×1) with a run array that
no frame has written yet. -/
def rowRuns : (Nat → Nat) × (Nat → run) × Nat :=
  (SegEncodeRuns rowColors 6 1 10 rowImage (fun _ => blankRun)).getD
    (rowImage, fun _ => blankRun, 0)

/-- A 2×2 segmented image in which every pixel holds `0xFF`; the memory after
the image buffer holds 0. -/
def ffImage : Nat → Nat := ofList [255, 255, 255, 255] 0

/-! ## Basic facts about stores -/

theorem upd_same {α : Type} (f : Nat → α) (i : Nat) (v : α) : upd f i v i = v := by
  simp [upd]

theorem upd_other {α : Type} (f : Nat → α) (i k : Nat) (v : α) (h : k ≠ i) :
    upd f i v k = f k := by
  simp [upd, h]

/-! ## The segmentation loop of CameraAnalyse -/

/-- Pointwise description of the segmentation loop started at `xy`. -/
theorem segmentLoop_apply (pixel_active f lut : Nat → Nat) (k : Nat) :
    ∀ (xy : Nat) (seg : Nat → Nat) (i : Nat),
      segmentLoop pixel_active f lut k xy seg i =
        if xy ≤ i ∧ i < xy + 2 * k ∧ pixel_active (xy + 2 * ((i - xy) / 2)) ≠ 0 then
          lut (f (2 * i) + (f (2 * (xy + 2 * ((i - xy) / 2)) + 1) <<< 8)
            + (f (2 * (xy + 2 * ((i - xy) / 2)) + 3) <<< 16))
        else seg i := by
  induction k with
  | zero =>
    intro xy seg i
    rw [segmentLoop, if_neg (fun h => absurd h.2.1 (by omega))]
  | succ k ih =>
    intro xy seg i
    have step : segmentLoop pixel_active f lut (k + 1) xy seg i =
        segmentLoop pixel_active f lut k (xy + 2)
          (if pixel_active xy ≠ 0 then
            upd (upd seg xy (lut (f (2 * xy) + (f (2 * xy + 1) <<< 8) + (f (2 * xy + 3) <<< 16))))
              (xy + 1) (lut (f (2 * xy + 2) + (f (2 * xy + 1) <<< 8) + (f (2 * xy + 3) <<< 16)))
           else seg) i := by
      rw [segmentLoop]; split <;> rfl
    rw [step, ih]
    by_cases hge : xy + 2 ≤ i
    · have e2 : xy + 2 + 2 * ((i - (xy + 2)) / 2) = xy + 2 * ((i - xy) / 2) := by omega
      rw [e2]
      have hi0 : i ≠ xy := by omega
      have hi1 : i ≠ xy + 1 := by omega
      have hold : (if pixel_active xy ≠ 0 then
            upd (upd seg xy (lut (f (2 * xy) + (f (2 * xy + 1) <<< 8) + (f (2 * xy + 3) <<< 16))))
              (xy + 1) (lut (f (2 * xy + 2) + (f (2 * xy + 1) <<< 8) + (f (2 * xy + 3) <<< 16)))
           else seg) i = seg i := by
        split
        · rw [upd_other _ _ _ _ hi1, upd_other _ _ _ _ hi0]
        · rfl
      rw [hold]
      by_cases hc : i < xy + 2 + 2 * k ∧ pixel_active (xy + 2 * ((i - xy) / 2)) ≠ 0
      · rw [if_pos ⟨hge, hc⟩, if_pos ⟨by omega, by omega, hc.2⟩]
      · rw [if_neg (fun h => hc h.2), if_neg (fun h => hc ⟨by omega, h.2.2⟩)]
    · rw [if_neg (fun h => hge h.1)]
      by_cases hlt : i < xy
      · have hold : (if pixel_active xy ≠ 0 then
              upd (upd seg xy (lut (f (2 * xy) + (f (2 * xy + 1) <<< 8) + (f (2 * xy + 3) <<< 16))))
                (xy + 1) (lut (f (2 * xy + 2) + (f (2 * xy + 1) <<< 8) + (f (2 * xy + 3) <<< 16)))
             else seg) i = seg i := by
          split
          · rw [upd_other _ _ _ _ (by omega), upd_other _ _ _ _ (by omega)]
          · rfl
        rw [hold, if_neg (fun h => absurd h.1 (by omega))]
      · have e0 : (i - xy) / 2 = 0 := by omega
        rw [e0]
        simp only [Nat.mul_zero, Nat.add_zero]
        by_cases ha : pixel_active xy ≠ 0
        · rw [if_pos ha, if_pos ⟨by omega, by omega, ha⟩]
          by_cases h0 : i = xy
          · subst h0
            rw [upd_other _ _ _ _ (by omega), upd_same]
          · have h1 : i = xy + 1 := by omega
            subst h1
            rw [upd_same, Nat.mul_add]
        · rw [if_neg ha, if_neg (fun h => ha h.2.2)]

/-- C4 (amended): with an even width, after the segmentation loop every pixel
`i < w * h` whose pair is active (the mask byte at the even index `2 * (i / 2)`
is nonzero) holds the LUT entry of its own luma byte and the chroma bytes of
its 4-byte pair. -/
theorem segment_active_pair (pixel_active f lut seg : Nat → Nat) (w h i : Nat)
    (hw : w % 2 = 0) (hi : i < w * h) (hact : pixel_active (2 * (i / 2)) ≠ 0) :
    segment pixel_active f lut w h seg i =
      lut (f (2 * i) + (f (4 * (i / 2) + 1) <<< 8) + (f (4 * (i / 2) + 3) <<< 16)) := by
  have hn : (w * h) % 2 = 0 := by rw [Nat.mul_mod, hw]; simp
  unfold segment
  generalize w * h = n at hi hn
  rw [segmentLoop_apply]
  have e1 : 0 + 2 * ((i - 0) / 2) = 2 * (i / 2) := by simp
  rw [e1, if_pos ⟨by omega, by omega, hact⟩]
  have e2 : 2 * (2 * (i / 2)) = 4 * (i / 2) := by omega
  rw [e2]

/-- The amended C4 statement applied to the second pixel of a 2×1 frame. -/
theorem segment_active_pair_witness :
    (2 % 2 = 0 ∧ 1 < 2 * 1 ∧ (fun _ : Nat => 1) (2 * (1 / 2)) ≠ 0) ∧
      segment (fun _ => 1) (fun k => k + 5) (fun k => k % 10) 2 1 (fun _ => 0) 1 =
        (fun k => k % 10) ((fun k => k + 5) (2 * 1) + ((fun k => k + 5) (4 * (1 / 2) + 1) <<< 8)
          + ((fun k => k + 5) (4 * (1 / 2) + 3) <<< 16)) :=
  ⟨by decide, segment_active_pair _ _ _ _ 2 1 1 (by decide) (by decide) (by decide)⟩

/-- C4 as stated fails: the loop tests only the mask byte of the first pixel of
each pair, so an odd pixel whose own mask byte is nonzero keeps its old value
when the even pixel before it is masked out. -/
theorem segment_own_mask_counterexample :
    ¬ (∀ (pixel_active f lut seg : Nat → Nat) (w h i : Nat), w % 2 = 0 → i < w * h →
        pixel_active i ≠ 0 →
        segment pixel_active f lut w h seg i =
          lut (f (2 * i) + (f (4 * (i / 2) + 1) <<< 8) + (f (4 * (i / 2) + 3) <<< 16))) := by
  intro H
  have h1 := H (fun i => if i = 1 then 1 else 0) (fun _ => 0) (fun _ => 3) (fun _ => 7) 2 1 1
    (by decide) (by decide) (by decide)
  revert h1
  decide

/-! ## SegSeparateRegions -/

theorem IsChain_congr {next next' : Nat → Option Nat} :
    ∀ (l : List Nat) (h : Option Nat), (∀ p ∈ l, next' p = next p) →
      IsChain next h l → IsChain next' h l := by
  intro l
  induction l with
  | nil => intro h _ hc; exact hc
  | cons p l ih =>
    intro h heq hc
    refine ⟨hc.1, ?_⟩
    rw [heq p (List.mem_cons_self _ _)]
    exact ih _ (fun q hq => heq q (List.mem_cons_of_mem _ hq)) hc.2

theorem clearLoop_apply (k : Nat) :
    ∀ (i : Nat) (color : Nat → color_class_state) (c : Nat),
      clearLoop k i color c =
        if i ≤ c ∧ c < i + k then { color c with list := none, num := 0 } else color c := by
  induction k with
  | zero =>
    intro i color c
    rw [clearLoop, if_neg (fun h => absurd h.2 (by omega))]
  | succ k ih =>
    intro i color c
    rw [clearLoop, ih]
    by_cases hc : c = i
    · subst hc
      rw [if_neg (fun h => absurd h.1 (by omega)), upd_same, if_pos ⟨by omega, by omega⟩]
    · rw [upd_other _ _ _ _ hc]
      by_cases h1 : i + 1 ≤ c ∧ c < i + 1 + k
      · rw [if_pos h1, if_pos ⟨by omega, by omega⟩]
      · rw [if_neg h1, if_neg (fun h => h1 ⟨by omega, by omega⟩)]

/-- One iteration of the loop of `SegSeparateRegions`. -/
theorem separateLoop_succ (k i : Nat) (reg : Nat → region) (color : Nat → color_class_state)
    (m : Nat) :
    separateLoop (k + 1) i reg color m =
      if ((reg i).area : Int) ≥ (color (reg i).color).min_area then
        separateLoop k (i + 1) (upd reg i { reg i with next := (color (reg i).color).list })
          (upd color (reg i).color
            { color (reg i).color with list := some i, num := (color (reg i).color).num + 1 })
          (max m (reg i).area)
      else separateLoop k (i + 1) reg color m := by
  rw [separateLoop]
  by_cases hs : ((reg i).area : Int) ≥ (color (reg i).color).min_area
  · simp only [if_pos hs, upd_same]
    have e1 : (upd (upd color (reg i).color
          { color (reg i).color with num := (color (reg i).color).num + 1 }) (reg i).color
          { list := some i, num := (color (reg i).color).num + 1,
            min_area := (color (reg i).color).min_area, color := (color (reg i).color).color }) =
        (upd color (reg i).color
          { color (reg i).color with list := some i, num := (color (reg i).color).num + 1 }) := by
      funext c
      by_cases hc : c = (reg i).color
      · rw [hc, upd_same, upd_same]
      · rw [upd_other _ _ _ _ hc, upd_other _ _ _ _ hc, upd_other _ _ _ _ hc]
    have e2 : (if (reg i).area > m then (reg i).area else m) = max m (reg i).area := by
      by_cases hm : (reg i).area > m
      · rw [if_pos hm]; omega
      · rw [if_neg hm]; omega
    rw [e1, e2]
  · simp only [if_neg hs]

/-- Invariant of the loop of `SegSeparateRegions` over the region table. -/
theorem separateLoop_spec (col area : Nat → Nat) (minA : Nat → Int) (k : Nat) :
    ∀ (i : Nat) (reg : Nat → region) (color : Nat → color_class_state) (m : Nat),
      (∀ j, (reg j).color = col j ∧ (reg j).area = area j) →
      (∀ c, (color c).min_area = minA c) →
      (∀ (c : Nat) (L : List Nat), IsChain (fun j => (reg j).next) (color c).list L →
        (∀ p ∈ L, p < i) →
        IsChain (fun j => ((separateLoop k i reg color m).1 j).next)
            ((separateLoop k i reg color m).2.1 c).list
            (((List.range' i k).filter
              (fun j => decide (col j = c ∧ (area j : Int) ≥ minA c))).reverse ++ L) ∧
          ((separateLoop k i reg color m).2.1 c).num = (color c).num +
            ((List.range' i k).filter
              (fun j => decide (col j = c ∧ (area j : Int) ≥ minA c))).length) ∧
      (separateLoop k i reg color m).2.2 =
        (((List.range' i k).filter (fun j => decide ((area j : Int) ≥ minA (col j)))).map
          area).foldl max m := by
  induction k with
  | zero =>
    intro i reg color m _ _
    refine ⟨fun c L hL _ => ⟨?_, ?_⟩, ?_⟩
    · simpa [separateLoop] using hL
    · simp [separateLoop]
    · simp [separateLoop]
  | succ k ih =>
    intro i reg color m hreg hcol
    rw [separateLoop_succ]
    have hcond : (((reg i).area : Int) ≥ (color (reg i).color).min_area) ↔
        ((area i : Int) ≥ minA (col i)) := by
      rw [(hreg i).1, (hreg i).2, hcol]
    have hci : (reg i).color = col i := (hreg i).1
    by_cases hs : ((reg i).area : Int) ≥ (color (reg i).color).min_area
    · rw [if_pos hs]
      have hs' := hcond.1 hs
      generalize hR : upd reg i { reg i with next := (color (reg i).color).list } = reg'
      generalize hC : upd color (reg i).color
            { color (reg i).color with list := some i, num := (color (reg i).color).num + 1 } = color'
      have hreg' : ∀ j, (reg' j).color = col j ∧ (reg' j).area = area j := by
        intro j
        rw [← hR]
        by_cases hj : j = i
        · subst hj; rw [upd_same]; exact hreg j
        · rw [upd_other _ _ _ _ hj]; exact hreg j
      have hcol' : ∀ c, (color' c).min_area = minA c := by
        intro c
        rw [← hC]
        by_cases hc : c = (reg i).color
        · rw [hc, upd_same]; exact hcol _
        · rw [upd_other _ _ _ _ hc]; exact hcol c
      obtain ⟨ih1, ih2⟩ := ih (i + 1) reg' color' (max m (reg i).area) hreg' hcol'
      refine ⟨fun c L hL hlt => ?_, ?_⟩
      · have hpres : IsChain (fun j => (reg' j).next) (color c).list L := by
          refine IsChain_congr L _ (fun p hp => ?_) hL
          have hne : p ≠ i := by have := hlt p hp; omega
          rw [← hR, upd_other _ _ _ _ hne]
        by_cases hc : c = col i
        · have hch : IsChain (fun j => (reg' j).next) (color' c).list (i :: L) := by
            rw [← hC, hc, ← hci, upd_same]
            refine ⟨rfl, ?_⟩
            have : (reg' i).next = (color (reg i).color).list := by rw [← hR, upd_same]
            show IsChain (fun j => (reg' j).next) (reg' i).next L
            rw [this, hci, ← hc]
            exact hpres
          have hlt' : ∀ p ∈ i :: L, p < i + 1 := by
            intro p hp
            rcases List.mem_cons.1 hp with h | h
            · omega
            · have := hlt p h; omega
          obtain ⟨a1, a2⟩ := ih1 c (i :: L) hch hlt'
          have hp : decide (col i = c ∧ (area i : Int) ≥ minA c) = true := by
            rw [hc]; simpa using hs'
          rw [List.range'_succ, List.filter_cons, if_pos hp, List.reverse_cons, List.append_assoc,
            List.singleton_append, List.length_cons]
          refine ⟨a1, ?_⟩
          rw [a2, ← hC, hc, ← hci, upd_same]
          simp only
          omega
        · have hne : c ≠ (reg i).color := by rw [hci]; exact hc
          have hch : IsChain (fun j => (reg' j).next) (color' c).list L := by
            rw [← hC, upd_other _ _ _ _ hne]
            exact hpres
          obtain ⟨a1, a2⟩ := ih1 c L hch (fun p hp => by have := hlt p hp; omega)
          have hp : ¬ (decide (col i = c ∧ (area i : Int) ≥ minA c) = true) := by
            simp only [decide_eq_true_eq]
            intro h; exact hc h.1.symm
          rw [List.range'_succ, List.filter_cons, if_neg hp]
          refine ⟨a1, ?_⟩
          rw [a2, ← hC, upd_other _ _ _ _ hne]
      · have hp : decide ((area i : Int) ≥ minA (col i)) = true := by simpa using hs'
        rw [ih2, List.range'_succ, List.filter_cons, if_pos hp, List.map_cons, List.foldl_cons,
          (hreg i).2]
    · rw [if_neg hs]
      have hs' : ¬ ((area i : Int) ≥ minA (col i)) := fun h => hs (hcond.2 h)
      obtain ⟨ih1, ih2⟩ := ih (i + 1) reg color m hreg hcol
      refine ⟨fun c L hL hlt => ?_, ?_⟩
      · obtain ⟨a1, a2⟩ := ih1 c L hL (fun p hp => by have := hlt p hp; omega)
        have hp : ¬ (decide (col i = c ∧ (area i : Int) ≥ minA c) = true) := by
          simp only [decide_eq_true_eq]
          intro h; rw [← h.1] at h; exact hs' h.2
        rw [List.range'_succ, List.filter_cons, if_neg hp]
        exact ⟨a1, a2⟩
      · have hp : ¬ (decide ((area i : Int) ≥ minA (col i)) = true) := by simpa using hs'
        rw [ih2, List.range'_succ, List.filter_cons, if_neg hp]

/-- C10: after `SegSeparateRegions`, for every colour `c < COLOR_COUNT` the
chain from `colors[c].list` through the `next` links consists of exactly the
regions `i < region_c` of colour `c` with `area >= min_area[c]`, in decreasing
table-index order; `colors[c].num` is the length of that chain; and `max_area`
is the largest area among all surviving regions (0 if none survives). -/
theorem SegSeparateRegions_lists (reg : Nat → region) (color : Nat → color_class_state)
    (num c : Nat) (hc : c < COLOR_COUNT) :
    IsChain (fun j => ((SegSeparateRegions reg color num).1 j).next)
        ((SegSeparateRegions reg color num).2.1 c).list
        ((List.range num).filter (fun j =>
          decide ((reg j).color = c ∧ ((reg j).area : Int) ≥ (color c).min_area))).reverse ∧
      ((SegSeparateRegions reg color num).2.1 c).num =
        ((List.range num).filter (fun j =>
          decide ((reg j).color = c ∧ ((reg j).area : Int) ≥ (color c).min_area))).length ∧
      (SegSeparateRegions reg color num).2.2 =
        (((List.range num).filter (fun j =>
          decide (((reg j).area : Int) ≥ (color (reg j).color).min_area))).map
            (fun j => (reg j).area)).foldl max 0 := by
  have hclr : ∀ c', (clearLoop COLOR_COUNT 0 color c').min_area = (color c').min_area := by
    intro c'
    rw [clearLoop_apply]
    split <;> rfl
  have hc0 : clearLoop COLOR_COUNT 0 color c = { color c with list := none, num := 0 } := by
    rw [clearLoop_apply, if_pos ⟨by omega, by omega⟩]
  obtain ⟨h1, h2⟩ := separateLoop_spec (fun j => (reg j).color) (fun j => (reg j).area)
    (fun c' => (color c').min_area) num 0 reg (clearLoop COLOR_COUNT 0 color) 0
    (fun j => ⟨rfl, rfl⟩) hclr
  have hnil : IsChain (fun j => (reg j).next) (clearLoop COLOR_COUNT 0 color c).list [] := by
    rw [hc0]; rfl
  obtain ⟨a1, a2⟩ := h1 c [] hnil (fun p hp => absurd hp (List.not_mem_nil p))
  rw [List.append_nil, ← List.range_eq_range'] at a1
  rw [← List.range_eq_range', hc0] at a2
  rw [← List.range_eq_range'] at h2
  refine ⟨a1, ?_, h2⟩
  rw [SegSeparateRegions, a2]
  simp

/-- C10 applied to a table of four regions with `min_area[1] = 3`. -/
theorem SegSeparateRegions_lists_witness :
    1 < COLOR_COUNT ∧
    (IsChain (fun j => ((SegSeparateRegions
          (ofList [plainRegion 1 5, plainRegion 2 9, plainRegion 1 2, plainRegion 1 4]
            (plainRegion 0 0)) (colorsOf [MAX_INT, 3, 1]) 4).1 j).next)
        ((SegSeparateRegions
          (ofList [plainRegion 1 5, plainRegion 2 9, plainRegion 1 2, plainRegion 1 4]
            (plainRegion 0 0)) (colorsOf [MAX_INT, 3, 1]) 4).2.1 1).list [3, 0] ∧
      ((SegSeparateRegions
          (ofList [plainRegion 1 5, plainRegion 2 9, plainRegion 1 2, plainRegion 1 4]
            (plainRegion 0 0)) (colorsOf [MAX_INT, 3, 1]) 4).2.1 1).num = 2 ∧
      (SegSeparateRegions
          (ofList [plainRegion 1 5, plainRegion 2 9, plainRegion 1 2, plainRegion 1 4]
            (plainRegion 0 0)) (colorsOf [MAX_INT, 3, 1]) 4).2.2 = 9) :=
  ⟨by decide, SegSeparateRegions_lists
    (ofList [plainRegion 1 5, plainRegion 2 9, plainRegion 1 2, plainRegion 1 4] (plainRegion 0 0))
    (colorsOf [MAX_INT, 3, 1]) 4 1 (by decide)⟩

/-! ## SegSortRegions -/

theorem IsChain_unique {next : Nat → Option Nat} :
    ∀ (l1 l2 : List Nat) (h : Option Nat), IsChain next h l1 → IsChain next h l2 → l1 = l2 := by
  intro l1
  induction l1 with
  | nil =>
    intro l2 h h1 h2
    cases l2 with
    | nil => rfl
    | cons q l2 =>
      have e1 : h = none := h1
      have e2 : h = some q := h2.1
      rw [e1] at e2; cases e2
  | cons p l1 ih =>
    intro l2 h h1 h2
    cases l2 with
    | nil =>
      have e1 : h = some p := h1.1
      have e2 : h = none := h2
      rw [e1] at e2; cases e2
    | cons q l2 =>
      have e1 : h = some p := h1.1
      have e2 : h = some q := h2.1
      rw [e1] at e2
      cases e2
      rw [ih l2 _ h1.2 h2.2]

theorem IsChain_tail_of_mem {next : Nat → Option Nat} :
    ∀ (l : List Nat) (h : Option Nat) (p : Nat), IsChain next h l → p ∈ l →
      ∃ l2, IsChain next (some p) (p :: l2) ∧ l2.length < l.length := by
  intro l
  induction l with
  | nil => intro h p _ hp; exact absurd hp (List.not_mem_nil p)
  | cons q l ih =>
    intro h p hc hp
    rcases List.mem_cons.1 hp with e | hm
    · subst e
      exact ⟨l, ⟨rfl, hc.2⟩, by simp⟩
    · obtain ⟨l2, h2, hlen⟩ := ih _ p hc.2 hm
      exact ⟨l2, h2, by simp; omega⟩

/-- A `NULL`-terminated chain never visits a node twice. -/
theorem IsChain_nodup {next : Nat → Option Nat} :
    ∀ (l : List Nat) (h : Option Nat), IsChain next h l → l.Nodup := by
  intro l
  induction l with
  | nil => intro _ _; exact List.nodup_nil
  | cons p l ih =>
    intro h hc
    refine List.nodup_cons.2 ⟨fun hp => ?_, ih _ hc.2⟩
    obtain ⟨l2, h2, hlen⟩ := IsChain_tail_of_mem l _ p hc.2 hp
    have := IsChain_unique l l2 _ hc.2 h2.2
    rw [this] at hlen
    omega

theorem dropNext_upd_next (reg : Nat → region) (p : Nat) (v : Option Nat) (q : Nat) :
    dropNext (upd reg p { reg p with next := v } q) = dropNext (reg q) := by
  by_cases hq : q = p
  · subst hq; rw [upd_same]; rfl
  · rw [upd_other _ _ _ _ hq]

theorem area_of_dropNext {r r' : region} (h : dropNext r' = dropNext r) : r'.area = r.area := by
  have : (dropNext r').area = (dropNext r).area := by rw [h]
  exact this

/-- The loop that splits the list into buckets pushes every node of the list
onto the front of the bucket of its digit. -/
theorem splitLoop_spec (shift : Nat) (area : Nat → Nat) :
    ∀ (l : List Nat) (fuel : Nat) (p : Option Nat) (reg : Nat → region)
      (tbl : Nat → Option Nat) (B : Nat → List Nat),
      IsChain (fun j => (reg j).next) p l → l.Nodup → l.length ≤ fuel →
      (∀ q, (reg q).area = area q) →
      (∀ s, IsChain (fun j => (reg j).next) (tbl s) (B s)) →
      (∀ s, ∀ q ∈ B s, q ∉ l) →
      ∃ reg' tbl', splitLoop shift fuel p reg tbl = some (reg', tbl') ∧
        (∀ q, dropNext (reg' q) = dropNext (reg q)) ∧
        (∀ s, IsChain (fun j => (reg' j).next) (tbl' s)
          ((l.filter (fun q => decide (radixDigit shift (area q) = s))).reverse ++ B s)) := by
  intro l
  induction l with
  | nil =>
    intro fuel p reg tbl B hc _ _ _ hB _
    have hp : p = none := hc
    subst hp
    refine ⟨reg, tbl, ?_, fun q => rfl, fun s => ?_⟩
    · cases fuel <;> rfl
    · simpa using hB s
  | cons p0 l ih =>
    intro fuel p reg tbl B hc hnd hf harea hB hdis
    have hp : p = some p0 := hc.1
    subst hp
    have hc2 : IsChain (fun j => (reg j).next) (reg p0).next l := hc.2
    obtain ⟨f, rfl⟩ : ∃ f, fuel = f + 1 := ⟨fuel - 1, by simp at hf; omega⟩
    have hp0 : p0 ∉ l := (List.nodup_cons.1 hnd).1
    rw [splitLoop]
    simp only []
    generalize hR : upd reg p0 { reg p0 with
      next := tbl (((reg p0).area >>> shift) &&& CMV_RMASK) } = reg1
    generalize hT : upd tbl (((reg p0).area >>> shift) &&& CMV_RMASK) (some p0) = tbl1
    have hslot : ((reg p0).area >>> shift) &&& CMV_RMASK = radixDigit shift (area p0) := by
      rw [harea]; rfl
    have hnx : ∀ q, q ≠ p0 → (reg1 q).next = (reg q).next := by
      intro q hq; rw [← hR, upd_other _ _ _ _ hq]
    have hd1 : ∀ q, dropNext (reg1 q) = dropNext (reg q) := by
      intro q; rw [← hR]; exact dropNext_upd_next _ _ _ _
    have hc1 : IsChain (fun j => (reg1 j).next) (reg p0).next l :=
      IsChain_congr l _ (fun q hq => hnx q (fun e => hp0 (e ▸ hq))) hc2
    have hB1 : ∀ s, IsChain (fun j => (reg1 j).next) (tbl1 s)
        (if s = radixDigit shift (area p0) then p0 :: B s else B s) := by
      intro s
      have hBs : IsChain (fun j => (reg1 j).next) (tbl s) (B s) :=
        IsChain_congr (B s) _
          (fun q hq => hnx q (fun e => hdis s q hq (e ▸ List.mem_cons_self _ _))) (hB s)
      by_cases hs : s = radixDigit shift (area p0)
      · rw [if_pos hs, ← hT, hslot, hs, upd_same]
        refine ⟨rfl, ?_⟩
        show IsChain (fun j => (reg1 j).next) (reg1 p0).next _
        have : (reg1 p0).next = tbl (radixDigit shift (area p0)) := by
          rw [← hR, upd_same, hslot]
        rw [this, ← hs]
        exact hBs
      · rw [if_neg hs, ← hT, hslot, upd_other _ _ _ _ hs]
        exact hBs
    have hdis1 : ∀ s, ∀ q ∈ (if s = radixDigit shift (area p0) then p0 :: B s else B s),
        q ∉ l := by
      intro s q hq
      have hq' : q = p0 ∨ q ∈ B s := by
        by_cases hs : s = radixDigit shift (area p0)
        · rw [if_pos hs] at hq; exact List.mem_cons.1 hq
        · rw [if_neg hs] at hq; exact Or.inr hq
      rcases hq' with e | hm
      · rw [e]; exact hp0
      · exact fun hl => hdis s q hm (List.mem_cons_of_mem _ hl)
    obtain ⟨reg', tbl', e, hd, hch⟩ := ih f _ reg1 tbl1 _ hc1 (List.nodup_cons.1 hnd).2
      (by simp at hf; omega) (fun q => by rw [area_of_dropNext (hd1 q)]; exact harea q) hB1 hdis1
    refine ⟨reg', tbl', e, fun q => (hd q).trans (hd1 q), fun s => ?_⟩
    have := hch s
    by_cases hs : s = radixDigit shift (area p0)
    · rw [if_pos hs] at this
      have hp : decide (radixDigit shift (area p0) = s) = true := by simp [hs]
      rw [List.filter_cons, if_pos hp, List.reverse_cons, List.append_assoc,
        List.singleton_append]
      exact this
    · rw [if_neg hs] at this
      have hp : ¬ (decide (radixDigit shift (area p0) = s) = true) := by
        simp only [decide_eq_true_eq]; exact fun e => hs e.symm
      rw [List.filter_cons, if_neg hp]
      exact this

/-- Draining a bucket pushes its nodes, in chain order, onto the front of the
list. -/
theorem drainLoop_spec :
    ∀ (B : List Nat) (fuel : Nat) (p : Option Nat) (reg : Nat → region) (list : Option Nat)
      (L : List Nat),
      IsChain (fun j => (reg j).next) p B → IsChain (fun j => (reg j).next) list L →
      B.Nodup → (∀ q ∈ B, q ∉ L) → B.length ≤ fuel →
      ∃ reg' list', drainLoop fuel p reg list = some (reg', list') ∧
        (∀ q, dropNext (reg' q) = dropNext (reg q)) ∧
        (∀ q, q ∉ B → reg' q = reg q) ∧
        IsChain (fun j => (reg' j).next) list' (B.reverse ++ L) := by
  intro B
  induction B with
  | nil =>
    intro fuel p reg list L hc hL _ _ _
    have hp : p = none := hc
    subst hp
    refine ⟨reg, list, ?_, fun q => rfl, fun q _ => rfl, ?_⟩
    · cases fuel <;> rfl
    · simpa using hL
  | cons p0 B ih =>
    intro fuel p reg list L hc hL hnd hdis hf
    have hp : p = some p0 := hc.1
    subst hp
    have hc2 : IsChain (fun j => (reg j).next) (reg p0).next B := hc.2
    obtain ⟨f, rfl⟩ : ∃ f, fuel = f + 1 := ⟨fuel - 1, by simp at hf; omega⟩
    have hp0 : p0 ∉ B := (List.nodup_cons.1 hnd).1
    have hp0L : p0 ∉ L := hdis p0 (List.mem_cons_self _ _)
    rw [drainLoop]
    simp only []
    generalize hR : upd reg p0 { reg p0 with next := list } = reg1
    have hnx : ∀ q, q ≠ p0 → (reg1 q).next = (reg q).next := by
      intro q hq; rw [← hR, upd_other _ _ _ _ hq]
    have hd1 : ∀ q, dropNext (reg1 q) = dropNext (reg q) := by
      intro q; rw [← hR]; exact dropNext_upd_next _ _ _ _
    have hc1 : IsChain (fun j => (reg1 j).next) (reg p0).next B :=
      IsChain_congr B _ (fun q hq => hnx q (fun e => hp0 (e ▸ hq))) hc2
    have hL1 : IsChain (fun j => (reg1 j).next) (some p0) (p0 :: L) := by
      refine ⟨rfl, ?_⟩
      show IsChain (fun j => (reg1 j).next) (reg1 p0).next L
      have : (reg1 p0).next = list := by rw [← hR, upd_same]
      rw [this]
      exact IsChain_congr L _ (fun q hq => hnx q (fun e => hp0L (e ▸ hq))) hL
    have hdis1 : ∀ q ∈ B, q ∉ p0 :: L := by
      intro q hq hm
      rcases List.mem_cons.1 hm with e | h
      · exact hp0 (e ▸ hq)
      · exact hdis q (List.mem_cons_of_mem _ hq) h
    obtain ⟨reg', list', e, hd, hfr, hch⟩ := ih f _ reg1 (some p0) (p0 :: L) hc1 hL1
      (List.nodup_cons.1 hnd).2 hdis1 (by simp at hf; omega)
    refine ⟨reg', list', e, fun q => (hd q).trans (hd1 q), fun q hq => ?_, ?_⟩
    · have hq0 : q ≠ p0 := fun e => hq (e ▸ List.mem_cons_self _ _)
      rw [hfr q (fun h => hq (List.mem_cons_of_mem _ h)), ← hR, upd_other _ _ _ _ hq0]
    · rw [List.reverse_cons, List.append_assoc, List.singleton_append]
      exact hch

theorem gatherBuckets_zero (key : Nat → Nat) (l : List Nat) (j : Nat) :
    gatherBuckets key l j 0 = [] := rfl

theorem gatherBuckets_succ (key : Nat → Nat) (l : List Nat) (j k : Nat) :
    gatherBuckets key l j (k + 1) =
      gatherBuckets key l (j + 1) k ++ l.filter (fun q => decide (key q = j)) := rfl

attribute [irreducible] gatherBuckets

theorem mem_gatherBuckets (key : Nat → Nat) (l : List Nat) :
    ∀ (k j a : Nat), a ∈ gatherBuckets key l j k → a ∈ l ∧ j ≤ key a ∧ key a < j + k := by
  intro k
  induction k with
  | zero => intro j a h; rw [gatherBuckets_zero] at h; exact absurd h (List.not_mem_nil a)
  | succ k ih =>
    intro j a h
    rw [gatherBuckets_succ] at h
    rcases List.mem_append.1 h with h1 | h1
    · obtain ⟨a1, a2, a3⟩ := ih (j + 1) a h1
      exact ⟨a1, by omega, by omega⟩
    · rw [List.mem_filter] at h1
      have : key a = j := by simpa using h1.2
      exact ⟨h1.1, by omega, by omega⟩

theorem count_gatherBuckets (key : Nat → Nat) (l : List Nat) (a : Nat) :
    ∀ (k j : Nat), (gatherBuckets key l j k).count a =
      if j ≤ key a ∧ key a < j + k then l.count a else 0 := by
  intro k
  induction k with
  | zero =>
    intro j
    rw [gatherBuckets_zero, if_neg (fun h => absurd h.2 (by omega))]
    rfl
  | succ k ih =>
    intro j
    rw [gatherBuckets_succ, List.count_append, ih]
    by_cases hj : key a = j
    · have hcf : (List.filter (fun q => decide (key q = j)) l).count a = l.count a := by
        apply List.count_filter
        simpa using hj
      rw [if_neg (fun h => absurd h.1 (by omega)), if_pos ⟨by omega, by omega⟩,
        hcf, Nat.zero_add]
    · have h0 : (List.filter (fun q => decide (key q = j)) l).count a = 0 := by
        apply List.count_eq_zero_of_not_mem
        intro hm
        rw [List.mem_filter] at hm
        exact hj (by simpa using hm.2)
      rw [h0, Nat.add_zero]
      by_cases h1 : j + 1 ≤ key a ∧ key a < j + 1 + k
      · rw [if_pos h1, if_pos ⟨by omega, by omega⟩]
      · rw [if_neg h1, if_neg (fun h => h1 ⟨by omega, by omega⟩)]

/-- Gathering all buckets permutes the list. -/
theorem gatherBuckets_perm (key : Nat → Nat) (l : List Nat) (n : Nat)
    (h : ∀ q ∈ l, key q < n) : (gatherBuckets key l 0 n).Perm l := by
  rw [List.perm_iff_count]
  intro a
  rw [count_gatherBuckets]
  by_cases ha : a ∈ l
  · rw [if_pos ⟨Nat.zero_le _, by have := h a ha; omega⟩]
  · rw [List.count_eq_zero_of_not_mem ha]
    split <;> rfl

/-- Gathering buckets orders by key, highest first, and is stable. -/
theorem gatherBuckets_pairwise (key : Nat → Nat) (R T : Nat → Nat → Prop) (l : List Nat)
    (hl : l.Pairwise R) (h1 : ∀ a b, key a = key b → R a b → T a b)
    (h2 : ∀ a b, key b < key a → T a b) :
    ∀ (k j : Nat), (gatherBuckets key l j k).Pairwise T := by
  intro k
  induction k with
  | zero => intro j; rw [gatherBuckets_zero]; exact List.Pairwise.nil
  | succ k ih =>
    intro j
    rw [gatherBuckets_succ, List.pairwise_append]
    refine ⟨ih (j + 1), ?_, ?_⟩
    · have hs : (List.filter (fun q => decide (key q = j)) l).Pairwise R :=
        List.Pairwise.sublist (List.filter_sublist l) hl
      refine List.Pairwise.imp_of_mem ?_ hs
      intro a b ha hb hab
      rw [List.mem_filter] at ha hb
      have ea : key a = j := by simpa using ha.2
      have eb : key b = j := by simpa using hb.2
      exact h1 a b (by omega) hab
    · intro a ha b hb
      obtain ⟨_, a2, _⟩ := mem_gatherBuckets key l k (j + 1) a ha
      rw [List.mem_filter] at hb
      have eb : key b = j := by simpa using hb.2
      exact h2 a b (by omega)

theorem radixDigit_eq (i a : Nat) :
    radixDigit (CMV_RBITS * i) a = a / 64 ^ i % 64 := by
  unfold radixDigit
  have h1 : CMV_RMASK = 2 ^ 6 - 1 := by decide
  have h2 : (2 : Nat) ^ (CMV_RBITS * i) = 64 ^ i := by
    have : CMV_RBITS = 6 := rfl
    rw [this, Nat.pow_mul]
  rw [h1, Nat.and_pow_two_sub_one_eq_mod, Nat.shiftRight_eq_div_pow, h2]

theorem radixDigit_lt (s a : Nat) : radixDigit s a < CMV_RADIX := by
  unfold radixDigit
  have h1 : CMV_RMASK = 63 := by decide
  have h2 : CMV_RADIX = 64 := by decide
  have := @Nat.and_le_right (a >>> s) CMV_RMASK
  omega

/-- The loop that integrates the buckets back, for buckets `j .. j + k - 1`. -/
theorem integrateLoop_spec (key : Nat → Nat) (l : List Nat) (hl : l.Nodup) (fuel : Nat)
    (hf : l.length ≤ fuel) :
    ∀ (k j : Nat) (reg : Nat → region) (tbl : Nat → Option Nat) (list : Option Nat)
      (L : List Nat),
      (∀ s, j ≤ s → s < j + k → IsChain (fun q => (reg q).next) (tbl s)
        ((l.filter (fun q => decide (key q = s))).reverse)) →
      IsChain (fun q => (reg q).next) list L →
      (∀ q ∈ L, key q < j) →
      ∃ reg' tbl' list', integrateLoop fuel k j reg tbl list = some (reg', tbl', list') ∧
        (∀ q, dropNext (reg' q) = dropNext (reg q)) ∧
        (∀ s, tbl' s = if j ≤ s ∧ s < j + k then none else tbl s) ∧
        IsChain (fun q => (reg' q).next) list' (gatherBuckets key l j k ++ L) := by
  intro k
  induction k with
  | zero =>
    intro j reg tbl list L _ hL _
    refine ⟨reg, tbl, list, rfl, fun q => rfl, fun s => ?_, ?_⟩
    · rw [if_neg (fun h => absurd h.2 (by omega))]
    · simpa [gatherBuckets_zero] using hL
  | succ k ih =>
    intro j reg tbl list L hB hL hkey
    have hnd : ((l.filter (fun q => decide (key q = j))).reverse).Nodup :=
      List.nodup_reverse.2 (List.Nodup.sublist (List.filter_sublist l) hl)
    have hdis : ∀ q ∈ (l.filter (fun q => decide (key q = j))).reverse, q ∉ L := by
      intro q hq hm
      rw [List.mem_reverse, List.mem_filter] at hq
      have e : key q = j := by simpa using hq.2
      have := hkey q hm
      omega
    have hlen : ((l.filter (fun q => decide (key q = j))).reverse).length ≤ fuel := by
      rw [List.length_reverse]
      exact Nat.le_trans (List.length_filter_le _ _) hf
    obtain ⟨reg1, list1, e1, hd1, hfr1, hch1⟩ := drainLoop_spec _ fuel (tbl j) reg list L
      (hB j (Nat.le_refl _) (by omega)) hL hnd hdis hlen
    rw [List.reverse_reverse] at hch1
    have hB1 : ∀ s, j + 1 ≤ s → s < j + 1 + k →
        IsChain (fun q => (reg1 q).next) (upd tbl j none s)
          ((l.filter (fun q => decide (key q = s))).reverse) := by
      intro s hs1 hs2
      rw [upd_other _ _ _ _ (by omega)]
      refine IsChain_congr _ _ (fun q hq => ?_) (hB s (by omega) (by omega))
      have hq' : q ∉ (l.filter (fun q => decide (key q = j))).reverse := by
        intro hm
        rw [List.mem_reverse, List.mem_filter] at hq hm
        have e : key q = j := by simpa using hm.2
        have e' : key q = s := by simpa using hq.2
        omega
      rw [hfr1 q hq']
    have hkey1 : ∀ q ∈ l.filter (fun q => decide (key q = j)) ++ L, key q < j + 1 := by
      intro q hq
      rcases List.mem_append.1 hq with h | h
      · rw [List.mem_filter] at h
        have e : key q = j := by simpa using h.2
        omega
      · have := hkey q h; omega
    obtain ⟨reg', tbl', list', e, hd, htbl, hch⟩ :=
      ih (j + 1) reg1 (upd tbl j none) list1 _ hB1 hch1 hkey1
    refine ⟨reg', tbl', list', ?_, fun q => (hd q).trans (hd1 q), fun s => ?_, ?_⟩
    · rw [integrateLoop, e1]
      exact e
    · rw [htbl s]
      by_cases hs : s = j
      · subst hs
        rw [if_neg (fun h => absurd h.1 (by omega)), upd_same, if_pos ⟨by omega, by omega⟩]
      · rw [upd_other _ _ _ _ hs]
        by_cases h1 : j + 1 ≤ s ∧ s < j + 1 + k
        · rw [if_pos h1, if_pos ⟨by omega, by omega⟩]
        · rw [if_neg h1, if_neg (fun h => h1 ⟨by omega, by omega⟩)]
    · rw [gatherBuckets_succ, List.append_assoc]
      exact hch

theorem radixPasses_perm (area : Nat → Nat) :
    ∀ (k i : Nat) (l : List Nat), (radixPasses area i k l).Perm l := by
  intro k
  induction k with
  | zero => intro i l; exact List.Perm.refl l
  | succ k ih =>
    intro i l
    rw [radixPasses]
    exact (ih (i + 1) _).trans
      (gatherBuckets_perm _ l CMV_RADIX (fun q _ => radixDigit_lt _ _))

theorem mod_pow_succ_ge_of_digit_eq (i a b : Nat) (hk : a / 64 ^ i % 64 = b / 64 ^ i % 64)
    (h : a % 64 ^ i ≥ b % 64 ^ i) : a % 64 ^ (i + 1) ≥ b % 64 ^ (i + 1) := by
  rw [Nat.mod_pow_succ, Nat.mod_pow_succ, hk]
  omega

theorem mod_pow_succ_ge_of_digit_lt (i a b : Nat) (hk : b / 64 ^ i % 64 < a / 64 ^ i % 64) :
    a % 64 ^ (i + 1) ≥ b % 64 ^ (i + 1) := by
  rw [Nat.mod_pow_succ, Nat.mod_pow_succ]
  have hpos : 0 < 64 ^ i := Nat.pos_pow_of_pos i (by decide)
  have h1 : b % 64 ^ i < 64 ^ i := Nat.mod_lt _ hpos
  have h2 : 64 ^ i * (b / 64 ^ i % 64 + 1) ≤ 64 ^ i * (a / 64 ^ i % 64) :=
    Nat.mul_le_mul_left _ hk
  rw [Nat.mul_add, Nat.mul_one] at h2
  omega

/-- After passes `i .. i + k - 1` the list is in descending order of
`area mod 64 ^ (i + k)`, provided it was for `area mod 64 ^ i`. -/
theorem radixPasses_pairwise (area : Nat → Nat) :
    ∀ (k i : Nat) (l : List Nat),
      l.Pairwise (fun a b => area a % 64 ^ i ≥ area b % 64 ^ i) →
      (radixPasses area i k l).Pairwise
        (fun a b => area a % 64 ^ (i + k) ≥ area b % 64 ^ (i + k)) := by
  intro k
  induction k with
  | zero => intro i l h; exact h
  | succ k ih =>
    intro i l h
    rw [radixPasses]
    have e : i + (k + 1) = i + 1 + k := by omega
    rw [e]
    apply ih (i + 1)
    apply gatherBuckets_pairwise _ _ _ l h
    · intro a b hk hab
      simp only [radixDigit_eq] at hk
      exact mod_pow_succ_ge_of_digit_eq i _ _ hk hab
    · intro a b hk
      simp only [radixDigit_eq] at hk
      exact mod_pow_succ_ge_of_digit_lt i _ _ hk

/-- One pass loop of `SegSortRegions` computes `radixPasses` on the chain. -/
theorem passLoop_spec (area : Nat → Nat) (fuel : Nat) :
    ∀ (k i : Nat) (reg : Nat → region) (tbl : Nat → Option Nat) (list : Option Nat)
      (l : List Nat),
      IsChain (fun q => (reg q).next) list l → l.length ≤ fuel →
      (∀ q, (reg q).area = area q) → (∀ s, tbl s = none) →
      ∃ reg' list', passLoop fuel k i reg tbl list = some (reg', list') ∧
        (∀ q, dropNext (reg' q) = dropNext (reg q)) ∧
        IsChain (fun q => (reg' q).next) list' (radixPasses area i k l) := by
  intro k
  induction k with
  | zero =>
    intro i reg tbl list l hc _ _ _
    exact ⟨reg, list, rfl, fun q => rfl, hc⟩
  | succ k ih =>
    intro i reg tbl list l hc hf harea htbl
    have hnd := IsChain_nodup l _ hc
    obtain ⟨reg1, tbl1, e1, hd1, hch1⟩ := splitLoop_spec (CMV_RBITS * i) area l fuel list reg
      tbl (fun _ => []) hc hnd hf harea (fun s => by rw [htbl s]; rfl)
      (fun s q hq => absurd hq (List.not_mem_nil q))
    simp only [List.append_nil] at hch1
    obtain ⟨reg2, tbl2, list2, e2, hd2, htbl2, hch2⟩ :=
      integrateLoop_spec (fun q => radixDigit (CMV_RBITS * i) (area q)) l hnd fuel hf
        CMV_RADIX 0 reg1 tbl1 none [] (fun s _ _ => hch1 s) rfl
        (fun q hq => absurd hq (List.not_mem_nil q))
    rw [List.append_nil] at hch2
    have htbl2' : ∀ s, tbl2 s = none := by
      intro s
      rw [htbl2 s]
      by_cases hs : 0 ≤ s ∧ s < 0 + CMV_RADIX
      · rw [if_pos hs]
      · rw [if_neg hs]
        have hempty : l.filter (fun q => decide (radixDigit (CMV_RBITS * i) (area q) = s)) = [] := by
          rw [List.filter_eq_nil_iff]
          intro q _
          have := radixDigit_lt (CMV_RBITS * i) (area q)
          simp only [decide_eq_true_eq]
          omega
        have := hch1 s
        rw [hempty] at this
        exact this
    have hlen : (gatherBuckets (fun q => radixDigit (CMV_RBITS * i) (area q)) l 0
        CMV_RADIX).length ≤ fuel := by
      rw [(gatherBuckets_perm _ l CMV_RADIX (fun q _ => radixDigit_lt _ _)).length_eq]
      exact hf
    have harea2 : ∀ q, (reg2 q).area = area q := by
      intro q
      have a1 : (reg2 q).area = (reg1 q).area := area_of_dropNext (hd2 q)
      have a2 : (reg1 q).area = (reg q).area := area_of_dropNext (hd1 q)
      rw [a1, a2]
      exact harea q
    obtain ⟨reg', list', e, hd, hch⟩ := ih (i + 1) reg2 tbl2 list2
      (gatherBuckets (fun q => radixDigit (CMV_RBITS * i) (area q)) l 0 CMV_RADIX)
      hch2 hlen harea2 htbl2'
    refine ⟨reg', list', ?_, fun q => (hd q).trans ((hd2 q).trans (hd1 q)), ?_⟩
    · rw [passLoop, e1]
      simp only []
      rw [e2]
      exact e
    · rw [radixPasses]
      exact hch

theorem passesLoop_bound :
    ∀ (f M y z y' : Nat), passesLoop f M y = some (z, y') → y ≤ y' ∧ M < 64 ^ (y' - y) := by
  intro f
  induction f with
  | zero =>
    intro M y z y' h
    rw [passesLoop] at h
    by_cases hM : M ≠ 0
    · rw [if_pos hM] at h; cases h
    · rw [if_neg hM] at h
      cases h
      simp at hM
      simp [hM]
  | succ f ih =>
    intro M y z y' h
    rw [passesLoop] at h
    by_cases hM : M ≠ 0
    · rw [if_pos hM] at h
      obtain ⟨h1, h2⟩ := ih _ _ _ _ h
      refine ⟨by omega, ?_⟩
      have e : y' - y = (y' - (y + 1)) + 1 := by omega
      have h6 : M >>> CMV_RBITS = M / 64 := by
        rw [Nat.shiftRight_eq_div_pow]; rfl
      rw [h6] at h2
      rw [e, Nat.pow_succ]
      omega
    · rw [if_neg hM] at h
      cases h
      simp at hM
      simp [hM]

/-- What `SegSortRegions` returns on a well-formed list: the list itself when
it has at most one node, the result of the radix passes otherwise; only
`next` links are rewritten. -/
theorem SegSortRegions_spec (fuel : Nat) (reg : Nat → region) (head : Option Nat)
    (l : List Nat) (passes : Nat)
    (hl : IsChain (fun q => (reg q).next) head l) (hf : l.length ≤ fuel) :
    ∃ reg' head', SegSortRegions fuel reg head passes = some (reg', head') ∧
      (∀ q, dropNext (reg' q) = dropNext (reg q)) ∧
      IsChain (fun q => (reg' q).next) head'
        (if l.length ≤ 1 then l else radixPasses (fun q => (reg q).area) 0 passes l) := by
  cases l with
  | nil =>
    have : head = none := hl
    subst this
    exact ⟨reg, none, rfl, fun q => rfl, by simpa using hl⟩
  | cons p l2 =>
    have hh : head = some p := hl.1
    subst hh
    cases l2 with
    | nil =>
      have hn : (reg p).next = none := hl.2
      refine ⟨reg, some p, ?_, fun q => rfl, by simpa using hl⟩
      rw [SegSortRegions]
      simp only [hn, if_true]
    | cons p2 l3 =>
      have hn : (reg p).next = some p2 := hl.2.1
      obtain ⟨reg', list', e, hd, hch⟩ := passLoop_spec (fun q => (reg q).area) fuel passes 0
        reg (fun _ => none) (some p) (p :: p2 :: l3) hl hf (fun q => rfl) (fun s => rfl)
      refine ⟨reg', list', ?_, hd, ?_⟩
      · rw [SegSortRegions]
        simp only [hn]
        exact e
      · rw [if_neg (by simp)]
        exact hch

/-- C2 (amended): for a well-formed list whose areas are at most `M`, with
`passes` the number of right shifts by `CMV_RBITS` that bring `M` to zero,
`SegSortRegions(list, passes)` returns a list of the same regions whose areas
are monotonically non-increasing (descending). -/
theorem SegSortRegions_descending (fuel fuel' : Nat) (reg : Nat → region) (head : Option Nat)
    (l : List Nat) (M z passes : Nat)
    (hl : IsChain (fun q => (reg q).next) head l) (hf : l.length ≤ fuel)
    (hM : ∀ p ∈ l, (reg p).area ≤ M) (hp : passesLoop fuel' M 0 = some (z, passes)) :
    ∃ reg' head' l', SegSortRegions fuel reg head passes = some (reg', head') ∧
      IsChain (fun q => (reg' q).next) head' l' ∧ l'.Perm l ∧
      (∀ q, (reg' q).area = (reg q).area) ∧
      (l'.map (fun p => (reg' p).area)).Sorted (fun a b => a ≥ b) := by
  obtain ⟨reg', head', e, hd, hch⟩ := SegSortRegions_spec fuel reg head l passes hl hf
  have harea : ∀ q, (reg' q).area = (reg q).area := fun q => area_of_dropNext (hd q)
  by_cases h1 : l.length ≤ 1
  · rw [if_pos h1] at hch
    refine ⟨reg', head', l, e, hch, List.Perm.refl l, harea, ?_⟩
    unfold List.Sorted
    rw [List.pairwise_map]
    match l, h1 with
    | [], _ => exact List.Pairwise.nil
    | [a], _ => exact List.pairwise_singleton _ a
    | a :: b :: t, h => simp at h
  · rw [if_neg h1] at hch
    refine ⟨reg', head', _, e, hch, radixPasses_perm _ passes 0 l, harea, ?_⟩
    unfold List.Sorted
    rw [List.pairwise_map]
    simp only [harea]
    have h0 : l.Pairwise (fun a b => (reg a).area % 64 ^ 0 ≥ (reg b).area % 64 ^ 0) := by
      apply List.pairwise_of_forall
      intro a b
      simp [Nat.mod_one]
    have hs := radixPasses_pairwise (fun q => (reg q).area) passes 0 l h0
    rw [Nat.zero_add] at hs
    obtain ⟨_, hlt⟩ := passesLoop_bound fuel' M 0 z passes hp
    rw [Nat.sub_zero] at hlt
    refine List.Pairwise.imp_of_mem ?_ hs
    intro a b ha hb hab
    have ha' := hM a ((radixPasses_perm _ passes 0 l).mem_iff.1 ha)
    have hb' := hM b ((radixPasses_perm _ passes 0 l).mem_iff.1 hb)
    have hab' : (reg a).area % 64 ^ passes ≥ (reg b).area % 64 ^ passes := hab
    rw [Nat.mod_eq_of_lt (by omega), Nat.mod_eq_of_lt (by omega)] at hab'
    exact hab'

/-- The amended C2 statement applied to the list of the specification's own
example, areas `[3, 67, 2, 64, 65, 1, 4100]` with `passes = 3`. -/
theorem SegSortRegions_descending_witness :
    (IsChain (fun q => (chainTable [3, 67, 2, 64, 65, 1, 4100] q).next) (some 0)
        [0, 1, 2, 3, 4, 5, 6] ∧
      [0, 1, 2, 3, 4, 5, 6].length ≤ 7 ∧
      (∀ p ∈ [0, 1, 2, 3, 4, 5, 6], (chainTable [3, 67, 2, 64, 65, 1, 4100] p).area ≤ 4100) ∧
      passesLoop 10 4100 0 = some (0, 3)) ∧
    ∃ reg' head' l',
      SegSortRegions 7 (chainTable [3, 67, 2, 64, 65, 1, 4100]) (some 0) 3 = some (reg', head') ∧
      IsChain (fun q => (reg' q).next) head' l' ∧ l'.Perm [0, 1, 2, 3, 4, 5, 6] ∧
      (∀ q, (reg' q).area = (chainTable [3, 67, 2, 64, 65, 1, 4100] q).area) ∧
      (l'.map (fun p => (reg' p).area)).Sorted (fun a b => a ≥ b) :=
  ⟨by decide, SegSortRegions_descending 7 10 (chainTable [3, 67, 2, 64, 65, 1, 4100]) (some 0)
    [0, 1, 2, 3, 4, 5, 6] 4100 0 3 (by decide) (by decide) (by decide) (by decide)⟩

/-- C2 as stated fails on its own example: with `passes = 3` the areas
`[3, 67, 2, 64, 65, 1, 4100]` come out as `[4100, 67, 65, 64, 3, 2, 1]`, which
is not ascending. -/
theorem SegSortRegions_ascending_counterexample :
    passesLoop 10 4100 0 = some (0, 3) ∧
    (SegSortRegions 7 (chainTable [3, 67, 2, 64, 65, 1, 4100]) (some 0) 3).map
        (fun r => regionAreas r.1 7 r.2) = some [4100, 67, 65, 64, 3, 2, 1] ∧
    ¬ List.Sorted (fun a b => a ≤ b) [4100, 67, 65, 64, 3, 2, 1] := by
  decide

/-! ## SegEncodeRuns -/

theorem pixel_index_lt {w h y t : Nat} (hy : y < h) (ht : t < w) : y * w + t < w * h := by
  have h1 : (y + 1) * w ≤ h * w := Nat.mul_le_mul_right w hy
  rw [Nat.succ_mul] at h1
  rw [Nat.mul_comm w h]
  omega

theorem exists_runEnd (row : Nat → Nat) (m w : Nat) (hw : row w ≠ m) :
    ∀ (d x : Nat), x + d = w → row x = m →
      ∃ e, x < e ∧ e ≤ w ∧ (∀ t, x ≤ t → t < e → row t = m) ∧ row e ≠ m := by
  intro d
  induction d with
  | zero =>
    intro x hx hm
    rw [Nat.add_zero] at hx
    subst hx
    exact absurd hm hw
  | succ d ih =>
    intro x hx hm
    by_cases h1 : row (x + 1) = m
    · obtain ⟨e, a1, a2, a3, a4⟩ := ih (x + 1) (by omega) h1
      refine ⟨e, by omega, a2, fun t ht1 ht2 => ?_, a4⟩
      by_cases ht : t = x
      · rw [ht]; exact hm
      · exact a3 t (by omega) ht2
    · refine ⟨x + 1, by omega, by omega, fun t ht1 ht2 => ?_, h1⟩
      have : t = x := by omega
      rw [this]; exact hm

theorem scanRun_spec (row : Nat → Nat) (m e : Nat) (he : row e ≠ m) :
    ∀ (fuel x : Nat), (∀ t, x ≤ t → t < e → row t = m) → x ≤ e → e - x < fuel →
      scanRun row m fuel x = some e := by
  intro fuel
  induction fuel with
  | zero => intro x _ _ hf; omega
  | succ fuel ih =>
    intro x hrun hxe hf
    rw [scanRun]
    by_cases hx : x = e
    · subst hx
      rw [if_neg he]
    · rw [if_pos (hrun x (Nat.le_refl _) (by omega))]
      exact ih (x + 1) (fun t h1 h2 => hrun t (by omega) h2) (by omega) (by omega)

theorem rowWidthSum_congr (rle rle' : Nat → run) (y : Nat) :
    ∀ (n : Nat), (∀ i, i < n → rle' i = rle i) → rowWidthSum rle' y n = rowWidthSum rle y n := by
  intro n
  induction n with
  | zero => intro _; rfl
  | succ n ih =>
    intro h
    rw [rowWidthSum, rowWidthSum, ih (fun i hi => h i (by omega)), h n (by omega)]

theorem rowWidthSum_eq_zero (rle : Nat → run) (y : Nat) :
    ∀ (n : Nat), (∀ i, i < n → (rle i).y ≠ y) → rowWidthSum rle y n = 0 := by
  intro n
  induction n with
  | zero => intro _; rfl
  | succ n ih =>
    intro h
    rw [rowWidthSum, ih (fun i hi => h i (by omega)), if_neg (h n (by omega))]

theorem retainedCount_all (colors : Nat → color_class_state) (img : Nat → Nat) (w y x : Nat) :
    ∀ (d : Nat), (∀ t, x ≤ t → t < x + d → retained colors img w y t) →
      retainedCount colors img w y (x + d) = retainedCount colors img w y x + d := by
  intro d
  induction d with
  | zero => intro _; rfl
  | succ d ih =>
    intro h
    rw [← Nat.add_assoc, retainedCount, ih (fun t h1 h2 => h t h1 (by omega)),
      if_pos (h (x + d) (by omega) (by omega))]
    omega

theorem retainedCount_none (colors : Nat → color_class_state) (img : Nat → Nat) (w y x : Nat) :
    ∀ (d : Nat), (∀ t, x ≤ t → t < x + d → ¬ retained colors img w y t) →
      retainedCount colors img w y (x + d) = retainedCount colors img w y x := by
  intro d
  induction d with
  | zero => intro _; rfl
  | succ d ih =>
    intro h
    rw [← Nat.add_assoc, retainedCount, ih (fun t h1 h2 => h t h1 (by omega)),
      if_neg (h (x + d) (by omega) (by omega))]
    rfl

theorem retainedCount_le (colors : Nat → color_class_state) (img : Nat → Nat) (w y : Nat) :
    ∀ (x : Nat), retainedCount colors img w y x ≤ x := by
  intro x
  induction x with
  | zero => exact Nat.le_refl _
  | succ x ih =>
    rw [retainedCount]
    split <;> omega

/-- All of the first `x` pixels of a row are retained exactly when their
count is `x`. -/
theorem retainedCount_eq_iff (colors : Nat → color_class_state) (img : Nat → Nat) (w y : Nat) :
    ∀ (x : Nat), retainedCount colors img w y x = x ↔
      ∀ t, t < x → retained colors img w y t := by
  intro x
  induction x with
  | zero => exact ⟨fun _ t ht => absurd ht (Nat.not_lt_zero t), fun _ => rfl⟩
  | succ x ih =>
    have hle := retainedCount_le colors img w y x
    rw [retainedCount]
    constructor
    · intro h t ht
      by_cases hr : retained colors img w y x
      · rw [if_pos hr] at h
        by_cases htx : t = x
        · rw [htx]; exact hr
        · exact ih.1 (by omega) t (by omega)
      · rw [if_neg hr] at h
        omega
    · intro h
      rw [if_pos (h x (by omega)), ih.2 (fun t ht => h t (by omega))]

/-- Writing a retained run keeps the encoder invariant. -/
theorem EncInv.emit {colors : Nat → color_class_state} {img : Nat → Nat} {w : Nat}
    {rle : Nat → run} {j y x : Nat} (inv : EncInv colors img w rle j y x) (e : Nat)
    (hxe : x < e) (hew : e ≤ w)
    (hrun : ∀ t, x ≤ t → t < e → img (y * w + t) = img (y * w + x))
    (hkeep : enabled colors (img (y * w + x)) ∨ e = w) :
    EncInv colors img w (upd rle j ⟨x, y, e - x, img (y * w + x), j, 0⟩) (j + 1) y e := by
  have hold : ∀ i, i < j → upd rle j ⟨x, y, e - x, img (y * w + x), j, 0⟩ i = rle i :=
    fun i hi => upd_other _ _ _ _ (by omega)
  have hnew : upd rle j ⟨x, y, e - x, img (y * w + x), j, 0⟩ j
      = ⟨x, y, e - x, img (y * w + x), j, 0⟩ := upd_same _ _ _
  constructor
  · intro i hi
    by_cases hij : i = j
    · rw [hij, hnew]
      exact ⟨Nat.le_refl _, by show 1 ≤ e - x; omega, by show x + (e - x) ≤ w; omega, rfl, rfl,
        fun _ => by show x + (e - x) ≤ e; omega⟩
    · rw [hold i (by omega)]
      obtain ⟨a1, a2, a3, a4, a5, a6⟩ := inv.runs i (by omega)
      exact ⟨a1, a2, a3, a4, a5, fun h => by have := a6 h; omega⟩
  · intro i hi t ht
    by_cases hij : i = j
    · rw [hij, hnew] at ht ⊢
      have ht' : t < e - x := ht
      show img (y * w + x + t) = img (y * w + x)
      rw [Nat.add_assoc]
      exact hrun (x + t) (by omega) (by omega)
    · rw [hold i (by omega)] at ht ⊢
      exact inv.mono i (by omega) t ht
  · intro i hi
    by_cases hij : i + 1 = j
    · rw [hij, hnew, hold i (by omega)]
      rcases inv.last with h | ⟨_, h | h⟩
      · omega
      · have e1 : j - 1 = i := by omega
        rw [e1] at h
        exact Or.inl ⟨h.1.symm, h.2⟩
      · have e1 : j - 1 = i := by omega
        rw [e1] at h
        exact Or.inr ⟨h.1.symm, h.2⟩
    · rw [hold i (by omega), hold (i + 1) (by omega)]
      exact inv.step i (by omega)
  · intro _
    by_cases hj : j = 0
    · rw [hj] at hnew
      rw [hj, hnew]
      rcases inv.last with h | h
      · rcases h.2 with h0 | h0
        · exact h0
        · omega
      · omega
    · rw [hold 0 (by omega)]
      exact inv.first (by omega)
  · refine Or.inr ⟨by omega, Or.inl ?_⟩
    rw [Nat.add_sub_cancel, hnew]
    exact ⟨rfl, by show x + (e - x) ≤ e; omega⟩
  · intro _ _
    rw [Nat.add_sub_cancel, hnew]
    exact ⟨by omega, rfl, by show x + (e - x) = w; omega⟩
  · intro i hi
    by_cases hij : i = j
    · rw [hij, hnew]
      rcases hkeep with hk | hk
      · exact Or.inl hk
      · exact Or.inr (by show x + (e - x) = w; omega)
    · rw [hold i (by omega)]
      exact inv.emitted i (by omega)
  · intro y' hy'
    rw [rowWidthSum, rowWidthSum_congr rle _ y' j hold, inv.sumPrev y' hy', hnew,
      if_neg (by show y ≠ y'; omega)]
    rfl
  · have hall : ∀ t, x ≤ t → t < x + (e - x) → retained colors img w y t := by
      intro t h1 h2
      rcases hkeep with hk | hk
      · exact Or.inl (by rw [hrun t h1 (by omega)]; exact hk)
      · refine Or.inr (fun s hs hts => ?_)
        rw [hrun s (by omega) (by omega), hrun t h1 (by omega)]
    have hcount := retainedCount_all colors img w y x (e - x) hall
    have hxe' : x + (e - x) = e := by omega
    rw [hxe'] at hcount
    rw [rowWidthSum, rowWidthSum_congr rle _ y j hold, inv.sumCur, hnew, if_pos rfl, hcount]

/-- Skipping a run of a disabled class keeps the encoder invariant. -/
theorem EncInv.skip {colors : Nat → color_class_state} {img : Nat → Nat} {w : Nat}
    {rle : Nat → run} {j y x : Nat} (inv : EncInv colors img w rle j y x) (e : Nat)
    (hxe : x < e) (hew : e < w) (hdis : ¬ enabled colors (img (y * w + x)))
    (hrun : ∀ t, x ≤ t → t < e → img (y * w + t) = img (y * w + x))
    (hne : img (y * w + e) ≠ img (y * w + x)) :
    EncInv colors img w rle j y e := by
  constructor
  · intro i hi
    obtain ⟨a1, a2, a3, a4, a5, a6⟩ := inv.runs i hi
    exact ⟨a1, a2, a3, a4, a5, fun h => by have := a6 h; omega⟩
  · exact inv.mono
  · exact inv.step
  · exact inv.first
  · rcases inv.last with h | ⟨h0, h | h⟩
    · exact Or.inl h
    · exact Or.inr ⟨h0, Or.inl ⟨h.1, by omega⟩⟩
    · exact Or.inr ⟨h0, Or.inr h⟩
  · intro h1 _; omega
  · exact inv.emitted
  · exact inv.sumPrev
  · have hnone : ∀ t, x ≤ t → t < x + (e - x) → ¬ retained colors img w y t := by
      intro t h1 h2 hr
      rcases hr with hr | hr
      · rw [hrun t h1 (by omega)] at hr
        exact hdis hr
      · have := hr e hew (by omega)
        rw [hrun t h1 (by omega)] at this
        exact hne this
    have hcount := retainedCount_none colors img w y x (e - x) hnone
    have hxe' : x + (e - x) = e := by omega
    rw [hxe'] at hcount
    rw [hcount]
    exact inv.sumCur

/-- Moving from the end of row `y` to the start of row `y + 1`. -/
theorem EncInv.nextRow {colors : Nat → color_class_state} {img : Nat → Nat} {w : Nat}
    {rle : Nat → run} {j y : Nat} (inv : EncInv colors img w rle j y w) :
    EncInv colors img w rle j (y + 1) 0 := by
  have hle : ∀ i, i < j → (rle i).y ≤ y := fun i hi => (inv.runs i hi).1
  constructor
  · intro i hi
    obtain ⟨a1, a2, a3, a4, a5, _⟩ := inv.runs i hi
    exact ⟨by omega, a2, a3, a4, a5, fun h => by omega⟩
  · exact inv.mono
  · exact inv.step
  · exact inv.first
  · by_cases hw : w = 0
    · by_cases hj : j = 0
      · exact Or.inl ⟨hj, Or.inr hw⟩
      · obtain ⟨_, a2, a3, _⟩ := inv.runs (j - 1) (by omega)
        omega
    · obtain ⟨b1, b2, b3⟩ := inv.rowEnd rfl (by omega)
      exact Or.inr ⟨b1, Or.inr ⟨by omega, b3⟩⟩
  · intro h1 h2; omega
  · exact inv.emitted
  · intro y' hy'
    by_cases h : y' = y
    · rw [h]
      exact inv.sumCur
    · exact inv.sumPrev y' (by omega)
  · exact rowWidthSum_eq_zero rle (y + 1) j (fun i hi => by have := hle i hi; omega)

/-- The row loop of `SegEncodeRuns` on a row of valid pixels that ends with the
sentinel: it terminates and keeps the encoder invariant. -/
theorem encodeRow_spec (colors : Nat → color_class_state) (img : Nat → Nat) (w y : Nat)
    (row : Nat → Nat) (fuel0 : Nat) (hrow : ∀ t, t < w → row t = img (y * w + t))
    (hsent : row w = 255) (hval : ∀ t, t < w → img (y * w + t) < 255) (hf0 : w < fuel0) :
    ∀ (fuel x : Nat) (rle : Nat → run) (j : Nat), x ≤ w → w - x < fuel →
      EncInv colors img w rle j y x →
      ∃ rle' j' ov x', encodeRow colors w y row fuel0 fuel x rle j = some (rle', j', ov) ∧
        EncInv colors img w rle' j' y x' ∧ x' ≤ w ∧ (ov = false → x' = w) ∧
        (ov = true → MAX_RUNS ≤ j') := by
  intro fuel
  induction fuel with
  | zero => intro x rle j _ hf _; omega
  | succ fuel ih =>
    intro x rle j hxw hf inv
    rw [encodeRow]
    by_cases hx : x < w
    · have hne : row w ≠ row x := by
        rw [hsent, hrow x hx]
        have := hval x hx
        omega
      obtain ⟨e, e1, e2, e3, e4⟩ := exists_runEnd row (row x) w hne (w - x) x (by omega) rfl
      have hscan : scanRun row (row x) fuel0 x = some e :=
        scanRun_spec row (row x) e e4 fuel0 x e3 (by omega) (by omega)
      have hrun : ∀ t, x ≤ t → t < e → img (y * w + t) = img (y * w + x) := by
        intro t h1 h2
        rw [← hrow t (by omega), ← hrow x hx]
        exact e3 t h1 h2
      simp only [if_pos hx, hscan]
      by_cases hemit : enabled colors (row x) ∨ e ≥ w
      · rw [if_pos hemit]
        have hkeep : enabled colors (img (y * w + x)) ∨ e = w := by
          rcases hemit with hk | hk
          · exact Or.inl (by rw [← hrow x hx]; exact hk)
          · exact Or.inr (by omega)
        have inv' := inv.emit e e1 e2 hrun hkeep
        rw [← hrow x hx] at inv'
        by_cases hov : j + 1 ≥ MAX_RUNS
        · rw [if_pos hov]
          exact ⟨_, _, true, e, rfl, inv', e2, (fun h => by cases h), fun _ => hov⟩
        · rw [if_neg hov]
          exact ih e _ (j + 1) e2 (by omega) inv'
      · rw [if_neg hemit]
        have hdis : ¬ enabled colors (img (y * w + x)) := by
          rw [← hrow x hx]; exact fun h => hemit (Or.inl h)
        have hlt : e < w := by
          by_cases h : e < w
          · exact h
          · exact absurd (Or.inr (by omega)) hemit
        have hne' : img (y * w + e) ≠ img (y * w + x) := by
          rw [← hrow e hlt, ← hrow x hx]
          exact e4
        exact ih e rle j e2 (by omega) (inv.skip e e1 hlt hdis hrun hne')
    · rw [if_neg hx]
      have : x = w := by omega
      subst this
      exact ⟨rle, j, false, x, rfl, inv, Nat.le_refl _, (fun _ => rfl), (fun h => by cases h)⟩

/-- The loop over the rows of `SegEncodeRuns`. -/
theorem encodeRows_spec (colors : Nat → color_class_state) (img : Nat → Nat) (w h : Nat)
    (fuel0 : Nat) (hval : ∀ p, p < w * h → img p < 255) (hf0 : w < fuel0) :
    ∀ (n y : Nat) (map : Nat → Nat) (save : Nat) (rle : Nat → run) (j : Nat), y + n = h →
      (∀ p, p < w * h → p ≠ y * w → map p = img p) → (y * w < w * h → save = img (y * w)) →
      EncInv colors img w rle j y 0 →
      ∃ map' rle' num yf xf,
        encodeRows colors w fuel0 n y map save rle j = some (map', rle', num) ∧
        (∀ p, p < w * h → map' p = img p) ∧ EncInv colors img w rle' num yf xf ∧ yf ≤ h ∧
        ((yf = h ∧ xf = 0) ∨ (yf < h ∧ xf ≤ w ∧ MAX_RUNS ≤ num)) := by
  intro n
  induction n with
  | zero =>
    intro y map save rle j hy hmap _ inv
    refine ⟨map, rle, j, y, 0, rfl, fun p hp => hmap p hp ?_, inv, by omega, Or.inl ⟨by omega, rfl⟩⟩
    have : y = h := by omega
    rw [this, Nat.mul_comm h w]
    omega
  | succ n ih =>
    intro y map save rle j hy hmap hsave inv
    have hyh : y < h := by omega
    have hmap1 : ∀ p, p < w * h → upd map (y * w) save p = img p := by
      intro p hp
      by_cases hpy : p = y * w
      · rw [hpy, upd_same]
        exact hsave (hpy ▸ hp)
      · rw [upd_other _ _ _ _ hpy]
        exact hmap p hp hpy
    have hrow : ∀ t, t < w →
        (fun x => upd (upd map (y * w) save) (y * w + w) 255 (y * w + x)) t = img (y * w + t) := by
      intro t ht
      show upd (upd map (y * w) save) (y * w + w) 255 (y * w + t) = img (y * w + t)
      rw [upd_other _ _ _ _ (by omega)]
      exact hmap1 _ (pixel_index_lt hyh ht)
    have hsent : (fun x => upd (upd map (y * w) save) (y * w + w) 255 (y * w + x)) w = 255 :=
      upd_same _ _ _
    obtain ⟨rle', j', ov, x', e, inv', hx', hov0, hov1⟩ :=
      encodeRow_spec colors img w y _ fuel0 hrow hsent
        (fun t ht => hval _ (pixel_index_lt hyh ht)) hf0 fuel0 0 rle j (Nat.zero_le _)
        (by omega) inv
    rw [encodeRows]
    simp only [e]
    cases ov with
    | true =>
      refine ⟨_, rle', j', y, x', rfl, fun p hp => ?_, inv', by omega,
        Or.inr ⟨hyh, hx', hov1 rfl⟩⟩
      by_cases hp1 : p = y * w + w
      · rw [hp1, upd_same]
        exact hmap1 _ (hp1 ▸ hp)
      · rw [upd_other _ _ _ _ hp1, upd_other _ _ _ _ hp1]
        exact hmap1 p hp
    | false =>
      have hxw : x' = w := hov0 rfl
      rw [hxw] at inv'
      have hsucc : (y + 1) * w = y * w + w := Nat.succ_mul y w
      apply ih (y + 1) _ _ rle' j' (by omega) ?_ ?_ inv'.nextRow
      · intro p hp hne
        rw [hsucc] at hne
        rw [upd_other _ _ _ _ hne]
        exact hmap1 p hp
      · intro hlt
        rw [hsucc] at hlt ⊢
        exact hmap1 _ hlt

/-- `SegEncodeRuns` on an image of valid pixels terminates (with `fuel > w`),
leaves the image as it was and establishes the encoder invariant, either at
the end of the image or at the row where the `MAX_RUNS` exit was taken. -/
theorem SegEncodeRuns_spec (colors : Nat → color_class_state) (img : Nat → Nat) (w h : Nat)
    (fuel : Nat) (rle0 : Nat → run) (hval : ∀ p, p < w * h → img p < 255) (hf : w < fuel) :
    ∃ map' rle num yf xf,
      SegEncodeRuns colors w h fuel img rle0 = some (map', rle, num) ∧
      (∀ p, p < w * h → map' p = img p) ∧ EncInv colors img w rle num yf xf ∧ yf ≤ h ∧
      ((yf = h ∧ xf = 0) ∨ (yf < h ∧ xf ≤ w ∧ MAX_RUNS ≤ num)) := by
  have inv0 : EncInv colors img w rle0 0 0 0 := by
    constructor
    · intro i hi; omega
    · intro i hi; omega
    · intro i hi; omega
    · intro h0; omega
    · exact Or.inl ⟨rfl, Or.inl rfl⟩
    · intro h1 h2; omega
    · intro i hi; omega
    · intro y' hy'; omega
    · rfl
  exact encodeRows_spec colors img w h fuel hval hf h 0 img (img 0) rle0 0 (by omega)
    (fun p _ _ => rfl) (fun _ => by rw [Nat.zero_mul]) inv0

/-- Below every run there is, for each earlier row, the run that ends that row. -/
theorem EncInv.rowEnd_before {colors : Nat → color_class_state} {img : Nat → Nat} {w : Nat}
    {rle : Nat → run} {j y x : Nat} (inv : EncInv colors img w rle j y x) :
    ∀ (i : Nat), i < j → ∀ y', y' < (rle i).y →
      ∃ i', i' < i ∧ (rle i').y = y' ∧ (rle i').x + (rle i').width = w := by
  intro i
  induction i with
  | zero =>
    intro hi y' hy'
    rw [inv.first hi] at hy'
    omega
  | succ i ih =>
    intro hi y' hy'
    rcases inv.step i hi with h | h
    · rw [h.1] at hy'
      obtain ⟨i', a1, a2, a3⟩ := ih (by omega) y' hy'
      exact ⟨i', by omega, a2, a3⟩
    · rw [h.1] at hy'
      by_cases hy : y' = (rle i).y
      · exact ⟨i, by omega, hy.symm, h.2⟩
      · obtain ⟨i', a1, a2, a3⟩ := ih (by omega) y' (by omega)
        exact ⟨i', by omega, a2, a3⟩

/-- When the encoder has reached the end of a non-empty image, the last run
ends the last row. -/
theorem EncInv.last_run {colors : Nat → color_class_state} {img : Nat → Nat} {w : Nat}
    {rle : Nat → run} {j h : Nat} (inv : EncInv colors img w rle j h 0) (hw : 0 < w)
    (hh : 0 < h) :
    0 < j ∧ (rle (j - 1)).y + 1 = h ∧ (rle (j - 1)).x + (rle (j - 1)).width = w := by
  rcases inv.last with h1 | ⟨h0, h1 | h1⟩
  · omega
  · obtain ⟨_, a2, _⟩ := inv.runs (j - 1) (by omega)
    omega
  · exact ⟨h0, h1.1, h1.2⟩

/-- C8 (amended): on an image of valid classes `SegEncodeRuns` returns a run
list in which every run is monochromatic under `segmented`; every emitted run
has an enabled class or ends at column `W`, and covers retained pixels only
(runs of a disabled class that do not reach the end of the row are not
emitted); without run overflow every row is complete (its last run ends at
column `W`); and for every complete row the widths of the emitted runs sum to
the number of retained pixels of the row (those of an enabled class or in the
last run of the row), so the sum is `W` exactly when every pixel of the row is
retained. -/
theorem SegEncodeRuns_rows (colors : Nat → color_class_state) (img : Nat → Nat) (w h : Nat)
    (fuel : Nat) (rle0 : Nat → run) (hval : ∀ p, p < w * h → img p < COLOR_COUNT)
    (hf : w < fuel) :
    ∃ map' rle num, SegEncodeRuns colors w h fuel img rle0 = some (map', rle, num) ∧
      (∀ i, i < num → ∀ t, t < (rle i).width →
        img ((rle i).y * w + (rle i).x + t) = (rle i).color) ∧
      (∀ i, i < num → enabled colors (rle i).color ∨ (rle i).x + (rle i).width = w) ∧
      (∀ i, i < num → ∀ t, t < (rle i).width →
        retained colors img w (rle i).y ((rle i).x + t)) ∧
      (num < MAX_RUNS → 0 < w → ∀ y, y < h →
        ∃ i, i < num ∧ (rle i).y = y ∧ (rle i).x + (rle i).width = w) ∧
      (∀ y, (∃ i, i < num ∧ (rle i).y = y ∧ (rle i).x + (rle i).width = w) →
        rowWidthSum rle y num = retainedCount colors img w y w ∧
        (rowWidthSum rle y num = w ↔ ∀ t, t < w → retained colors img w y t)) := by
  have hval' : ∀ p, p < w * h → img p < 255 := by
    intro p hp
    have := hval p hp
    have hc : COLOR_COUNT = 10 := rfl
    omega
  obtain ⟨map', rle, num, yf, xf, e, _, inv, hyf, hend⟩ :=
    SegEncodeRuns_spec colors img w h fuel rle0 hval' hf
  refine ⟨map', rle, num, e, inv.mono, inv.emitted, ?_, ?_, ?_⟩
  · intro i hi t ht
    have hm := inv.mono i hi
    rcases inv.emitted i hi with hk | hk
    · refine Or.inl ?_
      rw [← Nat.add_assoc, hm t ht]
      exact hk
    · refine Or.inr (fun s hs hts => ?_)
      have e1 : (rle i).y * w + s = (rle i).y * w + (rle i).x + (s - (rle i).x) := by omega
      rw [e1, hm (s - (rle i).x) (by omega), ← Nat.add_assoc, hm t ht]
  · intro hnum hw y hy
    rcases hend with ⟨h1, h2⟩ | ⟨_, _, h3⟩
    · subst h1; subst h2
      obtain ⟨b1, b2, b3⟩ := inv.last_run hw (by omega)
      by_cases hlast : y = (rle (num - 1)).y
      · exact ⟨num - 1, by omega, hlast.symm, b3⟩
      · obtain ⟨i', a1, a2, a3⟩ := inv.rowEnd_before (num - 1) (by omega) y (by omega)
        exact ⟨i', by omega, a2, a3⟩
    · omega
  · intro y ⟨i, hi, hy, hiw⟩
    have hsum : rowWidthSum rle y num = retainedCount colors img w y w := by
      obtain ⟨a1, a2, _, _, _, a6⟩ := inv.runs i hi
      by_cases hlt : y < yf
      · exact inv.sumPrev y hlt
      · have hyy : y = yf := by omega
        subst hyy
        have hx : xf = w := by
          have h1 := a6 hy
          rcases hend with ⟨_, h2⟩ | ⟨_, h2, _⟩
          · omega
          · omega
        rw [hx] at inv
        exact inv.sumCur
    refine ⟨hsum, ?_⟩
    rw [hsum]
    exact retainedCount_eq_iff colors img w y w

/-- The amended C8 statement applied to the 2×2 image `[[1, 0], [0, 1]]` with
class 1 enabled and class 0 disabled: the first row keeps both its runs, the
second only the run of class 1. -/
theorem SegEncodeRuns_rows_witness :
    ((∀ p, p < 2 * 2 → ofList [1, 0, 0, 1] 0 p < COLOR_COUNT) ∧ 2 < 3) ∧
    ∃ map' rle num,
      SegEncodeRuns (colorsOf [MAX_INT, 1]) 2 2 3 (ofList [1, 0, 0, 1] 0) (fun _ => blankRun)
        = some (map', rle, num) ∧
      (∀ i, i < num → ∀ t, t < (rle i).width →
        ofList [1, 0, 0, 1] 0 ((rle i).y * 2 + (rle i).x + t) = (rle i).color) ∧
      (∀ i, i < num →
        enabled (colorsOf [MAX_INT, 1]) (rle i).color ∨ (rle i).x + (rle i).width = 2) ∧
      (∀ i, i < num → ∀ t, t < (rle i).width →
        retained (colorsOf [MAX_INT, 1]) (ofList [1, 0, 0, 1] 0) 2 (rle i).y ((rle i).x + t)) ∧
      (num < MAX_RUNS → 0 < 2 → ∀ y, y < 2 →
        ∃ i, i < num ∧ (rle i).y = y ∧ (rle i).x + (rle i).width = 2) ∧
      (∀ y, (∃ i, i < num ∧ (rle i).y = y ∧ (rle i).x + (rle i).width = 2) →
        rowWidthSum rle y num =
          retainedCount (colorsOf [MAX_INT, 1]) (ofList [1, 0, 0, 1] 0) 2 y 2 ∧
        (rowWidthSum rle y num = 2 ↔
          ∀ t, t < 2 → retained (colorsOf [MAX_INT, 1]) (ofList [1, 0, 0, 1] 0) 2 y t)) :=
  ⟨by decide, SegEncodeRuns_rows (colorsOf [MAX_INT, 1]) (ofList [1, 0, 0, 1] 0) 2 2 3
    (fun _ => blankRun) (by decide) (by decide)⟩

/-- C8 as stated fails: with class 0 disabled, the complete row `[0, 1]` is
encoded as the single run of class 1, whose width is 1, not the row width 2. -/
theorem SegEncodeRuns_width_sum_counterexample :
    (∀ p, p < 2 * 1 → ofList [0, 1] 0 p < COLOR_COUNT) ∧
    (SegEncodeRuns (colorsOf [MAX_INT, 1]) 2 1 3 (ofList [0, 1] 0) (fun _ => blankRun)).map
        (fun r => (r.2.2, (r.2.1 0).x, (r.2.1 0).width, (r.2.1 0).color,
          rowWidthSum r.2.1 0 r.2.2)) = some (1, 1, 1, 1, 1) ∧
    (1 : Nat) < MAX_RUNS ∧ (1 : Nat) ≠ 2 := by
  decide

/-! ## Forests of parent links -/

theorem parentOf_setParent (m : Nat → run) (i p : Nat) :
    parentOf (setParent m i p) = upd (parentOf m) i p := by
  funext k
  unfold parentOf setParent
  by_cases hk : k = i
  · subst hk; rw [upd_same, upd_same]
  · rw [upd_other _ _ _ _ hk, upd_other _ _ _ _ hk]

theorem iterate_le_of_forest {p : Nat → Nat} {num : Nat} (hF : Forest p num) :
    ∀ (n i : Nat), i < num → p^[n] i ≤ i := by
  intro n
  induction n with
  | zero => intro i _; exact Nat.le_refl _
  | succ n ih =>
    intro i hi
    rw [Function.iterate_succ_apply']
    have h1 := ih i hi
    have h2 := hF (p^[n] i) (by omega)
    omega

theorem iterate_fix_or_descend {p : Nat → Nat} {num : Nat} (hF : Forest p num) :
    ∀ (n i : Nat), i < num → p (p^[n] i) = p^[n] i ∨ p^[n] i + n ≤ i := by
  intro n
  induction n with
  | zero => intro i _; exact Or.inr (Nat.le_refl _)
  | succ n ih =>
    intro i hi
    rw [Function.iterate_succ_apply']
    have hle := iterate_le_of_forest hF n i hi
    rcases ih i hi with h | h
    · rw [h]; exact Or.inl h
    · by_cases hfix : p (p^[n] i) = p^[n] i
      · rw [hfix]; exact Or.inl hfix
      · have := hF (p^[n] i) (by omega)
        exact Or.inr (by omega)

theorem rootOf_le {p : Nat → Nat} {num : Nat} (hF : Forest p num) {i : Nat} (hi : i < num) :
    rootOf p num i ≤ i :=
  iterate_le_of_forest hF num i hi

theorem rootOf_fix {p : Nat → Nat} {num : Nat} (hF : Forest p num) {i : Nat} (hi : i < num) :
    p (rootOf p num i) = rootOf p num i := by
  rcases iterate_fix_or_descend hF num i hi with h | h
  · exact h
  · omega

theorem rootOf_parent {p : Nat → Nat} {num : Nat} (hF : Forest p num) {i : Nat} (hi : i < num) :
    rootOf p num (p i) = rootOf p num i := by
  unfold rootOf
  rw [← Function.iterate_succ_apply, Function.iterate_succ_apply']
  exact rootOf_fix hF hi

theorem rootOf_of_fix {p : Nat → Nat} (num : Nat) {i : Nat} (h : p i = i) :
    rootOf p num i = i :=
  Function.iterate_fixed h num

theorem rootOf_idem {p : Nat → Nat} {num : Nat} (hF : Forest p num) {i : Nat} (hi : i < num) :
    rootOf p num (rootOf p num i) = rootOf p num i :=
  rootOf_of_fix num (rootOf_fix hF hi)

/-- The root function is the only function that is the identity on roots and
constant along parent links. -/
theorem rootOf_unique {p : Nat → Nat} {num : Nat} (hF : Forest p num) (g : Nat → Nat)
    (h1 : ∀ i, i < num → p i = i → g i = i) (h2 : ∀ i, i < num → g (p i) = g i) :
    ∀ i, i < num → g i = rootOf p num i := by
  intro i
  induction i using Nat.strong_induction_on with
  | _ i ih =>
    intro hi
    by_cases hfix : p i = i
    · rw [h1 i hi hfix, rootOf_of_fix num hfix]
    · have hlt : p i < i := by have := hF i hi; omega
      rw [← h2 i hi, ih (p i) hlt (by omega), rootOf_parent hF hi]

/-- Linking a root `j` below a node `v ≤ j` merges the tree of `j` into the
tree of `v`. -/
theorem rootOf_link {p : Nat → Nat} {num : Nat} (hF : Forest p num) {j v : Nat}
    (hj : j < num) (hroot : p j = j) (hv : v ≤ j) :
    Forest (upd p j v) num ∧ ∀ x, x < num →
      rootOf (upd p j v) num x =
        if rootOf p num x = j then rootOf p num v else rootOf p num x := by
  have hF' : Forest (upd p j v) num := by
    intro i hi
    by_cases hij : i = j
    · rw [hij, upd_same]; exact hv
    · rw [upd_other _ _ _ _ hij]; exact hF i hi
  refine ⟨hF', fun x hx => ?_⟩
  symm
  have hvn : v < num := by omega
  refine rootOf_unique hF' (fun x => if rootOf p num x = j then rootOf p num v
    else rootOf p num x) ?_ ?_ x hx
  · intro i hi hfix
    beta_reduce
    by_cases hij : i = j
    · rw [hij, upd_same] at hfix
      rw [hij, rootOf_of_fix num hroot, if_pos rfl, hfix, rootOf_of_fix num hroot]
    · rw [upd_other _ _ _ _ hij] at hfix
      have : rootOf p num i = i := rootOf_of_fix num hfix
      rw [this, if_neg hij]
  · intro i hi
    beta_reduce
    by_cases hij : i = j
    · rw [hij, upd_same, rootOf_of_fix num hroot, if_pos rfl]
      by_cases hvj : rootOf p num v = j
      · rw [if_pos hvj]
      · rw [if_neg hvj]
    · rw [upd_other _ _ _ _ hij, rootOf_parent hF hi]

/-- Redirecting a node to its own root changes no root. -/
theorem rootOf_compress {p : Nat → Nat} {num : Nat} (hF : Forest p num) {u : Nat}
    (hu : u < num) :
    Forest (upd p u (rootOf p num u)) num ∧ ∀ x, x < num →
      rootOf (upd p u (rootOf p num u)) num x = rootOf p num x := by
  have hF' : Forest (upd p u (rootOf p num u)) num := by
    intro i hi
    by_cases hiu : i = u
    · rw [hiu, upd_same]; exact rootOf_le hF hu
    · rw [upd_other _ _ _ _ hiu]; exact hF i hi
  refine ⟨hF', fun x hx => ?_⟩
  symm
  refine rootOf_unique hF' (fun x => rootOf p num x) ?_ ?_ x hx
  · intro i hi hfix
    beta_reduce
    by_cases hiu : i = u
    · rw [hiu, upd_same] at hfix
      rw [hiu]; exact hfix
    · rw [upd_other _ _ _ _ hiu] at hfix
      exact rootOf_of_fix num hfix
  · intro i hi
    show rootOf p num (upd p u (rootOf p num u) i) = rootOf p num i
    by_cases hiu : i = u
    · rw [hiu, upd_same]; exact rootOf_idem hF hu
    · rw [upd_other _ _ _ _ hiu]; exact rootOf_parent hF hi

theorem findRoot_total (m : Nat → run) (num : Nat) (hF : Forest (parentOf m) num) :
    ∀ (fuel i : Nat), i < num → i < fuel →
      findRoot m fuel i = some (rootOf (parentOf m) num i) := by
  intro fuel
  induction fuel with
  | zero => intro i _ h; omega
  | succ fuel ih =>
    intro i hi hf
    rw [findRoot]
    by_cases hfix : i ≠ (m i).parent
    · rw [if_pos hfix]
      have hle : (m i).parent ≤ i := hF i hi
      rw [ih (m i).parent (by omega) (by omega)]
      exact congrArg some (rootOf_parent hF hi)
    · rw [if_neg hfix]
      have : parentOf m i = i := by
        unfold parentOf
        exact (not_not.1 hfix).symm
      rw [rootOf_of_fix num this]

theorem findRoot_some (m : Nat → run) (num : Nat) (hF : Forest (parentOf m) num) :
    ∀ (fuel i r : Nat), i < num → findRoot m fuel i = some r →
      r = rootOf (parentOf m) num i := by
  intro fuel
  induction fuel with
  | zero => intro i r _ h; rw [findRoot] at h; cases h
  | succ fuel ih =>
    intro i r hi h
    rw [findRoot] at h
    by_cases hfix : i ≠ (m i).parent
    · rw [if_pos hfix] at h
      have hle : (m i).parent ≤ i := hF i hi
      rw [ih (m i).parent r (by omega) h]
      exact rootOf_parent hF hi
    · rw [if_neg hfix] at h
      have : parentOf m i = i := by
        unfold parentOf
        exact (not_not.1 hfix).symm
      rw [rootOf_of_fix num this]
      cases h
      rfl

/-! ## Geometry of an encoded run list -/

theorem EncInv.rowStruct {colors : Nat → color_class_state} {img : Nat → Nat} {w : Nat}
    {rle : Nat → run} {j y x : Nat} (inv : EncInv colors img w rle j y x) :
    RowStruct rle j w := by
  constructor
  · intro i hi
    obtain ⟨_, a2, a3, a4, a5, _⟩ := inv.runs i hi
    exact ⟨a2, a3, a4, a5⟩
  · exact inv.step
  · exact inv.first

theorem RowStruct.y_mono_add {rle : Nat → run} {num w : Nat} (rs : RowStruct rle num w) :
    ∀ (d i : Nat), i + d < num → (rle i).y ≤ (rle (i + d)).y := by
  intro d
  induction d with
  | zero => intro i _; exact Nat.le_refl _
  | succ d ih =>
    intro i hi
    have h1 := ih i (by omega)
    rcases rs.step (i + d) (by omega) with h | h
    · have : i + (d + 1) = i + d + 1 := by omega
      rw [this, h.1]; exact h1
    · have : i + (d + 1) = i + d + 1 := by omega
      rw [this, h.1]; omega

theorem RowStruct.y_mono {rle : Nat → run} {num w : Nat} (rs : RowStruct rle num w)
    {i k : Nat} (hik : i ≤ k) (hk : k < num) : (rle i).y ≤ (rle k).y := by
  have := rs.y_mono_add (k - i) i (by omega)
  have e : i + (k - i) = k := by omega
  rw [e] at this
  exact this

theorem RowStruct.next_row {rle : Nat → run} {num w : Nat} (rs : RowStruct rle num w)
    {i : Nat} (hi : i + 1 < num) (hend : (rle i).x + (rle i).width = w) :
    (rle (i + 1)).y = (rle i).y + 1 := by
  rcases rs.step i hi with h | h
  · obtain ⟨a1, a2, _⟩ := rs.runs (i + 1) hi
    omega
  · exact h.1

theorem RowStruct.same_row {rle : Nat → run} {num w : Nat} (rs : RowStruct rle num w)
    {i : Nat} (hi : i + 1 < num) (hend : (rle i).x + (rle i).width < w) :
    (rle (i + 1)).y = (rle i).y ∧ (rle i).x + (rle i).width ≤ (rle (i + 1)).x := by
  rcases rs.step i hi with h | h
  · exact h
  · omega

/-- Within a row, an earlier run ends before a later run starts. -/
theorem RowStruct.ordered {rle : Nat → run} {num w : Nat} (rs : RowStruct rle num w) :
    ∀ (d i : Nat), i + 1 + d < num → (rle i).y = (rle (i + 1 + d)).y →
      (rle i).x + (rle i).width ≤ (rle (i + 1 + d)).x := by
  intro d
  induction d with
  | zero =>
    intro i hi hy
    rcases rs.step i hi with h | h
    · exact h.2
    · rw [Nat.add_zero] at hy; omega
  | succ d ih =>
    intro i hi hy
    have hm1 : (rle i).y ≤ (rle (i + 1 + d)).y := rs.y_mono (by omega) (by omega)
    have hm2 : (rle (i + 1 + d)).y ≤ (rle (i + 1 + (d + 1))).y := rs.y_mono (by omega) hi
    have h1 := ih i (by omega) (by omega)
    obtain ⟨a1, _, _⟩ := rs.runs (i + 1 + d) (by omega)
    rcases rs.step (i + 1 + d) (by omega) with h | h
    · have e : i + 1 + (d + 1) = i + 1 + d + 1 := by omega
      rw [e]; omega
    · have e : i + 1 + (d + 1) = i + 1 + d + 1 := by omega
      rw [e] at hy; omega

theorem RowStruct.ordered_lt {rle : Nat → run} {num w : Nat} (rs : RowStruct rle num w)
    {i k : Nat} (hik : i < k) (hk : k < num) (hy : (rle i).y = (rle k).y) :
    (rle i).x + (rle i).width ≤ (rle k).x := by
  have e : i + 1 + (k - i - 1) = k := by omega
  have := rs.ordered (k - i - 1) i (by omega) (by rw [e]; exact hy)
  rw [e] at this
  exact this

/-! ## Connectivity of runs -/

theorem Adjacent.flip {rle : Nat → run} {num a b : Nat} (h : Adjacent rle num a b) :
    Adjacent rle num b a :=
  ⟨h.2.1, h.1, h.2.2.1.symm, h.2.2.2.1.symm, h.2.2.2.2.2, h.2.2.2.2.1⟩

theorem Connected.swap {rle : Nat → run} {num a b : Nat} (h : Connected rle num a b) :
    Connected rle num b a := by
  induction h with
  | refl => exact Relation.ReflTransGen.refl
  | tail _ hab ih => exact Relation.ReflTransGen.head hab.flip ih

theorem Connected.color_eq {rle : Nat → run} {num a b : Nat} (h : Connected rle num a b) :
    (rle a).color = (rle b).color := by
  induction h with
  | refl => rfl
  | tail _ hab ih => exact ih.trans hab.2.2.1

theorem Connected.iterate {rle : Nat → run} {num : Nat} {p : Nat → Nat} (hF : Forest p num)
    (hs : ∀ i, i < num → Connected rle num i (p i)) :
    ∀ (n i : Nat), i < num → Connected rle num i (p^[n] i) := by
  intro n
  induction n with
  | zero => intro i _; exact Relation.ReflTransGen.refl
  | succ n ih =>
    intro i hi
    rw [Function.iterate_succ_apply']
    have hle := iterate_le_of_forest hF n i hi
    exact Relation.ReflTransGen.trans (ih i hi) (hs _ (by omega))

theorem Connected.root {rle : Nat → run} {num : Nat} {p : Nat → Nat} (hF : Forest p num)
    (hs : ∀ i, i < num → Connected rle num i (p i)) {i : Nat} (hi : i < num) :
    Connected rle num i (rootOf p num i) :=
  Connected.iterate hF hs num i hi

theorem x_of_dropParent {r r' : run} (h : dropParent r' = dropParent r) : r'.x = r.x :=
  show (dropParent r').x = (dropParent r).x from congrArg run.x h

theorem y_of_dropParent {r r' : run} (h : dropParent r' = dropParent r) : r'.y = r.y :=
  show (dropParent r').y = (dropParent r).y from congrArg run.y h

theorem width_of_dropParent {r r' : run} (h : dropParent r' = dropParent r) :
    r'.width = r.width :=
  show (dropParent r').width = (dropParent r).width from congrArg run.width h

theorem color_of_dropParent {r r' : run} (h : dropParent r' = dropParent r) :
    r'.color = r.color :=
  show (dropParent r').color = (dropParent r).color from congrArg run.color h

theorem next_of_dropParent {r r' : run} (h : dropParent r' = dropParent r) :
    r'.next = r.next :=
  show (dropParent r').next = (dropParent r).next from congrArg run.next h

theorem dropParent_setParent (m : Nat → run) (i p k : Nat) :
    dropParent (setParent m i p k) = dropParent (m k) := by
  unfold setParent
  by_cases hk : k = i
  · subst hk; rw [upd_same]; rfl
  · rw [upd_other _ _ _ _ hk]

theorem overlap_iff_spansMeet {r1 r2 : run} (h1 : 1 ≤ r1.width) (h2 : 1 ≤ r2.width) :
    overlap r1 r2 ↔ spansMeet r2 r1 := by
  unfold overlap spansMeet
  constructor
  · intro h
    rcases h with h | h <;> constructor <;> omega
  · intro h
    by_cases hx : r2.x ≤ r1.x
    · exact Or.inl ⟨hx, h.2⟩
    · exact Or.inr ⟨by omega, h.1⟩

/-! ## The sweep of SegConnectComponents -/

/-- Once the pair `(l2, l1)` is known to share a root (or not to be a pair of
neighbours of an enabled class), it counts as handled. -/
theorem SweepInv.bump {colors : Nat → color_class_state} {rle0 : Nat → run} {num : Nat}
    {st : SweepState} (inv : SweepInv colors rle0 num st st.l2)
    (h : enabled colors (rle0 st.l2).color → (rle0 st.l2).color = (rle0 st.l1).color →
      spansMeet (rle0 st.l2) (rle0 st.l1) →
      rootOf (parentOf st.map) num st.l2 = rootOf (parentOf st.map) num st.l1) :
    SweepInv colors rle0 num st (st.l2 + 1) := by
  refine { inv with done := ?_ }
  intro a b ha hb hen hc hy hm hp
  by_cases hold : b < st.l1 ∨ (b = st.l1 ∧ a < st.l2)
  · exact inv.done a b ha hb hen hc hy hm hold
  · have hb' : b = st.l1 := by omega
    have ha' : a = st.l2 := by omega
    subst hb'; subst ha'
    exact h hen hc hm

/-- Linking a root `j ≤ l1` below a connected node `v ≤ j` keeps the sweep
invariant and merges the two trees. -/
theorem SweepInv.link {colors : Nat → color_class_state} {rle0 : Nat → run} {num : Nat}
    {st : SweepState} {k : Nat} (inv : SweepInv colors rle0 num st k) (j v : Nat)
    (hj : j ≤ st.l1) (hjn : j < num) (hroot : parentOf st.map j = j) (hv : v ≤ j)
    (hconn : Connected rle0 num j v) :
    SweepInv colors rle0 num
        ⟨setParent st.map j v, st.l1, st.l2, setParent st.map j v st.l1,
          setParent st.map j v st.l2, st.l1⟩ k ∧
      ∀ x, x < num → rootOf (parentOf (setParent st.map j v)) num x =
        if rootOf (parentOf st.map) num x = j then rootOf (parentOf st.map) num v
        else rootOf (parentOf st.map) num x := by
  obtain ⟨hF', hr⟩ := rootOf_link inv.forest hjn hroot hv
  rw [← parentOf_setParent] at hF' hr
  refine ⟨?_, hr⟩
  constructor
  · intro i; exact (dropParent_setParent _ _ _ _).trans (inv.geom i)
  · rfl
  · rfl
  · exact inv.lt
  · exact inv.le
  · exact Nat.le_refl _
  · exact inv.rows
  · exact hF'
  · intro i h1 h2
    have h1' : st.l1 < i := h1
    show parentOf (setParent st.map j v) i = i
    rw [parentOf_setParent, upd_other _ _ _ _ (by omega)]
    exact inv.fresh i h1' h2
  · intro h; exact absurd rfl h
  · intro i hi
    show Connected rle0 num i (parentOf (setParent st.map j v) i)
    rw [parentOf_setParent]
    by_cases hij : i = j
    · rw [hij, upd_same]; exact hconn
    · rw [upd_other _ _ _ _ hij]; exact inv.sound i hi
  · exact inv.passed
  · intro a b ha hb hen hc hy hm hp
    show rootOf (parentOf (setParent st.map j v)) num a
      = rootOf (parentOf (setParent st.map j v)) num b
    rw [hr a ha, hr b hb, inv.done a b ha hb hen hc hy hm hp]

/-- Redirecting a run `u ≤ l1` to its root keeps the sweep invariant and all
roots. -/
theorem SweepInv.compress {colors : Nat → color_class_state} {rle0 : Nat → run} {num : Nat}
    {st : SweepState} {k : Nat} (inv : SweepInv colors rle0 num st k) (u r : Nat)
    (hu : u ≤ st.l1) (hun : u < num) (hr : r = rootOf (parentOf st.map) num u) :
    SweepInv colors rle0 num
        ⟨setParent st.map u r, st.l1, st.l2, setParent st.map u r st.l1,
          setParent st.map u r st.l2, st.l1⟩ k ∧
      ∀ x, x < num → rootOf (parentOf (setParent st.map u r)) num x =
        rootOf (parentOf st.map) num x := by
  subst hr
  obtain ⟨hF', hr⟩ := rootOf_compress inv.forest hun
  rw [← parentOf_setParent] at hF' hr
  refine ⟨?_, hr⟩
  constructor
  · intro i; exact (dropParent_setParent _ _ _ _).trans (inv.geom i)
  · rfl
  · rfl
  · exact inv.lt
  · exact inv.le
  · exact Nat.le_refl _
  · exact inv.rows
  · exact hF'
  · intro i h1 h2
    have h1' : st.l1 < i := h1
    show parentOf (setParent st.map u _) i = i
    rw [parentOf_setParent, upd_other _ _ _ _ (by omega)]
    exact inv.fresh i h1' h2
  · intro h; exact absurd rfl h
  · intro i hi
    show Connected rle0 num i (parentOf (setParent st.map u _) i)
    rw [parentOf_setParent]
    by_cases hiu : i = u
    · rw [hiu, upd_same]; exact Connected.root inv.forest inv.sound hun
    · rw [upd_other _ _ _ _ hiu]; exact inv.sound i hi
  · exact inv.passed
  · intro a b ha hb hen hc hy hm hp
    show rootOf (parentOf (setParent st.map u _)) num a
      = rootOf (parentOf (setParent st.map u _)) num b
    rw [hr a ha, hr b hb, inv.done a b ha hb hen hc hy hm hp]

/-- The union branch: linking the larger of the two roots below the smaller
and redirecting `l2` and `l1` to it. -/
theorem SweepInv.union {colors : Nat → color_class_state} {rle0 : Nat → run} {num : Nat}
    {st : SweepState} (inv : SweepInv colors rle0 num st st.l2) (hl1 : st.l1 < num)
    (hadj : Adjacent rle0 num st.l2 st.l1) {big small : Nat}
    (hcase : (big = rootOf (parentOf st.map) num st.l2 ∧
        small = rootOf (parentOf st.map) num st.l1) ∨
      (big = rootOf (parentOf st.map) num st.l1 ∧
        small = rootOf (parentOf st.map) num st.l2))
    (hle : small ≤ big) :
    SweepInv colors rle0 num
      ⟨setParent (setParent (setParent st.map big small) st.l2 small) st.l1 small,
        st.l1, st.l2,
        setParent (setParent (setParent st.map big small) st.l2 small) st.l1 small st.l1,
        setParent (setParent (setParent st.map big small) st.l2 small) st.l1 small st.l2,
        st.l1⟩ (st.l2 + 1) := by
  have hl2 : st.l2 < num := by have := inv.lt; omega
  have hF := inv.forest
  have c1 : Connected rle0 num st.l1 (rootOf (parentOf st.map) num st.l1) :=
    Connected.root hF inv.sound hl1
  have c2 : Connected rle0 num st.l2 (rootOf (parentOf st.map) num st.l2) :=
    Connected.root hF inv.sound hl2
  have c12 : Connected rle0 num st.l2 st.l1 := Relation.ReflTransGen.single hadj
  have r1le := rootOf_le hF hl1
  have r2le := rootOf_le hF hl2
  have hlt := inv.lt
  have hbig : big ≤ st.l1 ∧ big < num ∧ parentOf st.map big = big ∧
      Connected rle0 num big small ∧
      rootOf (parentOf st.map) num small = small := by
    rcases hcase with ⟨h1, h2⟩ | ⟨h1, h2⟩
    · rw [h1, h2]
      exact ⟨by omega, by omega, rootOf_fix hF hl2,
        (c2.swap.trans c12).trans c1, rootOf_idem hF hl1⟩
    · rw [h1, h2]
      exact ⟨by omega, by omega, rootOf_fix hF hl1,
        (c1.swap.trans c12.swap).trans c2, rootOf_idem hF hl2⟩
  obtain ⟨b1, b2, b3, b4, b5⟩ := hbig
  obtain ⟨inv1, hr1⟩ := inv.link big small b1 b2 b3 hle b4
  have e2 : small = rootOf (parentOf (setParent st.map big small)) num st.l2 := by
    rw [hr1 st.l2 hl2]
    rcases hcase with ⟨h1, h2⟩ | ⟨h1, h2⟩
    · rw [if_pos h1.symm, b5]
    · by_cases hb : rootOf (parentOf st.map) num st.l2 = big
      · rw [if_pos hb, b5]
      · rw [if_neg hb, h2]
  have e1 : small = rootOf (parentOf (setParent st.map big small)) num st.l1 := by
    rw [hr1 st.l1 hl1]
    rcases hcase with ⟨h1, h2⟩ | ⟨h1, h2⟩
    · by_cases hb : rootOf (parentOf st.map) num st.l1 = big
      · rw [if_pos hb, b5]
      · rw [if_neg hb, h2]
    · rw [if_pos h1.symm, b5]
  obtain ⟨inv2, hr2⟩ := inv1.compress st.l2 small (Nat.le_of_lt hlt) hl2 e2
  have e1' : small = rootOf (parentOf (setParent (setParent st.map big small) st.l2 small))
      num st.l1 := by
    rw [hr2 st.l1 hl1]; exact e1
  obtain ⟨inv3, hr3⟩ := inv2.compress st.l1 small (Nat.le_refl _) hl1 e1'
  refine SweepInv.bump inv3 (fun _ _ _ => ?_)
  show rootOf (parentOf (setParent (setParent (setParent st.map big small) st.l2 small)
      st.l1 small)) num st.l2 =
    rootOf (parentOf (setParent (setParent (setParent st.map big small) st.l2 small)
      st.l1 small)) num st.l1
  rw [hr3 st.l2 hl2, hr3 st.l1 hl1, hr2 st.l2 hl2, hr2 st.l1 hl1, ← e1, ← e2]

/-- The merge half of the sweep body: with enough fuel it returns, and when it
returns the pair `(l2, l1)` has been handled. -/
theorem sweepMerge_spec {colors : Nat → color_class_state} {rle0 : Nat → run} {num w : Nat}
    (rs : RowStruct rle0 num w) {st : SweepState}
    (inv : SweepInv colors rle0 num st st.l2) (hl1 : st.l1 < num) (fuel : Nat) :
    (num ≤ fuel → ∃ st', sweepMerge colors fuel st = some st') ∧
    (∀ st', sweepMerge colors fuel st = some st' →
      SweepInv colors rle0 num st' (st.l2 + 1) ∧ st'.l1 = st.l1 ∧ st'.l2 = st.l2) := by
  have hlt := inv.lt
  have hl2 : st.l2 < num := by omega
  have hF := inv.forest
  have g1 := inv.geom st.l1
  have g2 := inv.geom st.l2
  have hr1c : st.r1.color = (rle0 st.l1).color := by
    rw [inv.r1eq]; exact color_of_dropParent g1
  have hr2c : st.r2.color = (rle0 st.l2).color := by
    rw [inv.r2eq]; exact color_of_dropParent g2
  have hr1x : st.r1.x = (rle0 st.l1).x := by rw [inv.r1eq]; exact x_of_dropParent g1
  have hr2x : st.r2.x = (rle0 st.l2).x := by rw [inv.r2eq]; exact x_of_dropParent g2
  have hr1w : st.r1.width = (rle0 st.l1).width := by
    rw [inv.r1eq]; exact width_of_dropParent g1
  have hr2w : st.r2.width = (rle0 st.l2).width := by
    rw [inv.r2eq]; exact width_of_dropParent g2
  have hr1p : st.r1.parent = parentOf st.map st.l1 := by rw [inv.r1eq]; rfl
  have hr2p : st.r2.parent = parentOf st.map st.l2 := by rw [inv.r2eq]; rfl
  obtain ⟨w1, _, _, _⟩ := rs.runs st.l1 hl1
  obtain ⟨w2, _, _, _⟩ := rs.runs st.l2 hl2
  have hov : overlap st.r1 st.r2 ↔ spansMeet (rle0 st.l2) (rle0 st.l1) := by
    rw [overlap_iff_spansMeet (by omega) (by omega)]
    unfold spansMeet
    rw [hr1x, hr2x, hr1w, hr2w]
  have hnone : ¬ (st.r1.color = st.r2.color ∧ enabled colors st.r1.color ∧ overlap st.r1 st.r2) →
      SweepInv colors rle0 num st (st.l2 + 1) := by
    intro hn
    refine inv.bump (fun hen hc hm => absurd ⟨?_, ?_, hov.2 hm⟩ hn)
    · rw [hr1c, hr2c]; exact hc.symm
    · rw [hr1c, ← hc]; exact hen
  unfold sweepMerge
  by_cases hC : st.r1.color = st.r2.color ∧ enabled colors st.r1.color
  · rw [if_pos hC]
    by_cases hO : overlap st.r1 st.r2
    · rw [if_pos hO]
      have hadj : Adjacent rle0 num st.l2 st.l1 :=
        ⟨hl2, hl1, by rw [← hr1c, ← hr2c]; exact hC.1.symm, Or.inl (inv.rows hl1).symm,
          hov.1 hO⟩
      by_cases hs : st.s ≠ st.l1
      · rw [if_pos hs]
        refine ⟨fun _ => ⟨_, rfl⟩, fun st' h => ?_⟩
        cases h
        refine ⟨?_, rfl, rfl⟩
        have hv : parentOf st.map st.l2 ≤ st.l1 := by have := hF st.l2 hl2; omega
        have hroot := inv.fresh1 hs hl1
        have hconn : Connected rle0 num st.l1 (parentOf st.map st.l2) :=
          Relation.ReflTransGen.head hadj.flip (inv.sound st.l2 hl2)
        obtain ⟨inv1, hr⟩ := inv.link st.l1 (parentOf st.map st.l2) (Nat.le_refl _) hl1
          hroot hv hconn
        have e1 : ({ st.r1 with parent := st.r2.parent } : run) =
            setParent st.map st.l1 (parentOf st.map st.l2) st.l1 := by
          unfold setParent
          rw [upd_same, hr2p, inv.r1eq]
        have e2 : st.r2 = setParent st.map st.l1 (parentOf st.map st.l2) st.l2 := by
          unfold setParent
          rw [upd_other _ _ _ _ (by omega), inv.r2eq]
        have e3 : ({ st with
            map := setParent st.map st.l1 st.r2.parent
            r1 := { st.r1 with parent := st.r2.parent }
            s := st.l1 } : SweepState) =
            ⟨setParent st.map st.l1 (parentOf st.map st.l2), st.l1, st.l2,
              setParent st.map st.l1 (parentOf st.map st.l2) st.l1,
              setParent st.map st.l1 (parentOf st.map st.l2) st.l2, st.l1⟩ := by
          rw [← e1, ← e2, hr2p]
        rw [e3]
        refine SweepInv.bump inv1 (fun _ _ _ => ?_)
        show rootOf (parentOf (setParent st.map st.l1 (parentOf st.map st.l2))) num st.l2 =
          rootOf (parentOf (setParent st.map st.l1 (parentOf st.map st.l2))) num st.l1
        have hrl2 := rootOf_le hF hl2
        rw [hr st.l2 hl2, hr st.l1 hl1, rootOf_of_fix num hroot, if_pos rfl,
          if_neg (by omega), rootOf_parent hF hl2]
      · rw [if_neg hs]
        have hs' : st.s = st.l1 := not_not.1 hs
        by_cases hp : st.r1.parent ≠ st.r2.parent
        · rw [if_pos hp]
          have hp1 : st.r1.parent < num := by rw [hr1p]; have := hF st.l1 hl1; omega
          have hp2 : st.r2.parent < num := by rw [hr2p]; have := hF st.l2 hl2; omega
          have hroot1 : rootOf (parentOf st.map) num st.r1.parent
              = rootOf (parentOf st.map) num st.l1 := by
            rw [hr1p]; exact rootOf_parent hF hl1
          have hroot2 : rootOf (parentOf st.map) num st.r2.parent
              = rootOf (parentOf st.map) num st.l2 := by
            rw [hr2p]; exact rootOf_parent hF hl2
          have hmk : ∀ (big small : Nat),
              ({ st with
                map := setParent (setParent (setParent st.map big small) st.l2 small)
                  st.l1 small
                r1 := { st.r1 with parent := small }
                r2 := { st.r2 with parent := small } } : SweepState) =
              ⟨setParent (setParent (setParent st.map big small) st.l2 small) st.l1 small,
                st.l1, st.l2,
                setParent (setParent (setParent st.map big small) st.l2 small) st.l1 small
                  st.l1,
                setParent (setParent (setParent st.map big small) st.l2 small) st.l1 small
                  st.l2, st.l1⟩ := by
            intro big small
            have e1 : ({ st.r1 with parent := small } : run) =
                setParent (setParent (setParent st.map big small) st.l2 small) st.l1 small
                  st.l1 := by
              have hb : setParent (setParent st.map big small) st.l2 small st.l1
                  = { st.r1 with parent :=
                      (setParent (setParent st.map big small) st.l2 small st.l1).parent } := by
                unfold setParent
                rw [upd_other _ _ _ _ (by omega : st.l1 ≠ st.l2)]
                by_cases hb1 : st.l1 = big
                · rw [← hb1, upd_same, inv.r1eq]
                · rw [upd_other _ _ _ _ hb1, inv.r1eq]
              unfold setParent at hb ⊢
              rw [upd_same, hb]
            have e2 : ({ st.r2 with parent := small } : run) =
                setParent (setParent (setParent st.map big small) st.l2 small) st.l1 small
                  st.l2 := by
              have hb : setParent st.map big small st.l2
                  = { st.r2 with parent := (setParent st.map big small st.l2).parent } := by
                unfold setParent
                by_cases hb1 : st.l2 = big
                · rw [← hb1, upd_same, inv.r2eq]
                · rw [upd_other _ _ _ _ hb1, inv.r2eq]
              unfold setParent at hb ⊢
              rw [upd_other _ _ _ _ (by omega : st.l2 ≠ st.l1), upd_same, hb]
            rw [← e1, ← e2, hs']
          constructor
          · intro hfuel
            rw [findRoot_total st.map num hF fuel _ hp1 (by omega),
              findRoot_total st.map num hF fuel _ hp2 (by omega)]
            simp only []
            split <;> exact ⟨_, rfl⟩
          · intro st' h
            cases hfi : findRoot st.map fuel st.r1.parent with
            | none => rw [hfi] at h; cases h
            | some i =>
              cases hfj : findRoot st.map fuel st.r2.parent with
              | none => rw [hfi, hfj] at h; cases h
              | some j =>
                rw [hfi, hfj] at h
                simp only [] at h
                have hi := findRoot_some st.map num hF fuel _ i hp1 hfi
                have hj := findRoot_some st.map num hF fuel _ j hp2 hfj
                rw [hroot1] at hi
                rw [hroot2] at hj
                by_cases hij : i < j
                · rw [if_pos hij] at h
                  cases h
                  refine ⟨?_, rfl, rfl⟩
                  rw [hmk j i]
                  exact inv.union hl1 hadj (Or.inl ⟨hj, hi⟩) (by omega)
                · rw [if_neg hij] at h
                  cases h
                  refine ⟨?_, rfl, rfl⟩
                  rw [hmk i j]
                  exact inv.union hl1 hadj (Or.inr ⟨hi, hj⟩) (by omega)
        · rw [if_neg hp]
          refine ⟨fun _ => ⟨_, rfl⟩, fun st' h => ?_⟩
          cases h
          refine ⟨inv.bump (fun _ _ _ => ?_), rfl, rfl⟩
          have hp' : parentOf st.map st.l1 = parentOf st.map st.l2 := by
            rw [← hr1p, ← hr2p]; exact not_not.1 hp
          rw [← rootOf_parent hF hl2, ← rootOf_parent hF hl1, hp']
    · rw [if_neg hO]
      refine ⟨fun _ => ⟨_, rfl⟩, fun st' h => ?_⟩
      cases h
      exact ⟨hnone (fun h => hO h.2.2), rfl, rfl⟩
  · rw [if_neg hC]
    refine ⟨fun _ => ⟨_, rfl⟩, fun st' h => ?_⟩
    cases h
    exact ⟨hnone (fun h => hC ⟨h.1, h.2.1⟩), rfl, rfl⟩

/-- The advance half of the sweep body keeps the sweep invariant and moves at
least one of the two cursors. -/
theorem sweepAdvance_spec {colors : Nat → color_class_state} {rle0 : Nat → run} {num w : Nat}
    (rs : RowStruct rle0 num w) {st : SweepState}
    (inv : SweepInv colors rle0 num st (st.l2 + 1)) (hl1 : st.l1 < num) :
    SweepInv colors rle0 num (sweepAdvance st) (sweepAdvance st).l2 ∧
      st.l1 + st.l2 < (sweepAdvance st).l1 + (sweepAdvance st).l2 := by
  have hlt := inv.lt
  have hl2 : st.l2 < num := by omega
  have g1 := inv.geom st.l1
  have g2 := inv.geom st.l2
  have hr1x : st.r1.x = (rle0 st.l1).x := by rw [inv.r1eq]; exact x_of_dropParent g1
  have hr2x : st.r2.x = (rle0 st.l2).x := by rw [inv.r2eq]; exact x_of_dropParent g2
  have hr1w : st.r1.width = (rle0 st.l1).width := by
    rw [inv.r1eq]; exact width_of_dropParent g1
  have hr2w : st.r2.width = (rle0 st.l2).width := by
    rw [inv.r2eq]; exact width_of_dropParent g2
  obtain ⟨w1, b1, _, _⟩ := rs.runs st.l1 hl1
  obtain ⟨w2, b2, _, _⟩ := rs.runs st.l2 hl2
  have hrows := inv.rows hl1
  have hsle := inv.sle
  -- pairs `(a, l1)` with `a` beyond `l2` cannot meet when `l2` ends at or after `l1`
  have hbeyond : (rle0 st.l1).x + (rle0 st.l1).width ≤ (rle0 st.l2).x + (rle0 st.l2).width →
      ∀ a, a < num → st.l2 < a → (rle0 a).y + 1 = (rle0 st.l1).y →
        ¬ spansMeet (rle0 a) (rle0 st.l1) := by
    intro hle a ha hgt hy hm
    have := rs.ordered_lt hgt ha (by omega)
    unfold spansMeet at hm
    omega
  by_cases hcase1 : (rle0 st.l1).x + (rle0 st.l1).width < (rle0 st.l2).x + (rle0 st.l2).width
  · -- only `l1` advances
    have hadv : sweepAdvance st = ⟨st.map, st.l1 + 1, st.l2, st.map (st.l1 + 1), st.r2, st.s⟩ := by
      unfold sweepAdvance
      have c1 : (((st.r2.x + st.r2.width : Nat) : Int) - ((st.r1.x + st.r1.width : Nat) : Int)
          ≥ 0) := by omega
      have c2 : ¬ (((st.r2.x + st.r2.width : Nat) : Int)
          - ((st.r1.x + st.r1.width : Nat) : Int) ≤ 0) := by omega
      simp only [if_pos c1, if_neg c2]
    rw [hadv]
    refine ⟨?_, by show st.l1 + st.l2 < st.l1 + 1 + st.l2; omega⟩
    have hsame : st.l1 + 1 < num → (rle0 (st.l1 + 1)).y = (rle0 st.l1).y ∧
        (rle0 st.l1).x + (rle0 st.l1).width ≤ (rle0 (st.l1 + 1)).x :=
      fun h => rs.same_row h (by omega)
    constructor
    · exact inv.geom
    · rfl
    · exact inv.r2eq
    · show st.l2 < st.l1 + 1; omega
    · show st.l1 + 1 ≤ num; omega
    · show st.s ≤ st.l1 + 1; omega
    · intro h
      have h' : st.l1 + 1 < num := h
      show (rle0 (st.l1 + 1)).y = (rle0 st.l2).y + 1
      have := hsame h'; omega
    · exact inv.forest
    · intro i h1 h2
      have h1' : st.l1 + 1 < i := h1
      exact inv.fresh i (by omega) h2
    · intro _ h
      have h' : st.l1 + 1 < num := h
      exact inv.fresh (st.l1 + 1) (by omega) h'
    · exact inv.sound
    · intro h a ha hy
      have h' : st.l1 + 1 < num := h
      have ha' : a < st.l2 := ha
      have hy' : (rle0 a).y = (rle0 st.l2).y := hy
      show (rle0 a).x + (rle0 a).width ≤ (rle0 (st.l1 + 1)).x + (rle0 (st.l1 + 1)).width
      have := inv.passed hl1 a ha' hy'
      have := hsame h'
      omega
    · intro a b ha hb hen hc hy hm hp
      have hp' : b < st.l1 + 1 ∨ (b = st.l1 + 1 ∧ a < st.l2) := hp
      show rootOf (parentOf st.map) num a = rootOf (parentOf st.map) num b
      by_cases hb1 : b < st.l1
      · exact inv.done a b ha hb hen hc hy hm (Or.inl hb1)
      · by_cases hb2 : b = st.l1
        · subst hb2
          by_cases ha1 : a < st.l2 + 1
          · exact inv.done a _ ha hb hen hc hy hm (Or.inr ⟨rfl, ha1⟩)
          · exact absurd hm (hbeyond (by omega) a ha (by omega) hy)
        · have hb3 : b = st.l1 + 1 := by omega
          have ha3 : a < st.l2 := by omega
          subst hb3
          have hs := hsame hb
          have hpass := inv.passed hl1 a ha3 (by omega)
          unfold spansMeet at hm
          omega
  · by_cases hcase2 : (rle0 st.l2).x + (rle0 st.l2).width
        < (rle0 st.l1).x + (rle0 st.l1).width
    · -- only `l2` advances
      have hadv : sweepAdvance st
          = ⟨st.map, st.l1, st.l2 + 1, st.r1, st.map (st.l2 + 1), st.s⟩ := by
        unfold sweepAdvance
        have c1 : ¬ (((st.r2.x + st.r2.width : Nat) : Int)
            - ((st.r1.x + st.r1.width : Nat) : Int) ≥ 0) := by omega
        have c2 : (((st.r2.x + st.r2.width : Nat) : Int)
            - ((st.r1.x + st.r1.width : Nat) : Int) ≤ 0) := by omega
        simp only [if_neg c1, if_pos c2]
      rw [hadv]
      refine ⟨?_, by show st.l1 + st.l2 < st.l1 + (st.l2 + 1); omega⟩
      have hsame : (rle0 (st.l2 + 1)).y = (rle0 st.l2).y ∧
          (rle0 st.l2).x + (rle0 st.l2).width ≤ (rle0 (st.l2 + 1)).x :=
        rs.same_row (by omega) (by omega)
      constructor
      · exact inv.geom
      · exact inv.r1eq
      · rfl
      · show st.l2 + 1 < st.l1
        by_cases h : st.l2 + 1 = st.l1
        · rw [h] at hsame; omega
        · omega
      · exact inv.le
      · exact inv.sle
      · intro _
        show (rle0 st.l1).y = (rle0 (st.l2 + 1)).y + 1
        omega
      · exact inv.forest
      · exact inv.fresh
      · exact inv.fresh1
      · exact inv.sound
      · intro _ a ha hy
        have ha' : a < st.l2 + 1 := ha
        have hy' : (rle0 a).y = (rle0 (st.l2 + 1)).y := hy
        show (rle0 a).x + (rle0 a).width ≤ (rle0 st.l1).x + (rle0 st.l1).width
        by_cases ha2 : a = st.l2
        · rw [ha2]; omega
        · exact inv.passed hl1 a (by omega) (by omega)
      · exact inv.done
    · -- both advance
      have heq : (rle0 st.l1).x + (rle0 st.l1).width
          = (rle0 st.l2).x + (rle0 st.l2).width := by omega
      have hadv : sweepAdvance st
          = ⟨st.map, st.l1 + 1, st.l2 + 1, st.map (st.l1 + 1), st.map (st.l2 + 1), st.s⟩ := by
        unfold sweepAdvance
        have c1 : (((st.r2.x + st.r2.width : Nat) : Int)
            - ((st.r1.x + st.r1.width : Nat) : Int) ≥ 0) := by omega
        have c2 : (((st.r2.x + st.r2.width : Nat) : Int)
            - ((st.r1.x + st.r1.width : Nat) : Int) ≤ 0) := by omega
        simp only [if_pos c1, if_pos c2]
      rw [hadv]
      refine ⟨?_, by show st.l1 + st.l2 < st.l1 + 1 + (st.l2 + 1); omega⟩
      -- the rows of the two successors
      have hsucc : st.l1 + 1 < num →
          ((rle0 (st.l1 + 1)).y = (rle0 st.l1).y ∧ (rle0 (st.l2 + 1)).y = (rle0 st.l2).y ∧
            (rle0 st.l1).x + (rle0 st.l1).width ≤ (rle0 (st.l1 + 1)).x) ∨
          ((rle0 (st.l1 + 1)).y = (rle0 st.l1).y + 1 ∧
            (rle0 (st.l2 + 1)).y = (rle0 st.l2).y + 1) := by
        intro h
        by_cases hw : (rle0 st.l1).x + (rle0 st.l1).width < w
        · have s1 := rs.same_row h hw
          have s2 := rs.same_row (by omega : st.l2 + 1 < num) (by omega)
          exact Or.inl ⟨s1.1, s2.1, s1.2⟩
        · have s1 := rs.next_row h (by omega)
          have s2 := rs.next_row (by omega : st.l2 + 1 < num) (by omega)
          exact Or.inr ⟨s1, s2⟩
      constructor
      · exact inv.geom
      · rfl
      · rfl
      · show st.l2 + 1 < st.l1 + 1; omega
      · show st.l1 + 1 ≤ num; omega
      · show st.s ≤ st.l1 + 1; omega
      · intro h
        have h' : st.l1 + 1 < num := h
        show (rle0 (st.l1 + 1)).y = (rle0 (st.l2 + 1)).y + 1
        rcases hsucc h' with h1 | h1 <;> omega
      · exact inv.forest
      · intro i h1 h2
        have h1' : st.l1 + 1 < i := h1
        exact inv.fresh i (by omega) h2
      · intro _ h
        have h' : st.l1 + 1 < num := h
        exact inv.fresh (st.l1 + 1) (by omega) h'
      · exact inv.sound
      · intro h a ha hy
        have h' : st.l1 + 1 < num := h
        have ha' : a < st.l2 + 1 := ha
        have hy' : (rle0 a).y = (rle0 (st.l2 + 1)).y := hy
        show (rle0 a).x + (rle0 a).width ≤ (rle0 (st.l1 + 1)).x + (rle0 (st.l1 + 1)).width
        rcases hsucc h' with h1 | h1
        · by_cases ha2 : a = st.l2
          · rw [ha2]; omega
          · have := inv.passed hl1 a (by omega) (by omega)
            omega
        · have := rs.y_mono (by omega : a ≤ st.l2) hl2
          omega
      · intro a b ha hb hen hc hy hm hp
        have hp' : b < st.l1 + 1 ∨ (b = st.l1 + 1 ∧ a < st.l2 + 1) := hp
        show rootOf (parentOf st.map) num a = rootOf (parentOf st.map) num b
        by_cases hb1 : b < st.l1
        · exact inv.done a b ha hb hen hc hy hm (Or.inl hb1)
        · by_cases hb2 : b = st.l1
          · subst hb2
            by_cases ha1 : a < st.l2 + 1
            · exact inv.done a _ ha hb hen hc hy hm (Or.inr ⟨rfl, ha1⟩)
            · exact absurd hm (hbeyond (by omega) a ha (by omega) hy)
          · have hb3 : b = st.l1 + 1 := by omega
            have ha3 : a < st.l2 + 1 := by omega
            subst hb3
            rcases hsucc hb with h1 | h1
            · have hend : (rle0 a).x + (rle0 a).width
                  ≤ (rle0 st.l1).x + (rle0 st.l1).width := by
                by_cases ha2 : a = st.l2
                · rw [ha2]; omega
                · exact inv.passed hl1 a (by omega) (by omega)
              unfold spansMeet at hm
              omega
            · have := rs.y_mono (by omega : a ≤ st.l2) hl2
              omega

/-- The sweep loop: with enough fuel it returns, and when it returns the sweep
invariant holds with `l1 = num`. -/
theorem sweep_spec {colors : Nat → color_class_state} {rle0 : Nat → run} {num w : Nat}
    (rs : RowStruct rle0 num w) (fuel0 : Nat) :
    ∀ (fuel : Nat) (st : SweepState), SweepInv colors rle0 num st st.l2 →
      (num ≤ fuel0 → 2 * num < fuel + st.l1 + st.l2 →
        ∃ m', sweep colors num fuel0 fuel st = some m') ∧
      (∀ m', sweep colors num fuel0 fuel st = some m' →
        ∃ st', SweepInv colors rle0 num st' st'.l2 ∧ st'.l1 = num ∧ st'.map = m') := by
  intro fuel
  induction fuel with
  | zero =>
    intro st inv
    refine ⟨fun _ h => ?_, fun m' h => ?_⟩
    · have := inv.lt; have := inv.le; omega
    · rw [sweep] at h; cases h
  | succ fuel ih =>
    intro st inv
    rw [sweep]
    by_cases hl : st.l1 < num
    · rw [if_pos hl]
      obtain ⟨htot, hpart⟩ := sweepMerge_spec rs inv hl fuel0
      have hnext : ∀ st1, sweepMerge colors fuel0 st = some st1 →
          SweepInv colors rle0 num (sweepAdvance st1) (sweepAdvance st1).l2 ∧
            st.l1 + st.l2 < (sweepAdvance st1).l1 + (sweepAdvance st1).l2 := by
        intro st1 e
        obtain ⟨inv1, e1, e2⟩ := hpart st1 e
        rw [← e2] at inv1
        have := sweepAdvance_spec rs inv1 (by rw [e1]; exact hl)
        rw [e1, e2] at this
        exact this
      constructor
      · intro hf0 hf
        obtain ⟨st1, e⟩ := htot hf0
        rw [e]
        obtain ⟨inv2, hdec⟩ := hnext st1 e
        exact (ih _ inv2).1 hf0 (by omega)
      · intro m' h
        cases hm : sweepMerge colors fuel0 st with
        | none => rw [hm] at h; cases h
        | some st1 =>
          rw [hm] at h
          obtain ⟨inv2, _⟩ := hnext st1 hm
          exact (ih _ inv2).2 m' h
    · rw [if_neg hl]
      refine ⟨fun _ _ => ⟨_, rfl⟩, fun m' h => ?_⟩
      cases h
      exact ⟨st, inv, by have := inv.le; omega, rfl⟩

/-- The final loop of `SegConnectComponents` redirects every run to its root. -/
theorem compressPaths_spec (num : Nat) :
    ∀ (n i : Nat) (m : Nat → run), i + n = num → Forest (parentOf m) num →
      (∀ u, u < i → parentOf m u = rootOf (parentOf m) num u) →
      (∀ k, dropParent (compressPaths n i m k) = dropParent (m k)) ∧
      (∀ u, u < num → parentOf (compressPaths n i m) u = rootOf (parentOf m) num u) := by
  intro n
  induction n with
  | zero =>
    intro i m hi _ hdone
    exact ⟨fun k => rfl, fun u hu => hdone u (by omega)⟩
  | succ n ih =>
    intro i m hi hF hdone
    rw [compressPaths]
    have hin : i < num := by omega
    have hp : parentOf m i ≤ i := hF i hin
    have htarget : (m (m i).parent).parent = rootOf (parentOf m) num i := by
      show parentOf m (parentOf m i) = rootOf (parentOf m) num i
      by_cases hfix : parentOf m i = i
      · rw [hfix, hfix, rootOf_of_fix num hfix]
      · rw [hdone (parentOf m i) (by omega), rootOf_parent hF hin]
    rw [htarget]
    obtain ⟨hF', hr⟩ := rootOf_compress hF hin
    rw [← parentOf_setParent] at hF' hr
    have hdone' : ∀ u, u < i + 1 →
        parentOf (setParent m i (rootOf (parentOf m) num i)) u
          = rootOf (parentOf (setParent m i (rootOf (parentOf m) num i))) num u := by
      intro u hu
      rw [hr u (by omega), parentOf_setParent]
      by_cases hui : u = i
      · rw [hui, upd_same]
      · rw [upd_other _ _ _ _ hui]
        exact hdone u (by omega)
    obtain ⟨a1, a2⟩ := ih (i + 1) _ (by omega) hF' hdone'
    refine ⟨fun k => (a1 k).trans (dropParent_setParent _ _ _ _), fun u hu => ?_⟩
    rw [a2 u hu, hr u hu]

theorem skipFirstLine_some (m : Nat → run) :
    ∀ (fuel l l1 : Nat), skipFirstLine m fuel l = some l1 →
      l ≤ l1 ∧ (∀ k, l ≤ k → k < l1 → (m k).y = 0) ∧ (m l1).y ≠ 0 := by
  intro fuel
  induction fuel with
  | zero => intro l l1 h; rw [skipFirstLine] at h; cases h
  | succ fuel ih =>
    intro l l1 h
    rw [skipFirstLine] at h
    by_cases hy : (m l).y = 0
    · rw [if_pos hy] at h
      obtain ⟨a1, a2, a3⟩ := ih (l + 1) l1 h
      refine ⟨by omega, fun k h1 h2 => ?_, a3⟩
      by_cases hk : k = l
      · rw [hk]; exact hy
      · exact a2 k (by omega) h2
    · rw [if_neg hy] at h
      cases h
      exact ⟨Nat.le_refl _, fun k h1 h2 => by omega, hy⟩

theorem skipFirstLine_total (m : Nat → run) (t : Nat) (ht : (m t).y ≠ 0) :
    ∀ (fuel l : Nat), l ≤ t → t - l < fuel → ∃ l1, skipFirstLine m fuel l = some l1 := by
  intro fuel
  induction fuel with
  | zero => intro l _ h; omega
  | succ fuel ih =>
    intro l hl hf
    rw [skipFirstLine]
    by_cases hy : (m l).y = 0
    · rw [if_pos hy]
      have hne : l ≠ t := fun e => ht (e ▸ hy)
      exact ih (l + 1) (by omega) (by omega)
    · rw [if_neg hy]
      exact ⟨l, rfl⟩

/-- The sweep invariant holds when the sweep starts at the first run of the
second row. -/
theorem SweepInv.init {colors : Nat → color_class_state} {rle : Nat → run} {num w : Nat}
    (rs : RowStruct rle num w) (l1 : Nat) (h1 : 1 ≤ l1) (hl : l1 < num)
    (hz : ∀ k, 1 ≤ k → k < l1 → (rle k).y = 0) (hy : (rle l1).y ≠ 0) :
    SweepInv colors rle num ⟨rle, l1, 0, rle l1, rle 0, l1⟩ 0 := by
  have hy0 : (rle 0).y = 0 := rs.first (by omega)
  have hzero : ∀ k, k < l1 → (rle k).y = 0 := by
    intro k hk
    by_cases h0 : k = 0
    · rw [h0]; exact hy0
    · exact hz k (by omega) hk
  have hpar : ∀ i, i < num → parentOf rle i = i := fun i hi => (rs.runs i hi).2.2.1
  constructor
  · intro i; rfl
  · rfl
  · rfl
  · exact h1
  · exact Nat.le_of_lt hl
  · exact Nat.le_refl _
  · intro _
    show (rle l1).y = (rle 0).y + 1
    have hprev := hzero (l1 - 1) (by omega)
    have hstep := rs.step (l1 - 1) (by omega)
    have e : l1 - 1 + 1 = l1 := by omega
    rw [e] at hstep
    omega
  · intro i hi
    rw [hpar i hi]
  · intro i _ hi
    exact hpar i hi
  · intro _ h
    exact hpar l1 h
  · intro i hi
    rw [hpar i hi]
    exact Relation.ReflTransGen.refl
  · intro _ a ha
    have : a < 0 := ha
    omega
  · intro a b _ _ _ _ hyab _ hp
    have hp' : b < l1 ∨ (b = l1 ∧ a < 0) := hp
    have hb : b < l1 := by omega
    have := hzero b hb
    omega

/-- Whenever `SegConnectComponents` returns on an encoded run list, the
result is a correct labelling. -/
theorem SegConnectComponents_labelled {colors : Nat → color_class_state} {rle : Nat → run}
    {num w : Nat} (rs : RowStruct rle num w) (fuel : Nat) (rle2 : Nat → run)
    (h : SegConnectComponents colors fuel rle num = some rle2) :
    Labelled colors rle rle2 num := by
  unfold SegConnectComponents at h
  cases hskip : skipFirstLine rle fuel 1 with
  | none => rw [hskip] at h; cases h
  | some l1 =>
    rw [hskip] at h
    simp only [] at h
    obtain ⟨s1, s2, s3⟩ := skipFirstLine_some rle fuel 1 l1 hskip
    cases hsw : sweep colors num fuel fuel ⟨rle, l1, 0, rle l1, rle 0, l1⟩ with
    | none => rw [hsw] at h; cases h
    | some m' =>
      rw [hsw] at h
      simp only [] at h
      cases h
      have hfinal : ∀ (m : Nat → run), Forest (parentOf m) num →
          (∀ i, dropParent (m i) = dropParent (rle i)) →
          (∀ i, i < num → Connected rle num i (parentOf m i)) →
          (∀ a b, a < num → b < num → enabled colors (rle a).color →
            (rle a).color = (rle b).color → (rle a).y + 1 = (rle b).y →
            spansMeet (rle a) (rle b) →
            rootOf (parentOf m) num a = rootOf (parentOf m) num b) →
          Labelled colors rle (compressPaths num 0 m) num := by
        intro m hF hg hs hd
        obtain ⟨c1, c2⟩ := compressPaths_spec num num 0 m (by omega) hF
          (fun u hu => by omega)
        constructor
        · intro i; exact (c1 i).trans (hg i)
        · intro i hi
          show parentOf (compressPaths num 0 m) i ≤ i
          rw [c2 i hi]; exact rootOf_le hF hi
        · intro i hi
          show parentOf (compressPaths num 0 m) (parentOf (compressPaths num 0 m) i)
            = parentOf (compressPaths num 0 m) i
          have hle := rootOf_le hF hi
          rw [c2 i hi, c2 _ (by omega)]
          exact rootOf_idem hF hi
        · intro i hi
          show Connected rle num i (parentOf (compressPaths num 0 m) i)
          rw [c2 i hi]
          exact Connected.root hF hs hi
        · intro a b ha hb hen hc hy hm
          show parentOf (compressPaths num 0 m) a = parentOf (compressPaths num 0 m) b
          rw [c2 a ha, c2 b hb]
          exact hd a b ha hb hen hc hy hm
      by_cases hl : l1 < num
      · have inv0 : SweepInv colors rle num ⟨rle, l1, 0, rle l1, rle 0, l1⟩ 0 :=
          SweepInv.init rs l1 s1 hl s2 s3
        obtain ⟨st', inv', e1, e2⟩ := (sweep_spec rs fuel fuel _ inv0).2 m' hsw
        rw [← e2]
        exact hfinal st'.map inv'.forest inv'.geom inv'.sound
          (fun a b ha hb hen hc hy hm =>
            inv'.done a b ha hb hen hc hy hm (Or.inl (by rw [e1]; exact hb)))
      · have hm' : m' = rle := by
          cases fuel with
          | zero => rw [sweep] at hsw; cases hsw
          | succ f =>
            rw [sweep, if_neg hl] at hsw
            cases hsw
            rfl
        rw [hm']
        have hpar : ∀ i, i < num → parentOf rle i = i := fun i hi => (rs.runs i hi).2.2.1
        have hzero : ∀ k, k < num → (rle k).y = 0 := by
          intro k hk
          by_cases h0 : k = 0
          · rw [h0]; exact rs.first (by omega)
          · exact s2 k (by omega) (by omega)
        refine hfinal rle (fun i hi => by rw [hpar i hi]) (fun i => rfl)
          (fun i hi => by rw [hpar i hi]; exact Relation.ReflTransGen.refl) ?_
        intro a b _ hb _ _ hy _
        have := hzero b hb
        omega

/-- `SegConnectComponents` returns on an encoded run list that has a run
below the first row, given fuel for twice the number of runs. -/
theorem SegConnectComponents_total {colors : Nat → color_class_state} {rle : Nat → run}
    {num w : Nat} (rs : RowStruct rle num w) (fuel : Nat) (t : Nat) (ht1 : 1 ≤ t)
    (htn : t < num) (hty : (rle t).y ≠ 0) (hf : 2 * num ≤ fuel) :
    ∃ rle2, SegConnectComponents colors fuel rle num = some rle2 := by
  obtain ⟨l1, hskip⟩ := skipFirstLine_total rle t hty fuel 1 ht1 (by omega)
  obtain ⟨s1, s2, s3⟩ := skipFirstLine_some rle fuel 1 l1 hskip
  have hl : l1 < num := by
    by_cases h : l1 ≤ t
    · omega
    · exact absurd (s2 t ht1 (by omega)) hty
  have inv0 : SweepInv colors rle num ⟨rle, l1, 0, rle l1, rle 0, l1⟩ 0 :=
    SweepInv.init rs l1 s1 hl s2 s3
  obtain ⟨m', hsw⟩ := (sweep_spec rs fuel fuel _ inv0).1 (by omega)
    (by show 2 * num < fuel + l1 + 0; omega)
  refine ⟨compressPaths num 0 m', ?_⟩
  unfold SegConnectComponents
  rw [hskip]
  simp only []
  rw [hsw]

/-- In a labelled run list two runs of an enabled class have the same parent
exactly when they are connected. -/
theorem Labelled.parent_eq_iff {colors : Nat → color_class_state} {rle rle2 : Nat → run}
    {num : Nat} (lab : Labelled colors rle rle2 num) {a b : Nat} (ha : a < num) (hb : b < num)
    (hen : enabled colors (rle a).color) :
    (rle2 a).parent = (rle2 b).parent ↔ Connected rle num a b := by
  constructor
  · intro h
    have c1 := lab.conn a ha
    have c2 := lab.conn b hb
    rw [← h] at c2
    exact c1.trans c2.swap
  · intro h
    induction h with
    | refl => rfl
    | @tail c d hac hcd ih =>
      have hcol : (rle a).color = (rle c).color := Connected.color_eq hac
      have hc : c < num := hcd.1
      have hd : d < num := hcd.2.1
      rw [ih hc]
      rcases hcd.2.2.2.1 with hy | hy
      · exact lab.complete c d hc hd (hcol ▸ hen) hcd.2.2.1 hy hcd.2.2.2.2
      · exact (lab.complete d c hd hc (hcd.2.2.1 ▸ hcol ▸ hen) hcd.2.2.1.symm hy
          ⟨hcd.2.2.2.2.2, hcd.2.2.2.2.1⟩).symm

theorem eq_some_getD {α : Type} {o : Option α} (h : o.isSome = true) (d : α) :
    o = some (o.getD d) := by
  cases o with
  | none => cases h
  | some a => rfl

/-- The run list written by `SegEncodeRuns` on an image of valid classes has
the shape the labelling relies on, also when the `MAX_RUNS` exit is taken. -/
theorem SegEncodeRuns_rowStruct (colors : Nat → color_class_state) (img : Nat → Nat)
    (w h fuel : Nat) (rle0 : Nat → run) (hval : ∀ p, p < w * h → img p < COLOR_COUNT)
    (hf : w < fuel) (map' : Nat → Nat) (rle : Nat → run) (num : Nat)
    (henc : SegEncodeRuns colors w h fuel img rle0 = some (map', rle, num)) :
    RowStruct rle num w ∧ (∀ i, i < num → (rle i).y < h) ∧
      (∀ i, i < num → ∀ t, t < (rle i).width →
        img ((rle i).y * w + (rle i).x + t) = (rle i).color) ∧
      (num < MAX_RUNS → 0 < w → 0 < h →
        0 < num ∧ (rle (num - 1)).y + 1 = h) := by
  have hval' : ∀ p, p < w * h → img p < 255 := by
    intro p hp
    have := hval p hp
    have hc : COLOR_COUNT = 10 := rfl
    omega
  obtain ⟨map1, rle1, num1, yf, xf, e, _, inv, hyf, hend⟩ :=
    SegEncodeRuns_spec colors img w h fuel rle0 hval' hf
  rw [henc] at e
  cases e
  refine ⟨inv.rowStruct, fun i hi => ?_, inv.mono, fun hnum hw hh => ?_⟩
  · obtain ⟨a1, a2, _, _, _, a6⟩ := inv.runs i hi
    rcases hend with ⟨h1, h2⟩ | ⟨h1, _, _⟩
    · by_cases hlt : (rle i).y < h
      · exact hlt
      · have := a6 (by omega)
        omega
    · omega
  · rcases hend with ⟨h1, h2⟩ | ⟨_, _, h3⟩
    · subst h1; subst h2
      obtain ⟨b1, b2, _⟩ := inv.last_run hw hh
      exact ⟨b1, b2⟩
    · omega

/-- C1: on a segmented image with at least two rows (and at least one
column) whose pixels are classes in `[0, COLOR_COUNT)` and whose encoding
does not overflow `MAX_RUNS`, `SegConnectComponents` returns, and two retained
runs of enabled classes have the same parent afterwards if and only if they
are linked by a chain of same-class runs on vertically adjacent rows with
overlapping horizontal spans. -/
theorem SegConnectComponents_connectivity (colors : Nat → color_class_state)
    (img : Nat → Nat) (w h fuel : Nat) (rle0 : Nat → run)
    (hval : ∀ p, p < w * h → img p < COLOR_COUNT) (hh : 2 ≤ h) (hw : 0 < w)
    (map' : Nat → Nat) (rle : Nat → run) (num : Nat)
    (henc : SegEncodeRuns colors w h fuel img rle0 = some (map', rle, num))
    (hno : num < MAX_RUNS) (hf : w < fuel) (hf2 : 2 * num ≤ fuel) :
    ∃ rle2, SegConnectComponents colors fuel rle num = some rle2 ∧
      ∀ a b, a < num → b < num → enabled colors (rle a).color →
        enabled colors (rle b).color →
        ((rle2 a).parent = (rle2 b).parent ↔ Connected rle num a b) := by
  obtain ⟨rs, _, _, hlast⟩ :=
    SegEncodeRuns_rowStruct colors img w h fuel rle0 hval hf map' rle num henc
  obtain ⟨hn0, hy⟩ := hlast hno hw (by omega)
  have ht1 : 1 ≤ num - 1 := by
    by_cases h0 : num - 1 = 0
    · rw [h0, rs.first hn0] at hy
      omega
    · omega
  obtain ⟨rle2, e⟩ := @SegConnectComponents_total colors rle num w rs fuel (num - 1) ht1
    (by omega) (by omega) hf2
  refine ⟨rle2, e, fun a b ha hb hena _ => ?_⟩
  exact (SegConnectComponents_labelled rs fuel rle2 e).parent_eq_iff ha hb hena

/-- C1 applied to the 3×3 cross of class 1, whose five runs start at index 0. -/
theorem SegConnectComponents_connectivity_witness :
    ((∀ p, p < 3 * 3 → crossImage p < COLOR_COUNT) ∧ 2 ≤ 3 ∧ 0 < 3 ∧
      SegEncodeRuns crossColors 3 3 10 crossImage (fun _ => blankRun)
        = some (crossRuns.1, crossRuns.2.1, crossRuns.2.2) ∧
      crossRuns.2.2 < MAX_RUNS ∧ 3 < 10 ∧ 2 * crossRuns.2.2 ≤ 10) ∧
    ∃ rle2, SegConnectComponents crossColors 10 crossRuns.2.1 crossRuns.2.2 = some rle2 ∧
      ∀ a b, a < crossRuns.2.2 → b < crossRuns.2.2 →
        enabled crossColors (crossRuns.2.1 a).color →
        enabled crossColors (crossRuns.2.1 b).color →
        ((rle2 a).parent = (rle2 b).parent ↔ Connected crossRuns.2.1 crossRuns.2.2 a b) :=
  ⟨⟨by decide, by decide, by decide, eq_some_getD (by decide) (crossImage, fun _ => blankRun, 0), by decide, by decide,
      by decide⟩,
    SegConnectComponents_connectivity crossColors crossImage 3 3 10 (fun _ => blankRun)
      (by decide) (by decide) (by decide) crossRuns.1 crossRuns.2.1 crossRuns.2.2
      (eq_some_getD (by decide) (crossImage, fun _ => blankRun, 0)) (by decide) (by decide) (by decide)⟩

/-! ## SegExtractRegions -/

theorem mem_members {colors : Nat → color_class_state} {rmap0 : Nat → run} {s i u : Nat} :
    u ∈ members colors rmap0 s i ↔
      u < i ∧ enabled colors (rmap0 u).color ∧ (rmap0 u).parent = s := by
  unfold members
  rw [List.mem_filter, List.mem_range]
  simp only [decide_eq_true_eq]

theorem members_succ (colors : Nat → color_class_state) (rmap0 : Nat → run) (s i : Nat) :
    members colors rmap0 s (i + 1) = members colors rmap0 s i ++
      (if enabled colors (rmap0 i).color ∧ (rmap0 i).parent = s then [i] else []) := by
  unfold members
  rw [List.range_succ, List.filter_append]
  congr 1
  by_cases h : enabled colors (rmap0 i).color ∧ (rmap0 i).parent = s
  · rw [if_pos h, List.filter_cons, if_pos (by simpa using h)]
    rfl
  · rw [if_neg h, List.filter_cons, if_neg (by simpa using h)]
    rfl

theorem members_sorted (colors : Nat → color_class_state) (rmap0 : Nat → run) (s i : Nat) :
    (members colors rmap0 s i).Pairwise (fun a b => a < b) := by
  unfold members
  exact List.Pairwise.sublist (List.filter_sublist _) (List.pairwise_lt_range i)

theorem members_nodup (colors : Nat → color_class_state) (rmap0 : Nat → run) (s i : Nat) :
    (members colors rmap0 s i).Nodup :=
  (members_sorted colors rmap0 s i).imp (fun h => Nat.ne_of_lt h)

theorem Linked_congr {next next' : Nat → Nat} :
    ∀ (L : List Nat), (∀ a, a ∈ L → next' a = next a) → Linked next L → Linked next' L := by
  intro L
  induction L with
  | nil => intro _ _; trivial
  | cons a t ih =>
    intro heq h
    cases t with
    | nil => trivial
    | cons b t =>
      refine ⟨?_, ih (fun c hc => heq c (List.mem_cons_of_mem _ hc)) h.2⟩
      rw [heq a (List.mem_cons_self _ _)]
      exact h.1

theorem Linked_append {next next' : Nat → Nat} (l i : Nat) (hl : next' l = i) :
    ∀ (L : List Nat), L.Nodup → L.getLast? = some l →
      (∀ a, a ∈ L → a ≠ l → next' a = next a) → Linked next L → Linked next' (L ++ [i]) := by
  intro L
  induction L with
  | nil => intro _ h; cases h
  | cons a t ih =>
    intro hnd hlast heq h
    cases t with
    | nil =>
      have : a = l := by simpa using hlast
      rw [this]
      exact ⟨hl, trivial⟩
    | cons b t =>
      have hlast' : (b :: t).getLast? = some l := by
        rw [List.getLast?_cons_cons] at hlast; exact hlast
      have hmem : l ∈ b :: t := List.mem_of_getLast?_eq_some hlast'
      have hne : a ≠ l := fun e => (List.nodup_cons.1 hnd).1 (e ▸ hmem)
      refine ⟨?_, ih (List.nodup_cons.1 hnd).2 hlast'
        (fun c hc hcl => heq c (List.mem_cons_of_mem _ hc) hcl) h.2⟩
      rw [heq a (List.mem_cons_self _ _) hne]
      exact h.1

/-- A region none of whose member runs is touched by a step stays as it is. -/
theorem RegionOK.mono {colors : Nat → color_class_state} {rmap0 rmap rmap' : Nat → run}
    {i : Nat} {r : region} (ok : RegionOK colors rmap0 rmap i r)
    (hm : members colors rmap0 r.run_start (i + 1) = members colors rmap0 r.run_start i)
    (hn : ∀ u, u ∈ members colors rmap0 r.run_start i → (rmap' u).next = (rmap u).next) :
    RegionOK colors rmap0 rmap' (i + 1) r := by
  have hit : r.iterator_id ∈ members colors rmap0 r.run_start i :=
    List.mem_of_getLast?_eq_some ok.last
  constructor
  · have := ok.start_lt; omega
  · exact ok.start_en
  · exact ok.start_root
  · exact ok.color
  · rw [hm]; exact ok.area
  · rw [hm]; exact ok.x1_le
  · rw [hm]; exact ok.x1_mem
  · rw [hm]; exact ok.x2_ge
  · rw [hm]; exact ok.x2_mem
  · exact ok.y1
  · exact ok.y2
  · rw [hm]; exact ok.cen_x
  · rw [hm]; exact ok.cen_y
  · rw [hm]; exact ok.last
  · rw [hm]; exact Linked_congr _ hn ok.linked
  · rw [hn _ hit]; exact ok.last_next

theorem dropLinks_setParent (m : Nat → run) (i p k : Nat) :
    dropLinks (setParent m i p k) = dropLinks (m k) := by
  unfold setParent
  by_cases hk : k = i
  · subst hk; rw [upd_same]; rfl
  · rw [upd_other _ _ _ _ hk]

theorem dropLinks_setNext (m : Nat → run) (i p k : Nat) :
    dropLinks (setNext m i p k) = dropLinks (m k) := by
  unfold setNext
  by_cases hk : k = i
  · subst hk; rw [upd_same]; rfl
  · rw [upd_other _ _ _ _ hk]

theorem next_setParent (m : Nat → run) (i p k : Nat) :
    (setParent m i p k).next = (m k).next := by
  unfold setParent
  by_cases hk : k = i
  · subst hk; rw [upd_same]
  · rw [upd_other _ _ _ _ hk]

theorem parent_setNext (m : Nat → run) (i p k : Nat) :
    (setNext m i p k).parent = (m k).parent := by
  unfold setNext
  by_cases hk : k = i
  · subst hk; rw [upd_same]
  · rw [upd_other _ _ _ _ hk]

theorem parent_setParent_other (m : Nat → run) (i p k : Nat) (h : k ≠ i) :
    (setParent m i p k).parent = (m k).parent := by
  unfold setParent
  rw [upd_other _ _ _ _ h]

theorem parent_setParent_same (m : Nat → run) (i p : Nat) :
    (setParent m i p i).parent = p := by
  unfold setParent
  rw [upd_same]

theorem next_setNext_other (m : Nat → run) (i p k : Nat) (h : k ≠ i) :
    (setNext m i p k).next = (m k).next := by
  unfold setNext
  rw [upd_other _ _ _ _ h]

theorem next_setNext_same (m : Nat → run) (i p : Nat) :
    (setNext m i p i).next = p := by
  unfold setNext
  rw [upd_same]

theorem members_self_empty {colors : Nat → color_class_state} {rmap0 : Nat → run} {num : Nat}
    (pre : ExtractPre rmap0 num) {i : Nat} (hi : i ≤ num) :
    members colors rmap0 i i = [] := by
  rw [List.eq_nil_iff_forall_not_mem]
  intro u hu
  rw [mem_members] at hu
  have := pre.le u (by omega)
  omega

/-- Two allocated regions with the same first run are the same region. -/
theorem ExtInv.start_inj {colors : Nat → color_class_state} {rmap0 rmap : Nat → run}
    {reg : Nat → region} {i n : Nat} (inv : ExtInv colors rmap0 i rmap reg n) {b b' : Nat}
    (hb : b < n) (hb' : b' < n) (h : (reg b).run_start = (reg b').run_start) : b = b' := by
  have h1 := (inv.regions b hb).2
  have h2 := (inv.regions b' hb').2
  rw [h] at h1
  omega

/-- The loop step on a run of a disabled class. -/
theorem ExtInv.skipRun {colors : Nat → color_class_state} {rmap0 rmap : Nat → run}
    {reg : Nat → region} {i n : Nat} (inv : ExtInv colors rmap0 i rmap reg n)
    (hdis : ¬ enabled colors (rmap0 i).color) :
    ExtInv colors rmap0 (i + 1) rmap reg n := by
  constructor
  · intro u hu; exact inv.unproc u (by omega)
  · exact inv.geom
  · intro u hu hen
    have : u ≠ i := fun e => hdis (e ▸ hen)
    exact inv.assigned u (by omega) hen
  · intro b hb
    obtain ⟨ok, hp⟩ := inv.regions b hb
    refine ⟨ok.mono ?_ (fun _ _ => rfl), hp⟩
    rw [members_succ, if_neg (fun h => hdis h.1), List.append_nil]
  · exact inv.bound

/-- The loop step on a self-parented run of an enabled class: a new region. -/
theorem ExtInv.newRegion {colors : Nat → color_class_state} {rmap0 rmap : Nat → run}
    {reg : Nat → region} {i n num : Nat} (pre : ExtractPre rmap0 num)
    (inv : ExtInv colors rmap0 i rmap reg n) (hi : i < num)
    (hen : enabled colors (rmap0 i).color) (hroot : (rmap0 i).parent = i)
    (hn : n + 1 < MAX_REG) :
    ExtInv colors rmap0 (i + 1) (setParent rmap i n)
      (upd reg n { reg n with
        color := (rmap i).color
        area := (rmap i).width
        x1 := (rmap i).x
        y1 := (rmap i).y
        x2 := (rmap i).x + (rmap i).width
        y2 := (rmap i).y
        cen_x := (range_sum (rmap i).x (rmap i).width : ℚ)
        cen_y := (((rmap i).y * (rmap i).width : Nat) : ℚ)
        run_start := i
        iterator_id := i }) (n + 1) := by
  have hri : rmap i = rmap0 i := inv.unproc i (Nat.le_refl _)
  rw [hri]
  have hmem : members colors rmap0 i (i + 1) = [i] := by
    rw [members_succ, members_self_empty pre (Nat.le_of_lt hi), if_pos ⟨hen, hroot⟩]
    rfl
  constructor
  · intro u hu
    unfold setParent
    rw [upd_other _ _ _ _ (by omega)]
    exact inv.unproc u (by omega)
  · intro u; exact (dropLinks_setParent _ _ _ _).trans (inv.geom u)
  · intro u hu henu
    by_cases hui : u = i
    · subst hui
      rw [parent_setParent_same, upd_same]
      exact ⟨by omega, hroot.symm⟩
    · obtain ⟨a1, a2⟩ := inv.assigned u (by omega) henu
      rw [parent_setParent_other _ _ _ _ hui, upd_other _ _ _ _ (by omega)]
      exact ⟨by omega, a2⟩
  · intro b hb
    by_cases hbn : b = n
    · subst hbn
      rw [upd_same]
      refine ⟨?_, parent_setParent_same _ _ _⟩
      constructor
      · show i < i + 1; omega
      · exact hen
      · exact hroot
      · rfl
      · show (rmap0 i).width = _
        rw [hmem]; simp
      · intro u hu
        rw [hmem] at hu
        have : u = i := by simpa using hu
        rw [this]
      · exact ⟨i, by rw [hmem]; simp, rfl⟩
      · intro u hu
        rw [hmem] at hu
        have : u = i := by simpa using hu
        rw [this]
      · exact ⟨i, by rw [hmem]; simp, rfl⟩
      · rfl
      · rfl
      · show (range_sum (rmap0 i).x (rmap0 i).width : ℚ) = _
        rw [hmem]; simp
      · show (((rmap0 i).y * (rmap0 i).width : Nat) : ℚ) = _
        rw [hmem]; simp
      · rw [hmem]; rfl
      · rw [hmem]; trivial
      · show (setParent rmap i b i).next = 0
        rw [next_setParent, hri]
        exact pre.nextz i hi
    · obtain ⟨ok, hp⟩ := inv.regions b (by omega)
      rw [upd_other _ _ _ _ hbn]
      have hs := ok.start_lt
      refine ⟨ok.mono ?_ (fun u _ => next_setParent _ _ _ _), ?_⟩
      · rw [members_succ, if_neg (fun h => by omega), List.append_nil]
      · rw [parent_setParent_other _ _ _ _ (by omega)]
        exact hp
  · exact hn

/-- The loop step on a run of an enabled class whose parent is an earlier
run: the run joins the region of its parent. -/
theorem ExtInv.addRun {colors : Nat → color_class_state} {rmap0 rmap : Nat → run}
    {reg : Nat → region} {i n num : Nat} (pre : ExtractPre rmap0 num)
    (inv : ExtInv colors rmap0 i rmap reg n) (hi : i < num)
    (hen : enabled colors (rmap0 i).color) (hroot : (rmap0 i).parent ≠ i) :
    ExtInv colors rmap0 (i + 1)
      (setNext (setParent rmap i (rmap (rmap i).parent).parent)
        (reg (rmap (rmap i).parent).parent).iterator_id i)
      (upd (upd reg (rmap (rmap i).parent).parent
          { reg (rmap (rmap i).parent).parent with
            area := (reg (rmap (rmap i).parent).parent).area + (rmap i).width
            x2 := max ((rmap i).x + (rmap i).width) (reg (rmap (rmap i).parent).parent).x2
            x1 := min (rmap i).x (reg (rmap (rmap i).parent).parent).x1
            y2 := (rmap i).y
            cen_x := (reg (rmap (rmap i).parent).parent).cen_x +
              (range_sum (rmap i).x (rmap i).width : ℚ)
            cen_y := (reg (rmap (rmap i).parent).parent).cen_y +
              (((rmap i).y * (rmap i).width : Nat) : ℚ) })
        (rmap (rmap i).parent).parent
        { (upd reg (rmap (rmap i).parent).parent
          { reg (rmap (rmap i).parent).parent with
            area := (reg (rmap (rmap i).parent).parent).area + (rmap i).width
            x2 := max ((rmap i).x + (rmap i).width) (reg (rmap (rmap i).parent).parent).x2
            x1 := min (rmap i).x (reg (rmap (rmap i).parent).parent).x1
            y2 := (rmap i).y
            cen_x := (reg (rmap (rmap i).parent).parent).cen_x +
              (range_sum (rmap i).x (rmap i).width : ℚ)
            cen_y := (reg (rmap (rmap i).parent).parent).cen_y +
              (((rmap i).y * (rmap i).width : Nat) : ℚ) })
          (rmap (rmap i).parent).parent with iterator_id := i }) n := by
  have hri : rmap i = rmap0 i := inv.unproc i (Nat.le_refl _)
  rw [hri]
  have hple : (rmap0 i).parent ≤ i := pre.le i hi
  have hplt : (rmap0 i).parent < i := by omega
  have hpen : enabled colors (rmap0 (rmap0 i).parent).color := by
    rw [pre.color i hi]; exact hen
  have hpidem := pre.idem i hi
  obtain ⟨hbn, hbs⟩ := inv.assigned _ hplt hpen
  rw [hpidem] at hbs
  generalize hb : (rmap (rmap0 i).parent).parent = b at hbn hbs ⊢
  generalize hp : (rmap0 i).parent = p at hple hplt hpen hpidem hbs hb hroot
  obtain ⟨okb, hpb⟩ := inv.regions b hbn
  rw [upd_same]
  have hit : (reg b).iterator_id ∈ members colors rmap0 p i := by
    have := List.mem_of_getLast?_eq_some okb.last
    rw [hbs] at this; exact this
  have hitlt : (reg b).iterator_id < i := (mem_members.1 hit).1
  have hmem : members colors rmap0 p (i + 1) = members colors rmap0 p i ++ [i] := by
    rw [members_succ, if_pos ⟨hen, hp⟩]
  constructor
  · intro u hu
    rw [show setNext (setParent rmap i b) (reg b).iterator_id i u = setParent rmap i b u from by
      unfold setNext; rw [upd_other _ _ _ _ (by omega)]]
    unfold setParent
    rw [upd_other _ _ _ _ (by omega)]
    exact inv.unproc u (by omega)
  · intro u
    exact (dropLinks_setNext _ _ _ _).trans ((dropLinks_setParent _ _ _ _).trans (inv.geom u))
  · intro u hu henu
    rw [parent_setNext]
    by_cases hui : u = i
    · subst hui
      rw [parent_setParent_same, upd_same]
      exact ⟨hbn, by rw [hp]; exact hbs⟩
    · obtain ⟨a1, a2⟩ := inv.assigned u (by omega) henu
      rw [parent_setParent_other _ _ _ _ hui]
      refine ⟨a1, ?_⟩
      by_cases hc : (rmap u).parent = b
      · rw [hc, upd_same]; rw [hc] at a2; exact a2
      · rw [upd_other _ _ _ _ hc, upd_other _ _ _ _ hc]; exact a2
  · intro b' hb'
    by_cases hbb : b' = b
    · subst hbb
      rw [upd_same]
      refine ⟨?_, ?_⟩
      · constructor
        · show (reg b').run_start < i + 1
          have := okb.start_lt; omega
        · exact okb.start_en
        · exact okb.start_root
        · exact okb.color
        · show (reg b').area + (rmap0 i).width = _
          show _ = ((members colors rmap0 (reg b').run_start (i + 1)).map _).sum
          rw [hbs, hmem, okb.area, hbs]; simp
        · intro u hu
          show min (rmap0 i).x (reg b').x1 ≤ _
          have hu' : u ∈ members colors rmap0 p (i + 1) := by rw [← hbs]; exact hu
          rw [hmem, List.mem_append] at hu'
          rcases hu' with h | h
          · have := okb.x1_le u (by rw [hbs]; exact h)
            omega
          · have : u = i := by simpa using h
            rw [this]; omega
        · show ∃ u, u ∈ members colors rmap0 (reg b').run_start (i + 1) ∧
            (rmap0 u).x = min (rmap0 i).x (reg b').x1
          rw [hbs, hmem]
          obtain ⟨v, hv, hvx⟩ := okb.x1_mem
          rw [hbs] at hv
          by_cases hlt : (rmap0 i).x ≤ (reg b').x1
          · exact ⟨i, by simp, by omega⟩
          · exact ⟨v, List.mem_append_left _ hv, by omega⟩
        · intro u hu
          show _ ≤ max ((rmap0 i).x + (rmap0 i).width) (reg b').x2
          have hu' : u ∈ members colors rmap0 p (i + 1) := by rw [← hbs]; exact hu
          rw [hmem, List.mem_append] at hu'
          rcases hu' with h | h
          · have := okb.x2_ge u (by rw [hbs]; exact h)
            omega
          · have : u = i := by simpa using h
            rw [this]; omega
        · show ∃ u, u ∈ members colors rmap0 (reg b').run_start (i + 1) ∧
            (rmap0 u).x + (rmap0 u).width = max ((rmap0 i).x + (rmap0 i).width) (reg b').x2
          rw [hbs, hmem]
          obtain ⟨v, hv, hvx⟩ := okb.x2_mem
          rw [hbs] at hv
          by_cases hlt : (reg b').x2 ≤ (rmap0 i).x + (rmap0 i).width
          · exact ⟨i, by simp, by omega⟩
          · exact ⟨v, List.mem_append_left _ hv, by omega⟩
        · exact okb.y1
        · rfl
        · show (reg b').cen_x + (range_sum (rmap0 i).x (rmap0 i).width : ℚ) =
            ((members colors rmap0 (reg b').run_start (i + 1)).map _).sum
          rw [hbs, hmem, okb.cen_x, hbs]; simp
        · show (reg b').cen_y + (((rmap0 i).y * (rmap0 i).width : Nat) : ℚ) =
            ((members colors rmap0 (reg b').run_start (i + 1)).map _).sum
          rw [hbs, hmem, okb.cen_y, hbs]; simp
        · show (members colors rmap0 (reg b').run_start (i + 1)).getLast? = some i
          rw [hbs, hmem]; simp
        · show Linked _ (members colors rmap0 (reg b').run_start (i + 1))
          rw [hbs, hmem]
          have hl := okb.linked
          have hlast := okb.last
          rw [hbs] at hl hlast
          refine Linked_append (reg b').iterator_id i ?_ _ (members_nodup _ _ _ _) hlast ?_ hl
          · exact next_setNext_same _ _ _
          · intro a _ hne
            show (setNext (setParent rmap i b') (reg b').iterator_id i a).next = (rmap a).next
            rw [next_setNext_other _ _ _ _ hne, next_setParent]
        · show (setNext (setParent rmap i b') (reg b').iterator_id i i).next = 0
          rw [next_setNext_other _ _ _ _ (by omega), next_setParent, hri]
          exact pre.nextz i hi
      · show (setNext (setParent rmap i b') (reg b').iterator_id i (reg b').run_start).parent = b'
        rw [parent_setNext, parent_setParent_other _ _ _ _ (by rw [hbs]; omega)]
        exact hpb
    · obtain ⟨ok, hpar⟩ := inv.regions b' hb'
      rw [upd_other _ _ _ _ hbb, upd_other _ _ _ _ hbb]
      have hs := ok.start_lt
      have hsne : (reg b').run_start ≠ p := by
        intro e
        apply hbb
        exact inv.start_inj hb' hbn (e.trans hbs.symm)
      refine ⟨ok.mono ?_ ?_, ?_⟩
      · rw [members_succ, if_neg (fun h => hsne (h.2.symm.trans hp)), List.append_nil]
      · intro u hu
        have hup := (mem_members.1 hu).2.2
        have hitp := (mem_members.1 hit).2.2
        have hne : u ≠ (reg b).iterator_id := by
          intro e; rw [e, hitp] at hup; exact hsne hup.symm
        rw [next_setNext_other _ _ _ _ hne, next_setParent]
      · rw [parent_setNext, parent_setParent_other _ _ _ _ (by omega)]
        exact hpar
  · exact inv.bound

/-- The first loop of `SegExtractRegions` keeps the invariant until the last
run when the `MAX_REG` exit is not taken. -/
theorem extractLoop_spec (colors : Nat → color_class_state) {rmap0 : Nat → run} {num : Nat}
    (pre : ExtractPre rmap0 num) :
    ∀ (k i : Nat) (rmap : Nat → run) (reg : Nat → region) (n : Nat), i + k = num →
      ExtInv colors rmap0 i rmap reg n →
      (extractLoop colors k i rmap reg n).2.2.2 = false →
      ExtInv colors rmap0 num (extractLoop colors k i rmap reg n).1
        (extractLoop colors k i rmap reg n).2.1 (extractLoop colors k i rmap reg n).2.2.1 := by
  intro k
  induction k with
  | zero =>
    intro i rmap reg n hik inv _
    have : i = num := by omega
    subst this
    exact inv
  | succ k ih =>
    intro i rmap reg n hik inv hflag
    have hri : rmap i = rmap0 i := inv.unproc i (Nat.le_refl _)
    rw [extractLoop] at hflag ⊢
    by_cases hen : enabled colors (rmap i).color
    · rw [if_pos hen] at hflag ⊢
      simp only [] at hflag ⊢
      by_cases hroot : (rmap i).parent = i
      · rw [if_pos hroot] at hflag ⊢
        by_cases hov : n + 1 ≥ MAX_REG
        · rw [if_pos hov] at hflag
          cases hflag
        · rw [if_neg hov] at hflag ⊢
          exact ih (i + 1) _ _ _ (by omega)
            (ExtInv.newRegion pre inv (by omega) (hri ▸ hen) (hri ▸ hroot) (by omega)) hflag
      · rw [if_neg hroot] at hflag ⊢
        exact ih (i + 1) _ _ _ (by omega)
          (ExtInv.addRun pre inv (by omega) (hri ▸ hen) (hri ▸ hroot)) hflag
    · rw [if_neg hen] at hflag ⊢
      exact ih (i + 1) _ _ _ (by omega) (inv.skipRun (hri ▸ hen)) hflag

/-- When the first loop takes the `MAX_REG` exit it reports `MAX_REG` regions. -/
theorem extractLoop_flag (colors : Nat → color_class_state) :
    ∀ (k i : Nat) (rmap : Nat → run) (reg : Nat → region) (n : Nat),
      (extractLoop colors k i rmap reg n).2.2.2 = true →
      (extractLoop colors k i rmap reg n).2.2.1 = MAX_REG := by
  intro k
  induction k with
  | zero => intro i rmap reg n h; cases h
  | succ k ih =>
    intro i rmap reg n hflag
    rw [extractLoop] at hflag ⊢
    by_cases hen : enabled colors (rmap i).color
    · rw [if_pos hen] at hflag ⊢
      simp only [] at hflag ⊢
      by_cases hroot : (rmap i).parent = i
      · rw [if_pos hroot] at hflag ⊢
        by_cases hov : n + 1 ≥ MAX_REG
        · rw [if_pos hov]
        · rw [if_neg hov] at hflag ⊢
          exact ih _ _ _ _ hflag
      · rw [if_neg hroot] at hflag ⊢
        exact ih _ _ _ _ hflag
    · rw [if_neg hen] at hflag ⊢
      exact ih _ _ _ _ hflag

/-- The finalized form of a region: centroid sums divided by the area,
`iterator_id` cleared, `x2` made inclusive. -/
theorem finalizeLoop_spec :
    ∀ (k i : Nat) (rmap : Nat → run) (reg : Nat → region),
      (∀ b, i ≤ b → b < i + k → (rmap (reg b).iterator_id).next = 0) →
      (finalizeLoop k i rmap reg).1 = rmap ∧
      ∀ b, (finalizeLoop k i rmap reg).2 b =
        if i ≤ b ∧ b < i + k then
          { reg b with
            cen_x := (reg b).cen_x / ((reg b).area : ℚ)
            cen_y := (reg b).cen_y / ((reg b).area : ℚ)
            iterator_id := 0
            x2 := (reg b).x2 - 1 }
        else reg b := by
  intro k
  induction k with
  | zero =>
    intro i rmap reg _
    refine ⟨rfl, fun b => ?_⟩
    rw [if_neg (by omega)]
    rfl
  | succ k ih =>
    intro i rmap reg hz
    rw [finalizeLoop]
    simp only []
    have hsame : setNext rmap (reg i).iterator_id 0 = rmap := by
      funext u
      unfold setNext
      by_cases hu : u = (reg i).iterator_id
      · subst hu
        rw [upd_same]
        have := hz i (Nat.le_refl _) (by omega)
        cases hr : rmap (reg i).iterator_id
        rw [hr] at this
        simp only at this
        subst this
        rfl
      · rw [upd_other _ _ _ _ hu]
    rw [hsame]
    generalize hR : upd reg i { reg i with
      cen_x := (reg i).cen_x / ((reg i).area : ℚ)
      cen_y := (reg i).cen_y / ((reg i).area : ℚ)
      iterator_id := 0
      x2 := (reg i).x2 - 1 } = reg'
    have hother : ∀ b, b ≠ i → reg' b = reg b := by
      intro b hb; rw [← hR, upd_other _ _ _ _ hb]
    have hself : reg' i = { reg i with
      cen_x := (reg i).cen_x / ((reg i).area : ℚ)
      cen_y := (reg i).cen_y / ((reg i).area : ℚ)
      iterator_id := 0
      x2 := (reg i).x2 - 1 } := by
      rw [← hR, upd_same]
    obtain ⟨h1, h2⟩ := ih (i + 1) rmap reg' (by
      intro b hb1 hb2
      rw [hother b (by omega)]
      exact hz b (by omega) (by omega))
    refine ⟨h1, fun b => ?_⟩
    rw [h2 b]
    by_cases hb : b = i
    · subst hb
      rw [if_neg (by omega), if_pos (by omega)]
      exact hself
    · rw [hother b hb]
      by_cases hin : i + 1 ≤ b ∧ b < i + 1 + k
      · rw [if_pos hin, if_pos (by omega)]
      · rw [if_neg hin, if_neg (by omega)]

theorem x_of_dropLinks {r r' : run} (h : dropLinks r' = dropLinks r) : r'.x = r.x :=
  show (dropLinks r').x = (dropLinks r).x from congrArg run.x h

theorem y_of_dropLinks {r r' : run} (h : dropLinks r' = dropLinks r) : r'.y = r.y :=
  show (dropLinks r').y = (dropLinks r).y from congrArg run.y h

theorem width_of_dropLinks {r r' : run} (h : dropLinks r' = dropLinks r) :
    r'.width = r.width :=
  show (dropLinks r').width = (dropLinks r).width from congrArg run.width h

theorem color_of_dropLinks {r r' : run} (h : dropLinks r' = dropLinks r) :
    r'.color = r.color :=
  show (dropLinks r').color = (dropLinks r).color from congrArg run.color h

theorem sorted_head {s : Nat} :
    ∀ (L : List Nat), L.Pairwise (fun a b => a < b) → s ∈ L → (∀ u, u ∈ L → s ≤ u) →
      ∃ t, L = s :: t := by
  intro L hs hmem hle
  cases L with
  | nil => cases hmem
  | cons a t =>
    rcases List.mem_cons.1 hmem with h | h
    · exact ⟨t, by rw [h]⟩
    · have h1 := (List.pairwise_cons.1 hs).1 s h
      have h2 := hle a (List.mem_cons_self _ _)
      omega

theorem sorted_le_last {l : Nat} :
    ∀ (L : List Nat), L.Pairwise (fun a b => a < b) → L.getLast? = some l →
      ∀ u, u ∈ L → u ≤ l := by
  intro L
  induction L with
  | nil => intro _ h; cases h
  | cons a t ih =>
    intro hs hlast u hu
    cases t with
    | nil =>
      have e : a = l := by simpa using hlast
      have : u = a := by simpa using hu
      omega
    | cons b t =>
      have hlast' : (b :: t).getLast? = some l := by
        rw [List.getLast?_cons_cons] at hlast; exact hlast
      rcases List.mem_cons.1 hu with h | h
      · have hl : l ∈ b :: t := List.mem_of_getLast?_eq_some hlast'
        have := (List.pairwise_cons.1 hs).1 l hl
        omega
      · exact ih (List.pairwise_cons.1 hs).2 hlast' u h

/-- Following the `next` links from the head of a linked list of nonzero
indices whose last element has `next = 0` visits exactly the list. -/
theorem threadedRuns_of_linked (rmap : Nat → run) {l : Nat} (hl : (rmap l).next = 0) :
    ∀ (t : List Nat) (a fuel : Nat), Linked (fun u => (rmap u).next) (a :: t) →
      (∀ c, c ∈ t → c ≠ 0) → (a :: t).getLast? = some l → t.length < fuel →
      threadedRuns rmap fuel a = a :: t := by
  intro t
  induction t with
  | nil =>
    intro a fuel _ _ hlast hf
    have e : a = l := by simpa using hlast
    cases fuel with
    | zero => omega
    | succ f =>
      rw [threadedRuns, if_pos (by rw [e]; exact hl)]
  | cons b t ih =>
    intro a fuel hlk hnz hlast hf
    cases fuel with
    | zero => omega
    | succ f =>
      have hab : (rmap a).next = b := hlk.1
      have hb0 : b ≠ 0 := hnz b (List.mem_cons_self _ _)
      rw [threadedRuns, if_neg (by rw [hab]; exact hb0), hab]
      rw [ih b f hlk.2 (fun c hc => hnz c (List.mem_cons_of_mem _ hc))
        (by rw [List.getLast?_cons_cons] at hlast; exact hlast)
        (by simp only [List.length_cons] at hf; omega)]

/-- At the end of the first loop every allocated region, once finalized,
describes exactly the runs whose `parent` field holds its index. -/
theorem ExtInv.extracted {colors : Nat → color_class_state} {rmap0 rmap : Nat → run}
    {reg : Nat → region} {n num : Nat} (pre : ExtractPre rmap0 num)
    (inv : ExtInv colors rmap0 num rmap reg n) {b : Nat} (hb : b < n) :
    Extracted colors rmap num b
      { reg b with
        cen_x := (reg b).cen_x / ((reg b).area : ℚ)
        cen_y := (reg b).cen_y / ((reg b).area : ℚ)
        iterator_id := 0
        x2 := (reg b).x2 - 1 } := by
  obtain ⟨ok, hpar⟩ := inv.regions b hb
  have hx : ∀ u, (rmap u).x = (rmap0 u).x := fun u => x_of_dropLinks (inv.geom u)
  have hy : ∀ u, (rmap u).y = (rmap0 u).y := fun u => y_of_dropLinks (inv.geom u)
  have hw : ∀ u, (rmap u).width = (rmap0 u).width := fun u => width_of_dropLinks (inv.geom u)
  have hc : ∀ u, (rmap u).color = (rmap0 u).color := fun u => color_of_dropLinks (inv.geom u)
  have hR : regionRuns colors rmap num b = members colors rmap0 (reg b).run_start num := by
    unfold regionRuns members
    apply List.filter_congr
    intro u hu
    rw [List.mem_range] at hu
    rw [hc u]
    by_cases hen : enabled colors (rmap0 u).color
    · obtain ⟨a1, a2⟩ := inv.assigned u hu hen
      have : (rmap u).parent = b ↔ (rmap0 u).parent = (reg b).run_start := by
        constructor
        · intro e; rw [e] at a2; exact a2.symm
        · intro e
          exact inv.start_inj a1 hb (a2.trans e)
      simp only [hen, true_and, this]
    · simp only [hen, false_and]
  generalize hM : members colors rmap0 (reg b).run_start num = M at hR
  have hmemM : ∀ u, u ∈ M ↔ u < num ∧ enabled colors (rmap0 u).color ∧
      (rmap0 u).parent = (reg b).run_start := by
    intro u; rw [← hM]; exact mem_members
  have hsorted : M.Pairwise (fun a b => a < b) := by
    rw [← hM]; exact members_sorted _ _ _ _
  have hs : (reg b).run_start ∈ M :=
    (hmemM _).2 ⟨ok.start_lt, ok.start_en, ok.start_root⟩
  have hge : ∀ u, u ∈ M → (reg b).run_start ≤ u := by
    intro u hu
    obtain ⟨h1, _, h3⟩ := (hmemM u).1 hu
    have := pre.le u h1
    omega
  have hlast : M.getLast? = some (reg b).iterator_id := by rw [← hM]; exact ok.last
  have hit : (reg b).iterator_id ∈ M := List.mem_of_getLast?_eq_some hlast
  have hwidth : ∀ u, u ∈ M → 1 ≤ (rmap0 u).width := fun u hu =>
    pre.width u ((hmemM u).1 hu).1
  have hx2 : 1 ≤ (reg b).x2 := by
    obtain ⟨v, hv, e⟩ := ok.x2_mem
    rw [hM] at hv
    have := hwidth v hv
    omega
  have hfw : (fun u => (rmap u).width) = fun u => (rmap0 u).width := funext hw
  have hfx : (fun u => (range_sum (rmap u).x (rmap u).width : ℚ)) =
      fun u => (range_sum (rmap0 u).x (rmap0 u).width : ℚ) := by
    funext u; rw [hx, hw]
  have hfy : (fun u => (((rmap u).y * (rmap u).width : Nat) : ℚ)) =
      fun u => (((rmap0 u).y * (rmap0 u).width : Nat) : ℚ) := by
    funext u; rw [hy, hw]
  constructor
  · rw [hR]; exact hs
  · intro fuel hf
    rw [hR]
    obtain ⟨t, ht⟩ := sorted_head M hsorted hs hge
    have hlk : Linked (fun u => (rmap u).next) M := by rw [← hM]; exact ok.linked
    have hlen : M.length ≤ num := by
      rw [← hM]; unfold members
      exact (List.length_filter_le _ _).trans (by rw [List.length_range])
    rw [ht] at hlk hlast hlen hsorted ⊢
    show threadedRuns rmap fuel (reg b).run_start = (reg b).run_start :: t
    refine threadedRuns_of_linked rmap ok.last_next t _ fuel hlk ?_ hlast ?_
    · intro c hc
      have := (List.pairwise_cons.1 hsorted).1 c hc
      omega
    · simp only [List.length_cons] at hlen; omega
  · intro u hu; rw [hR] at hu; rw [hw]; exact hwidth u hu
  · intro u hu
    rw [hR] at hu
    show (rmap u).color = (reg b).color
    rw [hc, ok.color, ← pre.color u ((hmemM u).1 hu).1, ((hmemM u).1 hu).2.2]
  · show (reg b).area = _
    rw [hR, hfw, ok.area, hM]
  · intro u hu; rw [hR] at hu; rw [hx]; exact ok.x1_le u (by rw [hM]; exact hu)
  · obtain ⟨v, hv, e⟩ := ok.x1_mem
    exact ⟨v, by rw [hR, ← hM]; exact hv, by rw [hx]; exact e⟩
  · intro u hu
    rw [hR] at hu
    show _ ≤ (reg b).x2 - 1 + 1
    have := ok.x2_ge u (by rw [hM]; exact hu)
    rw [hx, hw]; omega
  · obtain ⟨v, hv, e⟩ := ok.x2_mem
    refine ⟨v, by rw [hR, ← hM]; exact hv, ?_⟩
    show _ = (reg b).x2 - 1 + 1
    rw [hx, hw]; omega
  · intro u hu
    rw [hR] at hu
    show (reg b).y1 ≤ _
    rw [hy, ok.y1]
    exact pre.ymono _ _ (hge u hu) ((hmemM u).1 hu).1
  · exact ⟨(reg b).run_start, by rw [hR]; exact hs, by rw [hy]; exact ok.y1.symm⟩
  · intro u hu
    rw [hR] at hu
    show _ ≤ (reg b).y2
    rw [hy, ok.y2]
    exact pre.ymono _ _ (sorted_le_last M hsorted hlast u hu) ((hmemM _).1 hit).1
  · exact ⟨(reg b).iterator_id, by rw [hR]; exact hit, by rw [hy]; exact ok.y2.symm⟩
  · show (reg b).cen_x / ((reg b).area : ℚ) = _ / ((reg b).area : ℚ)
    rw [hR, hfx, ok.cen_x, hM]
  · show (reg b).cen_y / ((reg b).area : ℚ) = _ / ((reg b).area : ℚ)
    rw [hR, hfy, ok.cen_y, hM]
  · rfl

/-- `SegExtractRegions` on a labelled run list, when the `MAX_REG` exit is not
taken: only the `parent` and `next` links of the runs change, and every
reported region describes exactly the runs whose `parent` holds its index. -/
theorem SegExtractRegions_extracted (colors : Nat → color_class_state) {rmap0 : Nat → run}
    {num : Nat} (pre : ExtractPre rmap0 num) (reg0 : Nat → region)
    (hno : (SegExtractRegions colors rmap0 reg0 num).2.2 < MAX_REG) :
    (∀ u, dropLinks ((SegExtractRegions colors rmap0 reg0 num).1 u) = dropLinks (rmap0 u)) ∧
    ∀ b, b < (SegExtractRegions colors rmap0 reg0 num).2.2 →
      Extracted colors (SegExtractRegions colors rmap0 reg0 num).1 num b
        ((SegExtractRegions colors rmap0 reg0 num).2.1 b) := by
  have inv0 : ExtInv colors rmap0 0 rmap0 reg0 0 :=
    ⟨fun _ _ => rfl, fun _ => rfl, fun u hu => absurd hu (Nat.not_lt_zero u),
      fun b hb => absurd hb (Nat.not_lt_zero b), by decide⟩
  have hspec := extractLoop_spec colors pre num 0 rmap0 reg0 0 (by omega) inv0
  have hflag := extractLoop_flag colors num 0 rmap0 reg0 0
  unfold SegExtractRegions at hno ⊢
  generalize extractLoop colors num 0 rmap0 reg0 0 = E at hspec hflag hno ⊢
  obtain ⟨rmap1, reg1, n, fl⟩ := E
  cases fl with
  | true =>
    have := hflag rfl
    simp only at this hno
    omega
  | false =>
    have inv : ExtInv colors rmap0 num rmap1 reg1 n := hspec rfl
    obtain ⟨f1, f2⟩ := finalizeLoop_spec n 0 rmap1 reg1
      (fun b _ hb => (inv.regions b (by omega)).1.last_next)
    simp only []
    rw [f1]
    refine ⟨inv.geom, fun b hb => ?_⟩
    rw [f2 b, if_pos ⟨Nat.zero_le _, by omega⟩]
    exact inv.extracted pre hb

/-- A run list written by `SegEncodeRuns` and labelled by
`SegConnectComponents` is a valid input of `SegExtractRegions`. -/
theorem ExtractPre_of_labelled {colors : Nat → color_class_state} {rle rle2 : Nat → run}
    {num w : Nat} (rs : RowStruct rle num w) (lab : Labelled colors rle rle2 num) :
    ExtractPre rle2 num := by
  constructor
  · exact lab.le
  · exact lab.idem
  · intro i hi
    rw [color_of_dropParent (lab.geom _), color_of_dropParent (lab.geom i)]
    exact (lab.conn i hi).color_eq.symm
  · intro i k hik hk
    rw [y_of_dropParent (lab.geom i), y_of_dropParent (lab.geom k)]
    exact rs.y_mono hik hk
  · intro i hi
    rw [width_of_dropParent (lab.geom i)]
    exact (rs.runs i hi).1
  · intro i hi
    rw [next_of_dropParent (lab.geom i)]
    exact (rs.runs i hi).2.2.2

theorem mem_runPixels {rmap : Nat → run} {L : List Nat} {q : Nat × Nat} :
    q ∈ runPixels rmap L ↔
      ∃ u, u ∈ L ∧ ∃ t, t < (rmap u).width ∧ q = ((rmap u).x + t, (rmap u).y) := by
  unfold runPixels
  rw [List.mem_flatMap]
  constructor
  · rintro ⟨u, hu, hq⟩
    rw [List.mem_map] at hq
    obtain ⟨t, ht, e⟩ := hq
    exact ⟨u, hu, t, List.mem_range.1 ht, e.symm⟩
  · rintro ⟨u, hu, t, ht, e⟩
    exact ⟨u, hu, List.mem_map.2 ⟨t, List.mem_range.2 ht, e.symm⟩⟩

theorem two_mul_sum_range (x : Nat) :
    ∀ w, 2 * ((List.range w).map (fun t => x + t)).sum = w * (2 * x + w - 1) := by
  intro w
  induction w with
  | zero => simp
  | succ w ih =>
    rw [List.range_succ, List.map_append, List.sum_append, Nat.mul_add, ih]
    cases w with
    | zero => simp
    | succ v =>
      simp only [List.map_cons, List.map_nil, List.sum_cons, List.sum_nil]
      have e1 : 2 * x + (v + 1) - 1 = 2 * x + v := by omega
      have e2 : 2 * x + (v + 1 + 1) - 1 = 2 * x + v + 1 := by omega
      rw [e1, e2]
      ring

/-- `range_sum x w` is the sum of the integers `x, …, x + w - 1`. -/
theorem range_sum_eq (x w : Nat) :
    range_sum x w = ((List.range w).map (fun t => x + t)).sum := by
  unfold range_sum
  rw [← two_mul_sum_range x w]
  exact Nat.mul_div_cancel_left _ (by decide)

theorem sum_fst_runPixels (rmap : Nat → run) :
    ∀ L : List Nat, ((runPixels rmap L).map (fun q => (q.1 : ℚ))).sum =
      (L.map (fun u => (range_sum (rmap u).x (rmap u).width : ℚ))).sum := by
  intro L
  induction L with
  | nil => rfl
  | cons u L ih =>
    have e : runPixels rmap (u :: L) =
        (List.range (rmap u).width).map (fun t => ((rmap u).x + t, (rmap u).y)) ++
          runPixels rmap L := by
      unfold runPixels
      rw [List.flatMap_cons]
    rw [e, List.map_append, List.sum_append, ih, List.map_cons, List.sum_cons,
      range_sum_eq, Nat.cast_list_sum, List.map_map, List.map_map]
    rfl

theorem sum_snd_runPixels (rmap : Nat → run) :
    ∀ L : List Nat, ((runPixels rmap L).map (fun q => (q.2 : ℚ))).sum =
      (L.map (fun u => (((rmap u).y * (rmap u).width : Nat) : ℚ))).sum := by
  intro L
  induction L with
  | nil => rfl
  | cons u L ih =>
    have e : runPixels rmap (u :: L) =
        (List.range (rmap u).width).map (fun t => ((rmap u).x + t, (rmap u).y)) ++
          runPixels rmap L := by
      unfold runPixels
      rw [List.flatMap_cons]
    have hc : ∀ n : Nat, (((List.range n).map (fun t => ((rmap u).x + t, (rmap u).y))).map
        (fun q => (q.2 : ℚ))).sum = (((rmap u).y * n : Nat) : ℚ) := by
      intro n
      induction n with
      | zero => simp
      | succ n ihn =>
        rw [List.range_succ, List.map_append, List.map_append, List.sum_append, ihn]
        simp only [List.map_cons, List.map_nil, List.sum_cons, List.sum_nil]
        push_cast
        ring
    rw [e, List.map_append, List.sum_append, ih, List.map_cons, List.sum_cons, hc]

theorem length_runPixels (rmap : Nat → run) :
    ∀ L : List Nat, (runPixels rmap L).length = (L.map (fun u => (rmap u).width)).sum := by
  intro L
  induction L with
  | nil => rfl
  | cons u L ih =>
    have e : runPixels rmap (u :: L) =
        (List.range (rmap u).width).map (fun t => ((rmap u).x + t, (rmap u).y)) ++
          runPixels rmap L := by
      unfold runPixels
      rw [List.flatMap_cons]
    rw [e, List.length_append, ih, List.length_map, List.length_range, List.map_cons,
      List.sum_cons]

/-- The pipeline up to `SegExtractRegions`: the labelled run list of an
encoded image satisfies what the extraction relies on, and the labelling left
the geometry of the runs alone. -/
theorem extractPre_of_pipeline (colors : Nat → color_class_state) (img : Nat → Nat)
    (w h fuel : Nat) (rle0 : Nat → run) (hval : ∀ p, p < w * h → img p < COLOR_COUNT)
    (hf : w < fuel) (map' : Nat → Nat) (rle : Nat → run) (num : Nat)
    (henc : SegEncodeRuns colors w h fuel img rle0 = some (map', rle, num))
    (rle2 : Nat → run) (hcc : SegConnectComponents colors fuel rle num = some rle2) :
    ExtractPre rle2 num ∧ ∀ u, dropParent (rle2 u) = dropParent (rle u) := by
  obtain ⟨rs, _, _, _⟩ :=
    SegEncodeRuns_rowStruct colors img w h fuel rle0 hval hf map' rle num henc
  have lab := SegConnectComponents_labelled rs fuel rle2 hcc
  exact ⟨ExtractPre_of_labelled rs lab, lab.geom⟩

/-- C5: for every run list produced by `SegEncodeRuns` and labelled by
`SegConnectComponents`, when `SegExtractRegions` does not overflow the region
table, every region `b` it reports satisfies: the runs visited from
`run_start` along the `next` links until a `next` of 0 are exactly the runs of
an enabled class whose `parent` field now holds `b`, and `area` is the sum of
the widths of the visited runs (the widths being those `SegEncodeRuns` wrote). -/
theorem SegExtractRegions_area (colors : Nat → color_class_state) (img : Nat → Nat)
    (w h fuel : Nat) (rle0 : Nat → run) (hval : ∀ p, p < w * h → img p < COLOR_COUNT)
    (hf : w < fuel) (map' : Nat → Nat) (rle : Nat → run) (num : Nat)
    (henc : SegEncodeRuns colors w h fuel img rle0 = some (map', rle, num))
    (rle2 : Nat → run) (hcc : SegConnectComponents colors fuel rle num = some rle2)
    (reg0 : Nat → region) (rmapF : Nat → run) (regF : Nat → region) (region_c : Nat)
    (hext : SegExtractRegions colors rle2 reg0 num = (rmapF, regF, region_c))
    (hno : region_c < MAX_REG) (b : Nat) (hb : b < region_c) :
    (∀ u, (rmapF u).width = (rle u).width) ∧
    (∀ fuel2, num ≤ fuel2 →
      threadedRuns rmapF fuel2 (regF b).run_start = regionRuns colors rmapF num b) ∧
    (regF b).area =
      ((threadedRuns rmapF num (regF b).run_start).map (fun u => (rmapF u).width)).sum := by
  obtain ⟨pre, hgeo⟩ :=
    extractPre_of_pipeline colors img w h fuel rle0 hval hf map' rle num henc rle2 hcc
  obtain ⟨hg, hE⟩ := SegExtractRegions_extracted colors pre reg0 (by rw [hext]; exact hno)
  rw [hext] at hg hE
  have ex : Extracted colors rmapF num b (regF b) := hE b hb
  refine ⟨fun u => ?_, ex.threaded, ?_⟩
  · exact (width_of_dropLinks (hg u)).trans (width_of_dropParent (hgeo u))
  · rw [ex.threaded num (Nat.le_refl _)]
    exact ex.area

/-- C5 applied to the 3×3 cross of class 1: its one region. -/
theorem SegExtractRegions_area_witness :
    ((∀ p, p < 3 * 3 → crossImage p < COLOR_COUNT) ∧ 3 < 10 ∧
      SegEncodeRuns crossColors 3 3 10 crossImage (fun _ => blankRun)
        = some (crossRuns.1, crossRuns.2.1, crossRuns.2.2) ∧
      SegConnectComponents crossColors 10 crossRuns.2.1 crossRuns.2.2 = some crossLabelled ∧
      crossRegions.2.2 < MAX_REG ∧ 0 < crossRegions.2.2) ∧
    ((∀ u, (crossRegions.1 u).width = (crossRuns.2.1 u).width) ∧
    (∀ fuel2, crossRuns.2.2 ≤ fuel2 →
      threadedRuns crossRegions.1 fuel2 (crossRegions.2.1 0).run_start =
        regionRuns crossColors crossRegions.1 crossRuns.2.2 0) ∧
    (crossRegions.2.1 0).area =
      ((threadedRuns crossRegions.1 crossRuns.2.2 (crossRegions.2.1 0).run_start).map
        (fun u => (crossRegions.1 u).width)).sum) :=
  ⟨⟨by decide, by decide, eq_some_getD (by decide) (crossImage, fun _ => blankRun, 0),
      eq_some_getD (by decide) crossRuns.2.1, by decide, by decide⟩,
    SegExtractRegions_area crossColors crossImage 3 3 10 (fun _ => blankRun) (by decide)
      (by decide) crossRuns.1 crossRuns.2.1 crossRuns.2.2
      (eq_some_getD (by decide) (crossImage, fun _ => blankRun, 0)) crossLabelled
      (eq_some_getD (by decide) crossRuns.2.1) blankRegions crossRegions.1 crossRegions.2.1
      crossRegions.2.2 rfl (by decide) 0 (by decide)⟩

/-- C6: for every run list produced by `SegEncodeRuns` and labelled by
`SegConnectComponents`, when `SegExtractRegions` does not overflow the region
table, the bounding box of every region `b` it reports is exact and inclusive
over the pixels covered by the region's runs (there is at least one): every
such pixel lies in `[x1, x2] × [y1, y2]`, and each of the four bounds is
attained by one of them. -/
theorem SegExtractRegions_bbox (colors : Nat → color_class_state) (img : Nat → Nat)
    (w h fuel : Nat) (rle0 : Nat → run) (hval : ∀ p, p < w * h → img p < COLOR_COUNT)
    (hf : w < fuel) (map' : Nat → Nat) (rle : Nat → run) (num : Nat)
    (henc : SegEncodeRuns colors w h fuel img rle0 = some (map', rle, num))
    (rle2 : Nat → run) (hcc : SegConnectComponents colors fuel rle num = some rle2)
    (reg0 : Nat → region) (rmapF : Nat → run) (regF : Nat → region) (region_c : Nat)
    (hext : SegExtractRegions colors rle2 reg0 num = (rmapF, regF, region_c))
    (hno : region_c < MAX_REG) (b : Nat) (hb : b < region_c) :
    (∀ q, q ∈ runPixels rmapF (regionRuns colors rmapF num b) →
      (regF b).x1 ≤ q.1 ∧ q.1 ≤ (regF b).x2 ∧ (regF b).y1 ≤ q.2 ∧ q.2 ≤ (regF b).y2) ∧
    (∃ q, q ∈ runPixels rmapF (regionRuns colors rmapF num b) ∧ q.1 = (regF b).x1) ∧
    (∃ q, q ∈ runPixels rmapF (regionRuns colors rmapF num b) ∧ q.1 = (regF b).x2) ∧
    (∃ q, q ∈ runPixels rmapF (regionRuns colors rmapF num b) ∧ q.2 = (regF b).y1) ∧
    (∃ q, q ∈ runPixels rmapF (regionRuns colors rmapF num b) ∧ q.2 = (regF b).y2) := by
  obtain ⟨pre, _⟩ :=
    extractPre_of_pipeline colors img w h fuel rle0 hval hf map' rle num henc rle2 hcc
  obtain ⟨_, hE⟩ := SegExtractRegions_extracted colors pre reg0 (by rw [hext]; exact hno)
  rw [hext] at hE
  have ex : Extracted colors rmapF num b (regF b) := hE b hb
  refine ⟨fun q hq => ?_, ?_, ?_, ?_, ?_⟩
  · obtain ⟨u, hu, t, ht, e⟩ := mem_runPixels.1 hq
    rw [e]
    have h1 := ex.x1_le u hu
    have h2 := ex.x2_ge u hu
    have h3 := ex.y1_le u hu
    have h4 := ex.y2_ge u hu
    refine ⟨?_, ?_, h3, h4⟩
    · show (regF b).x1 ≤ (rmapF u).x + t
      omega
    · show (rmapF u).x + t ≤ (regF b).x2
      omega
  · obtain ⟨u, hu, e⟩ := ex.x1_mem
    exact ⟨((rmapF u).x + 0, (rmapF u).y),
      mem_runPixels.2 ⟨u, hu, 0, ex.width u hu, rfl⟩, e⟩
  · obtain ⟨u, hu, e⟩ := ex.x2_mem
    have hw := ex.width u hu
    refine ⟨((rmapF u).x + ((rmapF u).width - 1), (rmapF u).y),
      mem_runPixels.2 ⟨u, hu, (rmapF u).width - 1, by omega, rfl⟩, ?_⟩
    show (rmapF u).x + ((rmapF u).width - 1) = (regF b).x2
    omega
  · obtain ⟨u, hu, e⟩ := ex.y1_mem
    exact ⟨((rmapF u).x + 0, (rmapF u).y),
      mem_runPixels.2 ⟨u, hu, 0, ex.width u hu, rfl⟩, e⟩
  · obtain ⟨u, hu, e⟩ := ex.y2_mem
    exact ⟨((rmapF u).x + 0, (rmapF u).y),
      mem_runPixels.2 ⟨u, hu, 0, ex.width u hu, rfl⟩, e⟩

/-- C6 applied to the 3×3 cross of class 1: its one region. -/
theorem SegExtractRegions_bbox_witness :
    ((∀ p, p < 3 * 3 → crossImage p < COLOR_COUNT) ∧ 3 < 10 ∧
      SegEncodeRuns crossColors 3 3 10 crossImage (fun _ => blankRun)
        = some (crossRuns.1, crossRuns.2.1, crossRuns.2.2) ∧
      SegConnectComponents crossColors 10 crossRuns.2.1 crossRuns.2.2 = some crossLabelled ∧
      crossRegions.2.2 < MAX_REG ∧ 0 < crossRegions.2.2) ∧
    ((∀ q, q ∈ runPixels crossRegions.1 (regionRuns crossColors crossRegions.1 crossRuns.2.2 0) →
      (crossRegions.2.1 0).x1 ≤ q.1 ∧ q.1 ≤ (crossRegions.2.1 0).x2 ∧
        (crossRegions.2.1 0).y1 ≤ q.2 ∧ q.2 ≤ (crossRegions.2.1 0).y2) ∧
    (∃ q, q ∈ runPixels crossRegions.1 (regionRuns crossColors crossRegions.1 crossRuns.2.2 0) ∧
      q.1 = (crossRegions.2.1 0).x1) ∧
    (∃ q, q ∈ runPixels crossRegions.1 (regionRuns crossColors crossRegions.1 crossRuns.2.2 0) ∧
      q.1 = (crossRegions.2.1 0).x2) ∧
    (∃ q, q ∈ runPixels crossRegions.1 (regionRuns crossColors crossRegions.1 crossRuns.2.2 0) ∧
      q.2 = (crossRegions.2.1 0).y1) ∧
    (∃ q, q ∈ runPixels crossRegions.1 (regionRuns crossColors crossRegions.1 crossRuns.2.2 0) ∧
      q.2 = (crossRegions.2.1 0).y2)) :=
  ⟨⟨by decide, by decide, eq_some_getD (by decide) (crossImage, fun _ => blankRun, 0),
      eq_some_getD (by decide) crossRuns.2.1, by decide, by decide⟩,
    SegExtractRegions_bbox crossColors crossImage 3 3 10 (fun _ => blankRun) (by decide)
      (by decide) crossRuns.1 crossRuns.2.1 crossRuns.2.2
      (eq_some_getD (by decide) (crossImage, fun _ => blankRun, 0)) crossLabelled
      (eq_some_getD (by decide) crossRuns.2.1) blankRegions crossRegions.1 crossRegions.2.1
      crossRegions.2.2 rfl (by decide) 0 (by decide)⟩

/-- C7: for every run list produced by `SegEncodeRuns` and labelled by
`SegConnectComponents`, when `SegExtractRegions` does not overflow the region
table, with exact rational arithmetic every region `b` it reports has `cen_x`
equal to the sum of the x coordinates of the pixels covered by its runs
divided by `area`, `cen_y` equal to the sum of their y coordinates divided by
`area`, where `area` is the (positive) number of those pixels; and
`range_sum x w` is the sum of the integers `x, …, x + w - 1`. -/
theorem SegExtractRegions_centroid (colors : Nat → color_class_state) (img : Nat → Nat)
    (w h fuel : Nat) (rle0 : Nat → run) (hval : ∀ p, p < w * h → img p < COLOR_COUNT)
    (hf : w < fuel) (map' : Nat → Nat) (rle : Nat → run) (num : Nat)
    (henc : SegEncodeRuns colors w h fuel img rle0 = some (map', rle, num))
    (rle2 : Nat → run) (hcc : SegConnectComponents colors fuel rle num = some rle2)
    (reg0 : Nat → region) (rmapF : Nat → run) (regF : Nat → region) (region_c : Nat)
    (hext : SegExtractRegions colors rle2 reg0 num = (rmapF, regF, region_c))
    (hno : region_c < MAX_REG) (b : Nat) (hb : b < region_c) :
    (regF b).cen_x =
      ((runPixels rmapF (regionRuns colors rmapF num b)).map (fun q => (q.1 : ℚ))).sum /
        ((regF b).area : ℚ) ∧
    (regF b).cen_y =
      ((runPixels rmapF (regionRuns colors rmapF num b)).map (fun q => (q.2 : ℚ))).sum /
        ((regF b).area : ℚ) ∧
    (regF b).area = (runPixels rmapF (regionRuns colors rmapF num b)).length ∧
    0 < (regF b).area ∧
    ∀ x v, range_sum x v = ((List.range v).map (fun t => x + t)).sum := by
  obtain ⟨pre, _⟩ :=
    extractPre_of_pipeline colors img w h fuel rle0 hval hf map' rle num henc rle2 hcc
  obtain ⟨_, hE⟩ := SegExtractRegions_extracted colors pre reg0 (by rw [hext]; exact hno)
  rw [hext] at hE
  have ex : Extracted colors rmapF num b (regF b) := hE b hb
  have hlen : (regF b).area = (runPixels rmapF (regionRuns colors rmapF num b)).length := by
    rw [length_runPixels]; exact ex.area
  refine ⟨?_, ?_, hlen, ?_, range_sum_eq⟩
  · rw [sum_fst_runPixels]; exact ex.cen_x
  · rw [sum_snd_runPixels]; exact ex.cen_y
  · rw [hlen]
    obtain ⟨u, hu, _⟩ := ex.x1_mem
    exact List.length_pos_of_mem
      (mem_runPixels.2 ⟨u, hu, 0, ex.width u hu, rfl⟩)

/-- C7 applied to the 3×3 cross of class 1: its one region. -/
theorem SegExtractRegions_centroid_witness :
    ((∀ p, p < 3 * 3 → crossImage p < COLOR_COUNT) ∧ 3 < 10 ∧
      SegEncodeRuns crossColors 3 3 10 crossImage (fun _ => blankRun)
        = some (crossRuns.1, crossRuns.2.1, crossRuns.2.2) ∧
      SegConnectComponents crossColors 10 crossRuns.2.1 crossRuns.2.2 = some crossLabelled ∧
      crossRegions.2.2 < MAX_REG ∧ 0 < crossRegions.2.2) ∧
    ((crossRegions.2.1 0).cen_x =
      ((runPixels crossRegions.1 (regionRuns crossColors crossRegions.1 crossRuns.2.2 0)).map
        (fun q => (q.1 : ℚ))).sum / ((crossRegions.2.1 0).area : ℚ) ∧
    (crossRegions.2.1 0).cen_y =
      ((runPixels crossRegions.1 (regionRuns crossColors crossRegions.1 crossRuns.2.2 0)).map
        (fun q => (q.2 : ℚ))).sum / ((crossRegions.2.1 0).area : ℚ) ∧
    (crossRegions.2.1 0).area =
      (runPixels crossRegions.1 (regionRuns crossColors crossRegions.1 crossRuns.2.2 0)).length ∧
    0 < (crossRegions.2.1 0).area ∧
    ∀ x v, range_sum x v = ((List.range v).map (fun t => x + t)).sum) :=
  ⟨⟨by decide, by decide, eq_some_getD (by decide) (crossImage, fun _ => blankRun, 0),
      eq_some_getD (by decide) crossRuns.2.1, by decide, by decide⟩,
    SegExtractRegions_centroid crossColors crossImage 3 3 10 (fun _ => blankRun) (by decide)
      (by decide) crossRuns.1 crossRuns.2.1 crossRuns.2.2
      (eq_some_getD (by decide) (crossImage, fun _ => blankRun, 0)) crossLabelled
      (eq_some_getD (by decide) crossRuns.2.1) blankRegions crossRegions.1 crossRegions.2.1
      crossRegions.2.2 rfl (by decide) 0 (by decide)⟩

/-- On a run list in which every remaining run is an enabled root, with as
many regions allocated as runs processed, the first loop of
`SegExtractRegions` takes the `MAX_REG` exit and leaves every region in the
state its creation gave it. -/
theorem extractLoop_roots (colors : Nat → color_class_state) :
    ∀ (k i : Nat) (rmap : Nat → run) (reg : Nat → region),
      (∀ u, i ≤ u → enabled colors (rmap u).color ∧ (rmap u).parent = u) →
      i < MAX_REG → MAX_REG ≤ i + k →
      (extractLoop colors k i rmap reg i).2.2.2 = true ∧
      (extractLoop colors k i rmap reg i).2.2.1 = MAX_REG ∧
      (∀ b, b < i → (extractLoop colors k i rmap reg i).2.1 b = reg b) ∧
      ∀ b, i ≤ b → b < MAX_REG →
        ((extractLoop colors k i rmap reg i).2.1 b).iterator_id = b ∧
        ((extractLoop colors k i rmap reg i).2.1 b).area = (rmap b).width ∧
        ((extractLoop colors k i rmap reg i).2.1 b).x1 = (rmap b).x ∧
        ((extractLoop colors k i rmap reg i).2.1 b).x2 = (rmap b).x + (rmap b).width ∧
        ((extractLoop colors k i rmap reg i).2.1 b).cen_x =
          (range_sum (rmap b).x (rmap b).width : ℚ) ∧
        ((extractLoop colors k i rmap reg i).2.1 b).cen_y =
          (((rmap b).y * (rmap b).width : Nat) : ℚ) := by
  intro k
  induction k with
  | zero => intro i rmap reg _ h1 h2; omega
  | succ k ih =>
    intro i rmap reg hroots hi hk
    obtain ⟨hen, hroot⟩ := hroots i (Nat.le_refl _)
    rw [extractLoop, if_pos hen]
    simp only []
    rw [if_pos hroot]
    by_cases hov : i + 1 ≥ MAX_REG
    · rw [if_pos hov]
      refine ⟨rfl, rfl, fun b hb => upd_other _ _ _ _ (by omega), fun b hb1 hb2 => ?_⟩
      have : b = i := by omega
      subst this
      refine ⟨?_, ?_, ?_, ?_, ?_, ?_⟩ <;> simp only [upd_same]
    · rw [if_neg hov]
      generalize hR : upd reg i { reg i with
          color := (rmap i).color
          area := (rmap i).width
          x1 := (rmap i).x
          y1 := (rmap i).y
          x2 := (rmap i).x + (rmap i).width
          y2 := (rmap i).y
          cen_x := (range_sum (rmap i).x (rmap i).width : ℚ)
          cen_y := (((rmap i).y * (rmap i).width : Nat) : ℚ)
          run_start := i
          iterator_id := i } = reg'
      have hother : ∀ u, i + 1 ≤ u → setParent rmap i i u = rmap u := by
        intro u hu
        unfold setParent
        rw [upd_other _ _ _ _ (by omega)]
      obtain ⟨h1, h2, h3, h4⟩ := ih (i + 1) (setParent rmap i i) reg'
        (fun u hu => by rw [hother u hu]; exact hroots u (by omega)) (by omega) (by omega)
      refine ⟨h1, h2, fun b hb => ?_, fun b hb1 hb2 => ?_⟩
      · rw [h3 b (by omega), ← hR, upd_other _ _ _ _ (by omega)]
      · by_cases hbi : b = i
        · subst hbi
          rw [h3 b (by omega), ← hR, upd_same]
          exact ⟨rfl, rfl, rfl, rfl, rfl, rfl⟩
        · have := h4 b (by omega) hb2
          rw [hother b (by omega)] at this
          exact this

/-- On a run list of enabled roots at least `MAX_REG` long, `SegExtractRegions`
returns what its first loop left: the finalization loop is not run. -/
theorem SegExtractRegions_roots (colors : Nat → color_class_state) (rmap : Nat → run)
    (reg : Nat → region) (num : Nat)
    (hroots : ∀ u, enabled colors (rmap u).color ∧ (rmap u).parent = u)
    (hnum : MAX_REG ≤ num) :
    (SegExtractRegions colors rmap reg num).2.2 = MAX_REG ∧
    ∀ b, b < MAX_REG →
      ((SegExtractRegions colors rmap reg num).2.1 b).iterator_id = b ∧
      ((SegExtractRegions colors rmap reg num).2.1 b).area = (rmap b).width ∧
      ((SegExtractRegions colors rmap reg num).2.1 b).x1 = (rmap b).x ∧
      ((SegExtractRegions colors rmap reg num).2.1 b).x2 = (rmap b).x + (rmap b).width ∧
      ((SegExtractRegions colors rmap reg num).2.1 b).cen_x =
        (range_sum (rmap b).x (rmap b).width : ℚ) ∧
      ((SegExtractRegions colors rmap reg num).2.1 b).cen_y =
        (((rmap b).y * (rmap b).width : Nat) : ℚ) := by
  have h := extractLoop_roots colors num 0 rmap reg (fun u _ => hroots u) (by decide)
    (by omega)
  unfold SegExtractRegions
  generalize extractLoop colors num 0 rmap reg 0 = E at h ⊢
  obtain ⟨rmap1, reg1, n, fl⟩ := E
  obtain ⟨h1, h2, _, h4⟩ := h
  simp only at h1 h2 h4
  subst h1
  exact ⟨h2, fun b hb => h4 b (Nat.zero_le _) hb⟩

theorem blockRuns_roots (u : Nat) :
    enabled blockColors (blockRuns u).color ∧ (blockRuns u).parent = u := by
  refine ⟨?_, rfl⟩
  show enabled blockColors (1 + (u % 320 + u / 320) % 2)
  rcases Nat.mod_two_eq_zero_or_one (u % 320 + u / 320) with h | h
  · rw [h]; decide
  · rw [h]; decide

/-- C9 fails on the code: on the 153600 runs of the 640×480 block
checkerboard `SegExtractRegions` stops at `MAX_REG = 81920` regions and
reports them as the first loop left them.  The last reported region, built
from the run of the pixels `(638, 255)` and `(639, 255)`, has
`iterator_id = 81919` instead of 0, the exclusive `x2 = 640` instead of 639,
and the undivided sums `cen_x = 1277`, `cen_y = 510` instead of 638.5 and
255. -/
theorem SegExtractRegions_overflow_unfinalized :
    (SegExtractRegions blockColors blockRuns blankRegions 153600).2.2 = MAX_REG ∧
    81919 < MAX_REG ∧
    ((SegExtractRegions blockColors blockRuns blankRegions 153600).2.1 81919).iterator_id
      = 81919 ∧
    ((SegExtractRegions blockColors blockRuns blankRegions 153600).2.1 81919).area = 2 ∧
    ((SegExtractRegions blockColors blockRuns blankRegions 153600).2.1 81919).x1 = 638 ∧
    ((SegExtractRegions blockColors blockRuns blankRegions 153600).2.1 81919).x2 = 640 ∧
    ((SegExtractRegions blockColors blockRuns blankRegions 153600).2.1 81919).cen_x = 1277 ∧
    ((SegExtractRegions blockColors blockRuns blankRegions 153600).2.1 81919).cen_y = 510 := by
  obtain ⟨h1, h2⟩ := SegExtractRegions_roots blockColors blockRuns blankRegions 153600
    blockRuns_roots (by decide)
  obtain ⟨a1, a2, a3, a4, a5, a6⟩ := h2 81919 (by decide)
  refine ⟨h1, by decide, a1, a2, a3, a4, ?_, ?_⟩
  · rw [a5]
    have : range_sum (blockRuns 81919).x (blockRuns 81919).width = 1277 := by decide
    rw [this]; norm_num
  · rw [a6]
    have : (blockRuns 81919).y * (blockRuns 81919).width = 510 := by decide
    rw [this]; norm_num

theorem prod_eta3 {α β γ : Type} (x : α × β × γ) : x = (x.1, x.2.1, x.2.2) := rfl

/-- `CameraAnalyse` on `mixedFrame` returns `mixedAnalysed`. -/
theorem CameraAnalyse_mixed : CameraAnalyse 20 mixedCamera mixedFrame = some mixedAnalysed := by
  have hEnc : SegEncodeRuns mixedCamera.colors mixedCamera.width mixedCamera.height 20
      (segment mixedCamera.pixel_active mixedFrame mixedCamera.colors_lookup mixedCamera.width
        mixedCamera.height mixedCamera.segmented) mixedCamera.rle
      = some (mixedEnc.1, mixedEnc.2.1, mixedEnc.2.2) :=
    eq_some_getD (by decide) (mixedSeg, mixedCamera.rle, 0)
  have hCC : SegConnectComponents mixedCamera.colors 20 mixedEnc.2.1 mixedEnc.2.2
      = some mixedCC := eq_some_getD (by decide) mixedEnc.2.1
  have hEx : SegExtractRegions mixedCamera.colors mixedCC mixedCamera.regions mixedEnc.2.2
      = (mixedEx.1, mixedEx.2.1, mixedEx.2.2) := prod_eta3 mixedEx
  have hSep : SegSeparateRegions mixedEx.2.1 mixedCamera.colors mixedEx.2.2
      = (mixedSep.1, mixedSep.2.1, mixedSep.2.2) := prod_eta3 mixedSep
  have hPass : passesLoop 20 mixedSep.2.2 0 = some (0, 1) := by decide
  unfold CameraAnalyse
  simp only []
  rw [hEnc]
  simp only []
  rw [hCC]
  simp only []
  rw [hEx]
  simp only []
  rw [hSep]
  simp only []
  rw [hPass]
  rfl

/-- `CameraGetBlobs(1)` on `mixedAnalysed` builds its two rows from the region
table entries 0 and 1. -/
theorem CameraGetBlobs_mixed :
    CameraGetBlobs 20 mixedAnalysed 1 =
      some ({ mixedAnalysed with regions := mixedSorted.1 },
        [blobRow mixedAnalysed (mixedSorted.1 0), blobRow mixedAnalysed (mixedSorted.1 1)]) := by
  have hsort : SegSortRegions 20 mixedAnalysed.regions (mixedAnalysed.colors 1).list
      mixedAnalysed.passes = some (mixedSorted.1, mixedSorted.2) :=
    eq_some_getD (by decide) (mixedAnalysed.regions, none)
  have hhead : mixedSorted.2 = some 0 := by decide
  have hnum : (mixedAnalysed.colors 1).num = 2 := by decide
  unfold CameraGetBlobs
  rw [hsort]
  simp only []
  rw [hhead]
  simp only []
  rw [hnum]
  rfl

/-- C3 fails on the code: on the 4×2 frame `mixedFrame` (classes
`1 2 1 1 / 1 1 0 0`, `min_area` 2 for class 1 and 1 for class 2) the list of
class 1 holds the regions 2 and 0 of the region table, and `get_blobs(1)`
returns two rows, but builds them from `list[0]` and `list[1]`, the table
entries 0 and 1: its second row reports region 1, the region of class 2 with
area 1 (below `min_area[1] = 2`, bounding box `x1 = x2 = 1`), and the class-1
region 2 (area 2, `x1 = 2`, `x2 = 3`) is not reported. -/
theorem CameraGetBlobs_reports_foreign_region :
    CameraAnalyse 20 mixedCamera mixedFrame = some mixedAnalysed ∧
    (mixedAnalysed.colors 1).num = 2 ∧ (mixedAnalysed.colors 1).min_area = 2 ∧
    IsChain (fun i => (mixedAnalysed.regions i).next) (mixedAnalysed.colors 1).list [2, 0] ∧
    CameraGetBlobs 20 mixedAnalysed 1 =
      some ({ mixedAnalysed with regions := mixedSorted.1 },
        [blobRow mixedAnalysed (mixedSorted.1 0), blobRow mixedAnalysed (mixedSorted.1 1)]) ∧
    IsChain (fun i => (mixedSorted.1 i).next) mixedSorted.2 [0, 2] ∧
    (mixedSorted.1 1).color = 2 ∧ (mixedSorted.1 1).area = 1 ∧
    ((blobRow mixedAnalysed (mixedSorted.1 1)).get? 2 = some 1 ∧
      (blobRow mixedAnalysed (mixedSorted.1 1)).drop 5 = [1, 1, 0, 0]) ∧
    ((mixedSorted.1 2).color = 1 ∧ (mixedSorted.1 2).area = 2 ∧ (mixedSorted.1 2).x1 = 2 ∧
      (mixedSorted.1 2).x2 = 3 ∧ (mixedSorted.1 2).y1 = 0 ∧ (mixedSorted.1 2).y2 = 0) :=
  ⟨CameraAnalyse_mixed, by decide, by decide, by decide, CameraGetBlobs_mixed, by decide,
    by decide, by decide, by decide, by decide⟩

/-- A second `CameraGetBlobs(1)`, on `mixedAfter`, builds its two rows from
the region table entries 2 and 3. -/
theorem CameraGetBlobs_mixed_again :
    CameraGetBlobs 20 mixedAfter 1 =
      some (mixedAfter,
        [blobRow mixedAfter (mixedAfter.regions 2), blobRow mixedAfter (mixedAfter.regions 3)]) := by
  have hl : (mixedAfter.colors 1).list = some 2 := by decide
  have hn : (mixedAfter.regions 2).next = none := by decide
  have hnum : (mixedAfter.colors 1).num = 2 := by decide
  have hsort : SegSortRegions 20 mixedAfter.regions (mixedAfter.colors 1).list
      mixedAfter.passes = some (mixedAfter.regions, some 2) := by
    rw [hl, SegSortRegions]
    simp only [hn, if_true]
  unfold CameraGetBlobs
  rw [hsort]
  simp only []
  rw [hnum]
  rfl

/-- C13 fails on the code: after `analyse` on the 4×2 frame `mixedFrame` the
list of class 1 is the chain of the regions 2 and 0 (`num = 2`).
`get_blobs(1)` sorts it into 0, 2 but leaves `colors[1].list` pointing at
region 2, now the last node: afterwards the chain reachable from
`colors[1].list` is the single region 2 while `num` is still 2, and a second
`get_blobs(1)` returns a different table (areas 2 and 0, read from the table
entries 2 and 3, instead of 3 and 1). -/
theorem CameraGetBlobs_list_not_stable :
    CameraAnalyse 20 mixedCamera mixedFrame = some mixedAnalysed ∧
    (IsChain (fun i => (mixedAnalysed.regions i).next) (mixedAnalysed.colors 1).list [2, 0] ∧
      (mixedAnalysed.colors 1).num = 2) ∧
    CameraGetBlobs 20 mixedAnalysed 1 =
      some (mixedAfter,
        [blobRow mixedAnalysed (mixedSorted.1 0), blobRow mixedAnalysed (mixedSorted.1 1)]) ∧
    (IsChain (fun i => (mixedAfter.regions i).next) (mixedAfter.colors 1).list [2] ∧
      (mixedAfter.colors 1).num = 2) ∧
    CameraGetBlobs 20 mixedAfter 1 =
      some (mixedAfter,
        [blobRow mixedAfter (mixedAfter.regions 2), blobRow mixedAfter (mixedAfter.regions 3)]) ∧
    [blobRow mixedAnalysed (mixedSorted.1 0), blobRow mixedAnalysed (mixedSorted.1 1)].map
      (fun r => r.get? 2) = [some 3, some 1] ∧
    [blobRow mixedAfter (mixedAfter.regions 2), blobRow mixedAfter (mixedAfter.regions 3)].map
      (fun r => r.get? 2) = [some 2, some 0] :=
  ⟨CameraAnalyse_mixed, by decide, CameraGetBlobs_mixed, by decide, CameraGetBlobs_mixed_again,
    by decide, by decide⟩

/-- Runs of the first row of an encoded run list start at or after their own
index. -/
theorem RowStruct.index_le_x {rle : Nat → run} {num w : Nat} (rs : RowStruct rle num w) :
    ∀ (i : Nat), i < num → (rle i).y = 0 → i ≤ (rle i).x := by
  intro i
  induction i with
  | zero => intro _ _; exact Nat.zero_le _
  | succ i ih =>
    intro hi hy
    rcases rs.step i hi with ⟨h1, h2⟩ | ⟨h1, _⟩
    · have := ih (by omega) (by rw [← h1]; exact hy)
      have hw := (rs.runs i (by omega)).1
      omega
    · omega

/-- In an encoded run list with more runs than columns the run of index `w`
lies below the first row. -/
theorem RowStruct.below_first {rle : Nat → run} {num w : Nat} (rs : RowStruct rle num w)
    (h : w < num) : (rle w).y ≠ 0 := by
  intro hy
  have h1 := rs.index_le_x w h hy
  obtain ⟨h2, h3, _⟩ := rs.runs w h
  omega

/-- C14: for every run list produced by `SegEncodeRuns` from an image of at
least two rows and between 1 and `MAX_WIDTH` columns with pixels in
`[0, COLOR_COUNT)`, `SegConnectComponents` returns, and afterwards every run
index `r < N` satisfies `parent(r) ≤ r` and `parent(parent(r)) = parent(r)`:
every run points directly at a self-parented root. -/
theorem SegConnectComponents_compressed (colors : Nat → color_class_state)
    (img : Nat → Nat) (w h fuel : Nat) (rle0 : Nat → run)
    (hval : ∀ p, p < w * h → img p < COLOR_COUNT) (hh : 2 ≤ h) (hw : 0 < w)
    (hw2 : w ≤ MAX_WIDTH) (map' : Nat → Nat) (rle : Nat → run) (num : Nat)
    (henc : SegEncodeRuns colors w h fuel img rle0 = some (map', rle, num))
    (hf : w < fuel) (hf2 : 2 * num ≤ fuel) :
    ∃ rle2, SegConnectComponents colors fuel rle num = some rle2 ∧
      ∀ r, r < num → (rle2 r).parent ≤ r ∧ (rle2 (rle2 r).parent).parent = (rle2 r).parent := by
  obtain ⟨rs, _, _, hlast⟩ :=
    SegEncodeRuns_rowStruct colors img w h fuel rle0 hval hf map' rle num henc
  have htot : ∃ t, 1 ≤ t ∧ t < num ∧ (rle t).y ≠ 0 := by
    by_cases hno : num < MAX_RUNS
    · obtain ⟨hn0, hy⟩ := hlast hno hw (by omega)
      refine ⟨num - 1, ?_, by omega, by omega⟩
      by_cases h0 : num - 1 = 0
      · rw [h0, rs.first hn0] at hy
        omega
      · omega
    · have hwn : w < num := by
        have h1 : MAX_WIDTH < MAX_RUNS := by decide
        omega
      exact ⟨w, hw, hwn, rs.below_first hwn⟩
  obtain ⟨t, ht1, htn, hty⟩ := htot
  obtain ⟨rle2, e⟩ := @SegConnectComponents_total colors rle num w rs fuel t ht1 htn hty hf2
  have lab := SegConnectComponents_labelled rs fuel rle2 e
  exact ⟨rle2, e, fun r hr => ⟨lab.le r hr, lab.idem r hr⟩⟩

/-- C14 applied to the 3×3 cross of class 1. -/
theorem SegConnectComponents_compressed_witness :
    ((∀ p, p < 3 * 3 → crossImage p < COLOR_COUNT) ∧ 2 ≤ 3 ∧ 0 < 3 ∧ 3 ≤ MAX_WIDTH ∧
      SegEncodeRuns crossColors 3 3 10 crossImage (fun _ => blankRun)
        = some (crossRuns.1, crossRuns.2.1, crossRuns.2.2) ∧
      3 < 10 ∧ 2 * crossRuns.2.2 ≤ 10) ∧
    ∃ rle2, SegConnectComponents crossColors 10 crossRuns.2.1 crossRuns.2.2 = some rle2 ∧
      ∀ r, r < crossRuns.2.2 →
        (rle2 r).parent ≤ r ∧ (rle2 (rle2 r).parent).parent = (rle2 r).parent :=
  ⟨⟨by decide, by decide, by decide, by decide,
      eq_some_getD (by decide) (crossImage, fun _ => blankRun, 0), by decide, by decide⟩,
    SegConnectComponents_compressed crossColors crossImage 3 3 10 (fun _ => blankRun)
      (by decide) (by decide) (by decide) (by decide) crossRuns.1 crossRuns.2.1 crossRuns.2.2
      (eq_some_getD (by decide) (crossImage, fun _ => blankRun, 0)) (by decide) (by decide)⟩

/-- C15: for every finite null-terminated list of regions (the chain `l` from
`head`) and every `passes`, `SegSortRegions` returns (with fuel for the
length of the list) a null-terminated list that is a permutation of the
input: each input region exactly once and no other region; and no field of
any region other than `next` is changed. -/
theorem SegSortRegions_permutation (fuel : Nat) (reg : Nat → region) (head : Option Nat)
    (l : List Nat) (passes : Nat)
    (hl : IsChain (fun q => (reg q).next) head l) (hf : l.length ≤ fuel) :
    ∃ reg' head' l', SegSortRegions fuel reg head passes = some (reg', head') ∧
      IsChain (fun q => (reg' q).next) head' l' ∧ l'.Perm l ∧ l'.Nodup ∧
      (∀ q, (reg' q).area = (reg q).area) ∧
      ∀ q, dropNext (reg' q) = dropNext (reg q) := by
  obtain ⟨reg', head', e, hd, hch⟩ := SegSortRegions_spec fuel reg head l passes hl hf
  refine ⟨reg', head', _, e, hch, ?_, IsChain_nodup _ _ hch,
    fun q => area_of_dropNext (hd q), hd⟩
  by_cases h1 : l.length ≤ 1
  · rw [if_pos h1]
  · rw [if_neg h1]
    exact radixPasses_perm _ passes 0 l

/-- C15 applied to the list of areas `[3, 67, 2, 64, 65, 1, 4100]` with a
single pass. -/
theorem SegSortRegions_permutation_witness :
    (IsChain (fun q => (chainTable [3, 67, 2, 64, 65, 1, 4100] q).next) (some 0)
        [0, 1, 2, 3, 4, 5, 6] ∧ [0, 1, 2, 3, 4, 5, 6].length ≤ 7) ∧
    ∃ reg' head' l',
      SegSortRegions 7 (chainTable [3, 67, 2, 64, 65, 1, 4100]) (some 0) 1 = some (reg', head') ∧
      IsChain (fun q => (reg' q).next) head' l' ∧ l'.Perm [0, 1, 2, 3, 4, 5, 6] ∧ l'.Nodup ∧
      (∀ q, (reg' q).area = (chainTable [3, 67, 2, 64, 65, 1, 4100] q).area) ∧
      ∀ q, dropNext (reg' q) = dropNext (chainTable [3, 67, 2, 64, 65, 1, 4100] q) :=
  ⟨by decide, SegSortRegions_permutation 7 (chainTable [3, 67, 2, 64, 65, 1, 4100]) (some 0)
    [0, 1, 2, 3, 4, 5, 6] 1 (by decide) (by decide)⟩

/-- On a run array all of whose entries have `y = 0` the search
`while(map[l1].y == 0) l1++;` does not stop. -/
theorem skipFirstLine_none (map : Nat → run) (hy : ∀ i, (map i).y = 0) :
    ∀ (fuel l1 : Nat), skipFirstLine map fuel l1 = none := by
  intro fuel
  induction fuel with
  | zero => intro l1; rfl
  | succ fuel ih =>
    intro l1
    rw [skipFirstLine, if_pos (hy l1)]
    exact ih (l1 + 1)

theorem rowRuns_eq : rowRuns.2.1 =
    upd (upd (upd (fun _ => blankRun) 0 ⟨0, 0, 2, 1, 0, 0⟩) 1 ⟨2, 0, 2, 2, 1, 0⟩) 2
      ⟨4, 0, 2, 1, 2, 0⟩ := by
  rfl

theorem rowRuns_y (i : Nat) : (rowRuns.2.1 i).y = 0 := by
  rw [rowRuns_eq]
  unfold upd
  split
  · rfl
  · split
    · rfl
    · split
      · rfl
      · rfl

/-- C12 fails on the code: on the single-row image `[1,1,2,2,1,1]` of a camera
whose run array no frame has written yet, `SegEncodeRuns` retains `N = 3`
runs and every entry of the run array has `y = 0`, so the search for the first
run with `y > 0` in `SegConnectComponents` does not stop at `l1 = N`: it goes
on reading the entries at and beyond index `N` and never stops, and
`SegConnectComponents` does not return.  The search does inspect entry `N`:
with a stale entry of row 1 at index 3 it stops there. -/
theorem SegConnectComponents_single_row_search :
    SegEncodeRuns rowColors 6 1 10 rowImage (fun _ => blankRun)
      = some (rowRuns.1, rowRuns.2.1, rowRuns.2.2) ∧
    rowRuns.2.2 = 3 ∧
    (∀ i, (rowRuns.2.1 i).y = 0) ∧
    (∀ fuel, skipFirstLine rowRuns.2.1 fuel 1 = none) ∧
    (∀ fuel, SegConnectComponents rowColors fuel rowRuns.2.1 rowRuns.2.2 = none) ∧
    skipFirstLine (upd rowRuns.2.1 3 ⟨0, 1, 6, 1, 3, 0⟩) 10 1 = some 3 := by
  refine ⟨eq_some_getD (by decide) (rowImage, fun _ => blankRun, 0), by decide, rowRuns_y,
    fun fuel => skipFirstLine_none _ rowRuns_y fuel 1, fun fuel => ?_, by decide⟩
  unfold SegConnectComponents
  rw [skipFirstLine_none _ rowRuns_y fuel 1]

/-- The loop over a row all of whose pixels hold the class `c` writes the one
run that covers the row. -/
theorem encodeRow_uniform (colors : Nat → color_class_state) (w y c : Nat) (row : Nat → Nat)
    (fuel0 fuel : Nat) (rle : Nat → run) (j : Nat) (hrow : ∀ t, t < w → row t = c)
    (hsent : row w ≠ c) (hw : 0 < w) (hf0 : w < fuel0) (hj : j + 1 < MAX_RUNS) :
    encodeRow colors w y row fuel0 (fuel + 2) 0 rle j =
      some (upd rle j ⟨0, y, w, c, j, 0⟩, j + 1, false) := by
  have hscan : scanRun row (row 0) fuel0 0 = some w := by
    rw [hrow 0 hw]
    exact scanRun_spec row c w hsent fuel0 0 (fun t _ ht => hrow t ht) (Nat.zero_le _)
      (by omega)
  rw [encodeRow, if_pos hw, hscan]
  simp only []
  rw [if_pos (Or.inr (Nat.le_refl w)), if_neg (by omega), encodeRow,
    if_neg (Nat.lt_irrefl w), hrow 0 hw, Nat.sub_zero]

/-- The row loop of `SegEncodeRuns` on an image all of whose pixels hold the
class `c`, from row `y` on, with one run written for each earlier row. -/
theorem encodeRows_uniform (colors : Nat → color_class_state) (w h c fuel0 : Nat)
    (hc : c ≠ 255) (hw : 0 < w) (hh : h < MAX_RUNS) (hf0 : w < fuel0) :
    ∀ (n y : Nat) (map : Nat → Nat) (save : Nat) (rle : Nat → run), y + n = h →
      (∀ p, p < w * h → p ≠ y * w → map p = c) → (y * w < w * h → save = c) →
      (∀ i, i < y → rle i = ⟨0, i, w, c, i, 0⟩) →
      ∃ map' rle', encodeRows colors w fuel0 n y map save rle y = some (map', rle', h) ∧
        ∀ i, i < h → rle' i = ⟨0, i, w, c, i, 0⟩ := by
  intro n
  induction n with
  | zero =>
    intro y map save rle hy _ _ hrle
    have : y = h := by omega
    subst this
    exact ⟨map, rle, rfl, hrle⟩
  | succ n ih =>
    intro y map save rle hy hmap hsave hrle
    have hyh : y < h := by omega
    obtain ⟨f, hf⟩ : ∃ f, fuel0 = f + 2 := ⟨fuel0 - 2, by omega⟩
    have hmap1 : ∀ p, p < w * h → upd map (y * w) save p = c := by
      intro p hp
      by_cases hpy : p = y * w
      · rw [hpy, upd_same]
        exact hsave (hpy ▸ hp)
      · rw [upd_other _ _ _ _ hpy]
        exact hmap p hp hpy
    have hrow : ∀ t, t < w →
        (fun x => upd (upd map (y * w) save) (y * w + w) 255 (y * w + x)) t = c := by
      intro t ht
      show upd (upd map (y * w) save) (y * w + w) 255 (y * w + t) = c
      rw [upd_other _ _ _ _ (by omega)]
      exact hmap1 _ (pixel_index_lt hyh ht)
    have hsent : (fun x => upd (upd map (y * w) save) (y * w + w) 255 (y * w + x)) w ≠ c := by
      show upd (upd map (y * w) save) (y * w + w) 255 (y * w + w) ≠ c
      rw [upd_same]
      exact fun e => hc e.symm
    have e := encodeRow_uniform colors w y c _ fuel0 f rle y hrow hsent hw hf0 (by omega)
    rw [← hf] at e
    rw [encodeRows]
    simp only [e]
    have hsucc : (y + 1) * w = y * w + w := Nat.succ_mul y w
    apply ih (y + 1) _ _ _ (by omega)
    · intro p hp hne
      rw [hsucc] at hne
      rw [upd_other _ _ _ _ hne]
      exact hmap1 p hp
    · intro hlt
      rw [hsucc] at hlt
      exact hmap1 _ hlt
    · intro i hi
      by_cases hiy : i = y
      · rw [hiy, upd_same]
      · rw [upd_other _ _ _ _ hiy]
        exact hrle i (by omega)

/-- On runs of disabled classes the first loop of `SegExtractRegions` changes
nothing. -/
theorem extractLoop_disabled (colors : Nat → color_class_state) (rmap : Nat → run)
    (reg : Nat → region) (n : Nat) :
    ∀ (k i : Nat), (∀ u, i ≤ u → u < i + k → ¬ enabled colors (rmap u).color) →
      extractLoop colors k i rmap reg n = (rmap, reg, n, false) := by
  intro k
  induction k with
  | zero => intro i _; rfl
  | succ k ih =>
    intro i h
    rw [extractLoop, if_neg (h i (Nat.le_refl _) (by omega))]
    exact ih (i + 1) (fun u h1 h2 => h u (by omega) (by omega))

/-- On a run list of disabled classes `SegExtractRegions` produces no region. -/
theorem SegExtractRegions_disabled (colors : Nat → color_class_state) (rmap : Nat → run)
    (reg : Nat → region) (num : Nat) (h : ∀ u, u < num → ¬ enabled colors (rmap u).color) :
    (SegExtractRegions colors rmap reg num).2.2 = 0 := by
  unfold SegExtractRegions
  rw [extractLoop_disabled colors rmap reg 0 num 0 (fun u _ hu => h u (by omega))]

/-- C11 (amended): for every `W ≥ 1` and `H < MAX_RUNS`, on a segmented image
in which every pixel holds one disabled class `c` in `[0, COLOR_COUNT)`,
`SegEncodeRuns` retains exactly one run per row (run `y` is the row
terminator of row `y`, with `x = 0`, `width = W`, colour `c`; `H` runs in
total) and `SegExtractRegions` produces zero regions on every run list with
these colours, in particular on the list `SegConnectComponents` returns when
there are at least two rows. -/
theorem SegEncodeRuns_uniform_disabled (colors : Nat → color_class_state) (c w h fuel : Nat)
    (img : Nat → Nat) (rle0 : Nat → run) (hc : c < COLOR_COUNT) (hdis : ¬ enabled colors c)
    (himg : ∀ p, p < w * h → img p = c) (hw : 0 < w) (hh : h < MAX_RUNS) (hf : w < fuel) :
    ∃ map' rle, SegEncodeRuns colors w h fuel img rle0 = some (map', rle, h) ∧
      (∀ y, y < h → rle y = ⟨0, y, w, c, y, 0⟩) ∧
      (∀ rle2 reg0, (∀ i, i < h → (rle2 i).color = (rle i).color) →
        (SegExtractRegions colors rle2 reg0 h).2.2 = 0) ∧
      (2 ≤ h → 2 * h ≤ fuel →
        ∃ rle2, SegConnectComponents colors fuel rle h = some rle2 ∧
          ∀ reg0, (SegExtractRegions colors rle2 reg0 h).2.2 = 0) := by
  have hc255 : c ≠ 255 := by
    have : COLOR_COUNT = 10 := rfl
    omega
  obtain ⟨map', rle, e, hrle⟩ := encodeRows_uniform colors w h c fuel hc255 hw hh hf h 0 img
    (img 0) rle0 (by omega) (fun p hp _ => himg p hp)
    (fun hlt => himg 0 (by rw [Nat.zero_mul] at hlt; exact hlt))
    (fun i hi => absurd hi (Nat.not_lt_zero i))
  have hzero : ∀ rle2 reg0, (∀ i, i < h → (rle2 i).color = (rle i).color) →
      (SegExtractRegions colors rle2 reg0 h).2.2 = 0 := by
    intro rle2 reg0 hcol
    apply SegExtractRegions_disabled
    intro u hu
    rw [hcol u hu, hrle u hu]
    exact hdis
  refine ⟨map', rle, e, hrle, hzero, fun h2 hf2 => ?_⟩
  have hval : ∀ p, p < w * h → img p < COLOR_COUNT := fun p hp => by rw [himg p hp]; exact hc
  obtain ⟨rs, _, _, _⟩ :=
    SegEncodeRuns_rowStruct colors img w h fuel rle0 hval hf map' rle h e
  obtain ⟨rle2, e2⟩ := @SegConnectComponents_total colors rle h w rs fuel 1 (Nat.le_refl 1)
    (by omega) (by rw [hrle 1 (by omega)]; exact Nat.one_ne_zero) hf2
  have lab := SegConnectComponents_labelled rs fuel rle2 e2
  exact ⟨rle2, e2, fun reg0 =>
    hzero rle2 reg0 (fun i _ => color_of_dropParent (lab.geom i))⟩

/-- C11 (amended) applied to a 3×2 image of class 0, which `crossColors`
disables. -/
theorem SegEncodeRuns_uniform_disabled_witness :
    (0 < COLOR_COUNT ∧ ¬ enabled crossColors 0 ∧
      (∀ p, p < 3 * 2 → (fun _ => 0 : Nat → Nat) p = 0) ∧ 0 < 3 ∧ 2 < MAX_RUNS ∧ 3 < 10) ∧
    ∃ map' rle,
      SegEncodeRuns crossColors 3 2 10 (fun _ => 0) (fun _ => blankRun) = some (map', rle, 2) ∧
      (∀ y, y < 2 → rle y = ⟨0, y, 3, 0, y, 0⟩) ∧
      (∀ rle2 reg0, (∀ i, i < 2 → (rle2 i).color = (rle i).color) →
        (SegExtractRegions crossColors rle2 reg0 2).2.2 = 0) ∧
      (2 ≤ 2 → 2 * 2 ≤ 10 →
        ∃ rle2, SegConnectComponents crossColors 10 rle 2 = some rle2 ∧
          ∀ reg0, (SegExtractRegions crossColors rle2 reg0 2).2.2 = 0) :=
  ⟨⟨by decide, by decide, fun _ _ => rfl, by decide, by decide, by decide⟩,
    SegEncodeRuns_uniform_disabled crossColors 0 3 2 10 (fun _ => 0) (fun _ => blankRun)
      (by decide) (by decide) (fun _ _ => rfl) (by decide) (by decide) (by decide)⟩

/-- C11 as stated fails: `0xFF` is the value the encoder writes as the row
sentinel, so on the 2×2 image of `0xFF` pixels the scan of a row does not
stop at the sentinel.  The two retained runs have widths 4 and 3, not
`W = 2`. -/
theorem SegEncodeRuns_unclassified_counterexample :
    (∀ p, p < 2 * 2 → ffImage p = 255) ∧
    (SegEncodeRuns crossColors 2 2 10 ffImage (fun _ => blankRun)).map
        (fun r => (r.2.2, [r.2.1 0, r.2.1 1])) =
      some (2, [⟨0, 0, 4, 255, 0, 0⟩, ⟨0, 1, 3, 255, 1, 0⟩]) ∧
    ¬ ((SegEncodeRuns crossColors 2 2 10 ffImage (fun _ => blankRun)).map
        (fun r => (r.2.2, [r.2.1 0, r.2.1 1])) =
      some (2, [⟨0, 0, 2, 255, 0, 0⟩, ⟨0, 1, 2, 255, 1, 0⟩])) := by
  decide

end CMVision
